import Mathlib

/-!
# gastar: a graph-agnostic incremental A* engine

Shallow embedding of `gastar/gastar.hpp` and `gastar/gastar.cpp`.

Representation choices.

* `const void*` is a natural number, `0` being `nullptr`.
* `unsigned` is a natural number; every addition the source performs on
  `unsigned` values is followed by `% UINT_MOD` (32-bit `unsigned`).
* A `t_node*` always points at a value stored inside `all_nodes_`
  (`std::unordered_map` never moves its values), so it is represented by the
  key of that entry, `0` being `nullptr` (no key is null: `setup` rejects a
  null start or end and the neighbor loop stops at `nullptr`).  The numeric
  address of the node stored under key `k` is `addr k`; `addr` is a parameter
  of the development, since the allocator is not part of the repository.
  Reading through a pointer whose entry is absent is undefined in C++ and reads
  `zero_node` here.
* `std::function` members are `Option`s (`none` is the empty function).  A call
  through an empty function (`std::bad_function_call`) makes the embedded
  operation return `none`.
* The neighbor callback is a stateful enumerator in the source: successive calls
  with the same node return its neighbors one by one and then `nullptr`.  It is
  embedded as the list of values those successive calls return; the loop of
  `solve_next` consumes the values standing before the first `nullptr`.
* `std::set<t_node*, decltype(&node_sort)>` belongs to the standard library, not to
  the repository, and `solve_next` uses it outside the conditions under which the C++
  standard fixes its behaviour: it changes the scores of a node that is in the set,
  after which the elements need not be in comparator order and the place an insertion
  takes depends on the shape of the search tree.  The container is therefore a
  parameter of the development: an implementation `C : t_open_set` has a type of
  values (`C.carrier`, the tree), the sequence `C.elems` an iteration visits, and the
  operations `empty`, `emplace` and `erase_begin`, together with the laws that every
  search tree obeys whatever the order of its elements: `erase(begin())` drops the
  head of the sequence, and `emplace` either links the new element somewhere into the
  sequence or, having met an element that is equivalent to it under the comparator,
  leaves the sequence as it is.  All general theorems hold for every such `C`.
  `rb_set` is the implementation of libstdc++ (GCC): the red-black tree of `tree.cc`
  with the search of `_M_get_insert_unique_pos`, the insertion of
  `_Rb_tree_insert_and_rebalance` and the removal of `_Rb_tree_rebalance_for_erase`;
  the concrete sessions are evaluated with it.
* Loops that the source does not bound (`do ... while (continuous)`, the parent
  walk of the reconstruction functions) take a fuel argument and return `none`
  when it runs out.
-/

set_option autoImplicit false
set_option linter.dupNamespace false

namespace gastar

/-! ## Data model (`gastar.hpp`) -/

/-- Type of `const void*` and of node pointers: `0` is `nullptr`. -/
abbrev ptr := Nat

/-- The null pointer. -/
def nullptr : ptr := 0

/-- Number of values of the C++ type `unsigned`. -/
def UINT_MOD : Nat := 4294967296

/-- Record `t_node` of the header; `assigned` and `value` are the two fields of
`g_score`. -/
structure t_node where
  assigned : Bool
  value : Nat
  f_score : Nat
  parent : ptr
  obj : ptr
deriving DecidableEq, Repr

/-- Signature `t_fn_distance`: `(from, to, start, end)`. -/
abbrev t_fn_distance := ptr → ptr → ptr → ptr → Nat

/-- Signature `t_fn_heuristic`: `(node, parent, start, end)`. -/
abbrev t_fn_heuristic := ptr → ptr → ptr → ptr → Nat

/-- Signature `t_fn_neighbor`, as the list of values returned by successive calls. -/
abbrev t_fn_neighbor := ptr → List ptr

/-- Signature `t_fn_usable`: `(node, parent, start, end)`. -/
abbrev t_fn_usable := ptr → ptr → ptr → ptr → Bool

/-- Exception class `gastar_exception`, carrying its `what()` message. -/
structure gastar_exception where
  what : String
deriving DecidableEq, Repr

/-- An implementation of `std::set<t_node*, decltype(&node_sort)>`, given by what the
engine uses of it.  The comparator reads the nodes through their pointers, so `emplace`
takes the comparison as it stands at the time of the call.  `begin()` is the head of
`elems`, `empty()` says that `elems` is empty, `clear()` leaves `empty`.

The laws hold of a search tree whether or not its elements are in comparator order:
an insertion compares the new element with elements of the tree only, links it as a
leaf (which puts it somewhere into the iteration sequence) or returns an element that
compares equivalent to it, and makes no comparison at all in an empty tree. -/
structure t_open_set where
  carrier : Type
  elems : carrier → List ptr
  empty : carrier
  emplace : (ptr → ptr → Bool) → ptr → carrier → carrier
  erase_begin : carrier → carrier
  elems_empty : elems empty = []
  elems_erase_begin : ∀ t b rest, elems t = b :: rest → elems (erase_begin t) = rest
  elems_emplace : ∀ lt x t,
    (elems (emplace lt x t) = elems t ∧ ∃ y, y ∈ elems t ∧ lt x y = false ∧ lt y x = false)
    ∨ (∃ l r, elems t = l ++ r ∧ elems (emplace lt x t) = l ++ x :: r)
  emplace_empty : ∀ lt1 lt2 x, emplace lt1 x empty = emplace lt2 x empty

/-- Tree of libstdc++'s `std::set` (file `tree.cc`): a binary tree whose nodes carry a
colour, red (`true`) or black (`false`), and an element. -/
inductive rb_tree where
  | nil : rb_tree
  | node (red : Bool) (left : rb_tree) (key : ptr) (right : rb_tree) : rb_tree
deriving DecidableEq, Repr

/-- Elements of a tree in iteration order (in-order traversal). -/
def rb_elems : rb_tree → List ptr
  | .nil => []
  | .node _ l k r => rb_elems l ++ k :: rb_elems r

/-- Whether a subtree is a red node (an absent subtree counts as black). -/
def rb_is_red : rb_tree → Bool
  | .node true _ _ _ => true
  | _ => false

/-- The subtree with its root coloured black. -/
def rb_blacken : rb_tree → rb_tree
  | .node _ l k r => .node false l k r
  | .nil => .nil

/-- Search of `_M_get_insert_unique_pos`: descend from the root, to the left when the new
element compares less than the node and to the right otherwise; `pred` is the last node
at which the descent went right, that is the predecessor of the place reached.  The new
element is inserted (`true`) when there is no predecessor or the predecessor compares
less than it. -/
def rb_insert_pos (lt : ptr → ptr → Bool) (x : ptr) : rb_tree → Option ptr → Bool
  | .nil, none => true
  | .nil, some j => lt j x
  | .node _ l k r, pred =>
    if lt x k then rb_insert_pos lt x l pred else rb_insert_pos lt x r (some k)

/-- One round of the loop of `_Rb_tree_insert_and_rebalance` at a node whose left subtree
`l` received the new element: if `l` is red and has a red child, recolour when the right
subtree `r` (the uncle) is red, rotate otherwise. -/
def rb_insert_fix_left (c : Bool) (l : rb_tree) (k : ptr) (r : rb_tree) : rb_tree :=
  match l with
  | .node true (.node true a xk b) pk pr =>
    if rb_is_red r then .node true (.node false (.node true a xk b) pk pr) k (rb_blacken r)
    else .node false (.node true a xk b) pk (.node true pr k r)
  | .node true pl pk (.node true a xk b) =>
    if rb_is_red r then .node true (.node false pl pk (.node true a xk b)) k (rb_blacken r)
    else .node false (.node true pl pk a) xk (.node true b k r)
  | _ => .node c l k r

/-- The mirror image of `rb_insert_fix_left`, for an insertion into the right subtree. -/
def rb_insert_fix_right (c : Bool) (l : rb_tree) (k : ptr) (r : rb_tree) : rb_tree :=
  match r with
  | .node true pl pk (.node true a xk b) =>
    if rb_is_red l then .node true (rb_blacken l) k (.node false pl pk (.node true a xk b))
    else .node false (.node true l k pl) pk (.node true a xk b)
  | .node true (.node true a xk b) pk pr =>
    if rb_is_red l then .node true (rb_blacken l) k (.node false (.node true a xk b) pk pr)
    else .node false (.node true l k a) xk (.node true b pk pr)
  | _ => .node c l k r

/-- Insertion of `_M_insert_node` and `_Rb_tree_insert_and_rebalance`: the new element
becomes a red leaf at the place the descent reaches, and the tree is rebalanced from
there towards the root. -/
def rb_insert (lt : ptr → ptr → Bool) (x : ptr) : rb_tree → rb_tree
  | .nil => .node true .nil x .nil
  | .node c l k r =>
    if lt x k then rb_insert_fix_left c (rb_insert lt x l) k r
    else rb_insert_fix_right c l k (rb_insert lt x r)

/-- The operation `emplace` of libstdc++'s `std::set`. -/
def rb_emplace (lt : ptr → ptr → Bool) (x : ptr) (t : rb_tree) : rb_tree :=
  if rb_insert_pos lt x t none then rb_blacken (rb_insert lt x t) else t

/-- One round of the loop of `_Rb_tree_rebalance_for_erase` at a node of colour `c` whose
left subtree `x` lacks one black node and whose right subtree, the sibling, is black: the
subtree afterwards and whether it still lacks a black node. -/
def rb_erase_fix_black (c : Bool) (x : rb_tree) (k : ptr) : rb_tree → rb_tree × Bool
  | .node _ wl wk wr =>
    if rb_is_red wr then (.node c (.node false x k wl) wk (rb_blacken wr), false)
    else
      match wl with
      | .node true a lk b => (.node c (.node false x k a) lk (.node false b wk wr), false)
      | _ => (.node false x k (.node true wl wk wr), !c)
  | .nil => (.node c x k .nil, false)

/-- The same round with any sibling: a red sibling is first rotated above the node. -/
def rb_erase_fix (c : Bool) (x : rb_tree) (k : ptr) : rb_tree → rb_tree × Bool
  | .node true wl wk wr => (.node false (rb_erase_fix_black true x k wl).1 wk wr, false)
  | w => rb_erase_fix_black c x k w

/-- Removal of the leftmost node by `_Rb_tree_rebalance_for_erase`: the subtree
afterwards and whether it lacks one black node. -/
def rb_erase_min : rb_tree → rb_tree × Bool
  | .nil => (.nil, false)
  | .node c .nil _ r =>
    if c then (r, false) else if rb_is_red r then (rb_blacken r, false) else (r, true)
  | .node c (.node lc ll lk lr) k r =>
    let d := rb_erase_min (.node lc ll lk lr)
    if d.2 then rb_erase_fix c d.1 k r else (.node c d.1 k r, false)

/-- The operation `erase(begin())` of libstdc++'s `std::set`. -/
def rb_erase_begin (t : rb_tree) : rb_tree :=
  (rb_erase_min t).1

/-- The container as libstdc++ implements it (GCC's `std::set`): a red-black tree, searched
from the root.  It obeys the laws of `t_open_set` for every comparator, also one that does
not agree with the order of the elements in the tree. -/
def rb_set : t_open_set where
  carrier := rb_tree
  elems := rb_elems
  empty := .nil
  emplace := rb_emplace
  erase_begin := rb_erase_begin
  elems_empty := rfl
  elems_erase_begin := by
    have blacken : ∀ t, rb_elems (rb_blacken t) = rb_elems t := by
      intro t
      cases t <;> rfl
    have fix_black : ∀ (c : Bool) (x : rb_tree) (k : ptr) (w : rb_tree),
        rb_elems (rb_erase_fix_black c x k w).1 = rb_elems x ++ k :: rb_elems w := by
      intro c x k w
      unfold rb_erase_fix_black
      split
      · split
        · simp [rb_elems, blacken]
        · split <;> simp [rb_elems]
      · simp [rb_elems]
    have fix : ∀ (c : Bool) (x : rb_tree) (k : ptr) (w : rb_tree),
        rb_elems (rb_erase_fix c x k w).1 = rb_elems x ++ k :: rb_elems w := by
      intro c x k w
      unfold rb_erase_fix
      split
      · simp [rb_elems, fix_black]
      · exact fix_black c x k w
    intro t
    show ∀ b rest, rb_elems t = b :: rest → rb_elems (rb_erase_min t).1 = rest
    induction t with
    | nil => intro b rest h; simp [rb_elems] at h
    | node c l k r ihl _ =>
      intro b rest h
      cases l with
      | nil =>
        simp only [rb_elems, List.nil_append, List.cons.injEq] at h
        unfold rb_erase_min
        split_ifs <;> simp [blacken, h.2]
      | node lc ll lk lr =>
        have hne : rb_elems (rb_tree.node lc ll lk lr) ≠ [] := by simp [rb_elems]
        obtain ⟨b2, rest2, h2⟩ := List.exists_cons_of_ne_nil hne
        have h3 := ihl b2 rest2 h2
        have h4 : rest = rest2 ++ k :: rb_elems r := by
          have : rb_elems (rb_tree.node c (rb_tree.node lc ll lk lr) k r)
              = (b2 :: rest2) ++ k :: rb_elems r := by
            rw [← h2]; rfl
          rw [this] at h
          simp only [List.cons_append, List.cons.injEq] at h
          exact h.2.symm
        unfold rb_erase_min
        simp only []
        split_ifs
        · rw [fix, h3, h4]
        · simp [rb_elems, h3, h4]
  elems_emplace := by
    have blacken : ∀ t, rb_elems (rb_blacken t) = rb_elems t := by
      intro t
      cases t <;> rfl
    have fix_left : ∀ (c : Bool) (l : rb_tree) (k : ptr) (r : rb_tree),
        rb_elems (rb_insert_fix_left c l k r) = rb_elems l ++ k :: rb_elems r := by
      intro c l k r
      unfold rb_insert_fix_left
      split
      · split <;> simp [rb_elems, blacken]
      · split <;> simp [rb_elems, blacken]
      · rfl
    have fix_right : ∀ (c : Bool) (l : rb_tree) (k : ptr) (r : rb_tree),
        rb_elems (rb_insert_fix_right c l k r) = rb_elems l ++ k :: rb_elems r := by
      intro c l k r
      unfold rb_insert_fix_right
      split
      · split <;> simp [rb_elems, blacken]
      · split <;> simp [rb_elems, blacken]
      · rfl
    have ins : ∀ (lt : ptr → ptr → Bool) (x : ptr) (t : rb_tree),
        ∃ l r, rb_elems t = l ++ r ∧ rb_elems (rb_insert lt x t) = l ++ x :: r := by
      intro lt x t
      induction t with
      | nil => exact ⟨[], [], rfl, rfl⟩
      | node c a k b iha ihb =>
        unfold rb_insert
        split
        · obtain ⟨l, r, h1, h2⟩ := iha
          refine ⟨l, r ++ k :: rb_elems b, ?_, ?_⟩
          · simp [rb_elems, h1]
          · rw [fix_left, h2]; simp
        · obtain ⟨l, r, h1, h2⟩ := ihb
          refine ⟨rb_elems a ++ k :: l, r, ?_, ?_⟩
          · simp [rb_elems, h1]
          · rw [fix_right, h2]; simp
    have pos : ∀ (lt : ptr → ptr → Bool) (x : ptr) (t : rb_tree) (pred : Option ptr),
        (∀ j, pred = some j → lt x j = false) → rb_insert_pos lt x t pred = false →
        ∃ y, (y ∈ rb_elems t ∨ pred = some y) ∧ lt x y = false ∧ lt y x = false := by
      intro lt x t
      induction t with
      | nil =>
        intro pred hp h
        cases pred with
        | none => simp [rb_insert_pos] at h
        | some j => exact ⟨j, Or.inr rfl, hp j rfl, by simpa [rb_insert_pos] using h⟩
      | node c a k b iha ihb =>
        intro pred hp h
        unfold rb_insert_pos at h
        by_cases hk : lt x k = true
        · rw [if_pos hk] at h
          obtain ⟨y, hy, h1, h2⟩ := iha pred hp h
          refine ⟨y, ?_, h1, h2⟩
          rcases hy with hy | hy
          · exact Or.inl (by simp [rb_elems, hy])
          · exact Or.inr hy
        · rw [if_neg hk] at h
          obtain ⟨y, hy, h1, h2⟩ := ihb (some k)
            (fun j hj => by injection hj with hj; subst hj; simpa using hk) h
          refine ⟨y, Or.inl ?_, h1, h2⟩
          rcases hy with hy | hy
          · simp [rb_elems, hy]
          · injection hy with hy; subst hy; simp [rb_elems]
    intro lt x t
    show (rb_elems (rb_emplace lt x t) = rb_elems t
        ∧ ∃ y, y ∈ rb_elems t ∧ lt x y = false ∧ lt y x = false)
      ∨ (∃ l r, rb_elems t = l ++ r ∧ rb_elems (rb_emplace lt x t) = l ++ x :: r)
    unfold rb_emplace
    by_cases h : rb_insert_pos lt x t none = true
    · rw [if_pos h]
      obtain ⟨l, r, h1, h2⟩ := ins lt x t
      exact Or.inr ⟨l, r, h1, by rw [blacken, h2]⟩
    · rw [if_neg h]
      obtain ⟨y, hy, h1, h2⟩ := pos lt x t none (fun j hj => by cases hj) (by simpa using h)
      rcases hy with hy | hy
      · exact Or.inl ⟨rfl, y, hy, h1, h2⟩
      · cases hy
  emplace_empty := fun _ _ _ => rfl

variable {C : t_open_set}

/-- Data members of class `gastar`. -/
structure gastar (C : t_open_set) where
  all_nodes_ : ptr → Option t_node
  open_set_ : C.carrier
  fn_distance_ : Option t_fn_distance
  fn_heuristic_ : Option t_fn_heuristic
  fn_neighbor_ : Option t_fn_neighbor
  fn_usable_ : Option t_fn_usable
  start_node_ : ptr
  end_node_ : ptr
  current_node_ : ptr

/-- Value read through a node pointer that has no entry. -/
def zero_node : t_node := ⟨false, 0, 0, nullptr, nullptr⟩

/-- Read `*p` for a node pointer `p`. -/
def deref (s : gastar C) (p : ptr) : t_node :=
  (s.all_nodes_ p).getD zero_node

/-- Write through a node pointer: `*p = f (*p)`. -/
def modify_node (s : gastar C) (p : ptr) (f : t_node → t_node) : gastar C :=
  { s with all_nodes_ := fun k => if k = p then (s.all_nodes_ k).map f else s.all_nodes_ k }

/-! ## `gastar.cpp` -/

/-- Function `gastar::node_sort`; each argument is a node pointer, given as its
address and the record it points at. -/
def node_sort (lhs rhs : Nat × t_node) : Bool :=
  if lhs.1 = rhs.1 ∨ lhs.2.obj = rhs.2.obj then false
  else if lhs.2.f_score < rhs.2.f_score then true
  else if lhs.2.f_score > rhs.2.f_score then false
  else if lhs.2.value < rhs.2.value then true
  else if lhs.2.value > rhs.2.value then false
  else decide (lhs.1 < rhs.1)

/-- Comparator of `open_set_` on the node pointers of engine `s`. -/
def open_set_less (addr : ptr → Nat) (s : gastar C) (a b : ptr) : Bool :=
  node_sort (addr a, deref s a) (addr b, deref s b)

/-- Function `gastar::get_or_cache_node`: the engine afterwards and the returned
node pointer. -/
def get_or_cache_node (s : gastar C) (obj : ptr) : gastar C × ptr :=
  match s.all_nodes_ obj with
  | some _ => (s, obj)
  | none =>
    ({ s with all_nodes_ := fun k =>
        if k = obj then some ⟨false, 0, 0, nullptr, obj⟩ else s.all_nodes_ k }, obj)

/-- Constructor `gastar::gastar()`. -/
def gastar_new (C : t_open_set) : gastar C :=
  { all_nodes_ := fun _ => none
    open_set_ := C.empty
    fn_distance_ := none
    fn_heuristic_ := none
    fn_neighbor_ := none
    fn_usable_ := none
    start_node_ := nullptr
    end_node_ := nullptr
    current_node_ := nullptr }

/-- Function `gastar::setup`. -/
def setup (addr : ptr → Nat) (s : gastar C) (start end_ : ptr)
    (fn_distance : Option t_fn_distance) (fn_heuristic : Option t_fn_heuristic)
    (fn_neighbor : Option t_fn_neighbor) (fn_usable : Option t_fn_usable) :
    Except gastar_exception (gastar C) :=
  if start = nullptr then .error ⟨"start node cannot be empty"⟩
  else if end_ = nullptr then .error ⟨"end node cannot be empty"⟩
  else match fn_distance with
  | none => .error ⟨"distance calculation function cannot be empty"⟩
  | some fd =>
  match fn_heuristic with
  | none => .error ⟨"heuristic calculation function cannot be empty"⟩
  | some fh =>
  match fn_neighbor with
  | none => .error ⟨"neighbor getter function cannot be empty"⟩
  | some fn =>
    let s1 : gastar C :=
      { s with
        fn_distance_ := some fd
        fn_heuristic_ := some fh
        fn_neighbor_ := some fn
        fn_usable_ := fn_usable
        all_nodes_ := fun _ => none
        open_set_ := C.empty
        current_node_ := nullptr }
    let r2 := get_or_cache_node s1 end_
    let s2 : gastar C := { r2.1 with end_node_ := r2.2 }
    let r3 := get_or_cache_node s2 start
    let s3 : gastar C := { r3.1 with start_node_ := r3.2 }
    let s4 := modify_node s3 s3.start_node_ (fun n =>
      { n with assigned := true, value := 0, f_score := fh start nullptr start end_ })
    .ok { s4 with open_set_ := C.emplace (open_set_less addr s4) s4.start_node_ s4.open_set_ }

/-- Values the neighbor enumerator returns for `node` before its first `nullptr`. -/
def neighbors_of (fn : t_fn_neighbor) (node : ptr) : List ptr :=
  (fn node).takeWhile (fun p => p != nullptr)

/-- Body of the `for` loop of `gastar::solve_next` for one returned neighbor. -/
def relax (addr : ptr → Nat) (s : gastar C) (neighbor_obj : ptr) : Option (gastar C) :=
  let skip : Bool :=
    match s.fn_usable_ with
    | some fu =>
      !(fu neighbor_obj (deref s s.current_node_).obj
          (deref s s.start_node_).obj (deref s s.end_node_).obj)
    | none => false
  if skip then some s
  else
    let r := get_or_cache_node s neighbor_obj
    let s1 := r.1
    let neighbor_node := r.2
    match s1.fn_distance_ with
    | none => none
    | some fd =>
      let new_g_score :=
        ((deref s1 s1.current_node_).value
          + fd (deref s1 s1.current_node_).obj neighbor_obj
              (deref s1 s1.start_node_).obj (deref s1 s1.end_node_).obj) % UINT_MOD
      if !(deref s1 neighbor_node).assigned || decide (new_g_score < (deref s1 neighbor_node).value) then
        match s1.fn_heuristic_ with
        | none => none
        | some fh =>
          let f := (new_g_score
            + fh neighbor_obj (deref s1 s1.current_node_).obj
                (deref s1 s1.start_node_).obj (deref s1 s1.end_node_).obj) % UINT_MOD
          let s2 := modify_node s1 neighbor_node (fun n =>
            { n with assigned := true, value := new_g_score, f_score := f,
                     parent := s1.current_node_ })
          some { s2 with
            open_set_ := C.emplace (open_set_less addr s2) neighbor_node s2.open_set_ }
      else some s1

/-- The `for` loop of `gastar::solve_next` over the returned neighbors. -/
def relax_all (addr : ptr → Nat) : gastar C → List ptr → Option (gastar C)
  | s, [] => some s
  | s, nb :: rest =>
    match relax addr s nb with
    | none => none
    | some s1 => relax_all addr s1 rest

/-- One pass through the body of the `do` loop of `gastar::solve_next`, entered
with a non-empty `open_set_`. -/
def expand (addr : ptr → Nat) (s : gastar C) : Option (gastar C) :=
  match C.elems s.open_set_ with
  | [] => none
  | b :: _ =>
    let s1 : gastar C := { s with current_node_ := b, open_set_ := C.erase_begin s.open_set_ }
    match s1.fn_neighbor_ with
    | none => none
    | some fn => relax_all addr s1 (neighbors_of fn (deref s1 s1.current_node_).obj)

/-- The `do ... while (continuous)` loop of `gastar::solve_next`. -/
def solve_loop (addr : ptr → Nat) (continuous : Bool) : Nat → gastar C → Option (gastar C)
  | 0, _ => none
  | fuel + 1, s =>
    if (C.elems s.open_set_).isEmpty then some s
    else
      match expand addr s with
      | none => none
      | some s1 => if continuous then solve_loop addr continuous fuel s1 else some s1

/-- Function `gastar::solve_next`: the engine afterwards and the returned flag. -/
def solve_next (addr : ptr → Nat) (fuel : Nat) (continuous : Bool) (s : gastar C) :
    Option (gastar C × Bool) :=
  (solve_loop addr continuous fuel s).map (fun s1 => (s1, (C.elems s1.open_set_).isEmpty))

/-- Function `gastar::get_current_node`: the node pointer `current_node_`
converted to `const void*`, that is the address of the node record. -/
def get_current_node (addr : ptr → Nat) (s : gastar C) : ptr :=
  if s.current_node_ = nullptr then nullptr else addr s.current_node_

/-- Function `gastar::is_done`. -/
def is_done (s : gastar C) : Bool :=
  decide (nullptr ≠ s.end_node_) && (C.elems s.open_set_).isEmpty

/-- Function `gastar::is_solved`. -/
def is_solved (s : gastar C) : Bool :=
  is_done s && decide (nullptr ≠ (deref s s.end_node_).parent)

/-- The loop `while (nullptr != node)` of the reconstruction functions: the
identities handed to the visitor, in order. -/
def parent_walk (s : gastar C) : Nat → ptr → Option (List ptr)
  | 0, _ => none
  | fuel + 1, node =>
    if node = nullptr then some []
    else (parent_walk s fuel (deref s node).parent).map (fun l => (deref s node).obj :: l)

/-- Function `gastar::reconstruct_end` for a visitor acting on a caller state
`w`: the caller state afterwards and the exception thrown, if any. -/
def reconstruct_end {σ : Type} (fuel : Nat) (s : gastar C)
    (fn_reconstruct : Option (ptr → σ → σ)) (w : σ) :
    Option (σ × Option gastar_exception) :=
  match fn_reconstruct with
  | none => some (w, some ⟨"reconstruction function cannot be empty"⟩)
  | some visit =>
    if !is_solved s then
      some (w, some ⟨"cannot reconstruct from end, path not solved"⟩)
    else
      (parent_walk s fuel s.end_node_).map
        (fun l => (l.foldl (fun acc p => visit p acc) w, none))

/-- Function `gastar::reconstruct_current`. -/
def reconstruct_current {σ : Type} (fuel : Nat) (s : gastar C)
    (fn_reconstruct : Option (ptr → σ → σ)) (w : σ) :
    Option (σ × Option gastar_exception) :=
  match fn_reconstruct with
  | none => some (w, some ⟨"reconstruction function cannot be empty"⟩)
  | some visit =>
    if s.current_node_ = nullptr then
      some (w, some ⟨"cannot reconstruct from current node, path not evaluated"⟩)
    else
      (parent_walk s fuel s.current_node_).map
        (fun l => (l.foldl (fun acc p => visit p acc) w, none))

/-- Visitor that records the identities it is called with. -/
def record_visit : ptr → List ptr → List ptr :=
  fun p acc => acc ++ [p]

/-! ## Sessions -/

/-- Successive `solve_next` calls, each given as its fuel and its `continuous`
argument. -/
def after_calls (addr : ptr → Nat) : List (Nat × Bool) → gastar C → Option (gastar C)
  | [], s => some s
  | c :: cs, s =>
    match solve_next addr c.1 c.2 s with
    | none => none
    | some r => after_calls addr cs r.1

/-- Successive expansions: `n` passes through the body of the `do` loop. -/
def expand_n (addr : ptr → Nat) : Nat → gastar C → Option (gastar C)
  | 0, s => some s
  | n + 1, s =>
    match expand addr s with
    | none => none
    | some s1 => expand_n addr n s1

/-- Driving loop of `test/main.cpp`:
`do { done = astar.solve_next(false); } while (!done);`. -/
def drive (addr : ptr → Nat) : Nat → gastar C → Option (gastar C)
  | 0, _ => none
  | n + 1, s =>
    match solve_next addr 1 false s with
    | none => none
    | some r => if r.2 then some r.1 else drive addr n r.1

/-- Closed form of the engine a successful `setup` leaves behind; its frontier is the
set with the single element `start` (an insertion into the empty set compares nothing). -/
def setup_state (C : t_open_set) (start end_ : ptr) (fd : t_fn_distance)
    (fh : t_fn_heuristic) (fn : t_fn_neighbor) (fu : Option t_fn_usable) : gastar C :=
  { all_nodes_ := fun k =>
      if k = start then some ⟨true, 0, fh start nullptr start end_, nullptr, start⟩
      else if k = end_ then some ⟨false, 0, 0, nullptr, end_⟩
      else none
    open_set_ := C.emplace (fun _ _ => false) start C.empty
    fn_distance_ := some fd
    fn_heuristic_ := some fh
    fn_neighbor_ := some fn
    fn_usable_ := fu
    start_node_ := start
    end_node_ := end_
    current_node_ := nullptr }

/-- Engine after `get_or_cache_node` has created the entry of `v`. -/
def cached (s : gastar C) (v : ptr) : gastar C :=
  { s with all_nodes_ := fun k =>
      if k = v then some ⟨false, 0, 0, nullptr, v⟩ else s.all_nodes_ k }

/-- Engine after a relaxation that takes place: node `v` gets scores `g`, `f`
and parent `current_node_`, and is emplaced into `open_set_`. -/
def relaxed (addr : ptr → Nat) (s : gastar C) (v : ptr) (g f : Nat) : gastar C :=
  let s2 : gastar C :=
    { s with all_nodes_ := fun k =>
        if k = v then some ⟨true, g, f, s.current_node_, v⟩ else s.all_nodes_ k }
  { s2 with open_set_ := C.emplace (open_set_less addr s2) v s.open_set_ }

/-- The sum `new_g_score` that `solve_next` forms for neighbor `v` of the current node. -/
def tentative_g (fd : t_fn_distance) (start end_ : ptr) (s : gastar C) (v : ptr) : Nat :=
  ((deref s s.current_node_).value + fd s.current_node_ v start end_) % UINT_MOD

/-- The `f_score` that `solve_next` stores for neighbor `v` when it relaxes it. -/
def tentative_f (fd : t_fn_distance) (fh : t_fn_heuristic) (start end_ : ptr) (s : gastar C)
    (v : ptr) : Nat :=
  (tentative_g fd start end_ s v + fh v s.current_node_ start end_) % UINT_MOD

/-! ## The searched graph -/

/-- The usability test `solve_next` applies to neighbor `v` of the expanded node `u`. -/
def usable (fu : Option t_fn_usable) (start end_ u v : ptr) : Bool :=
  match fu with
  | some f => f v u start end_
  | none => true

/-- Whether `solve_next` relaxes neighbor `v` of the current node: it passes the
usability test and is unassigned or reached at a lower `g_score`. -/
def relaxes (fd : t_fn_distance) (fu : Option t_fn_usable) (start end_ : ptr) (s : gastar C)
    (v : ptr) : Bool :=
  usable fu start end_ s.current_node_ v
    && (!(deref s v).assigned || decide (tentative_g fd start end_ s v < (deref s v).value))

/-- Edge `u → v` of the searched graph: `v` is enumerated for `u` and passes the
usability test. -/
def edge (fn : t_fn_neighbor) (fu : Option t_fn_usable) (start end_ u v : ptr) : Prop :=
  v ∈ neighbors_of fn u ∧ usable fu start end_ u v = true

/-- Cost of edge `u → v` as `solve_next` asks for it. -/
def edge_cost (fd : t_fn_distance) (start end_ u v : ptr) : Nat :=
  fd u v start end_

/-- The statement `walk E d start v c`: some path from `start` to `v` along `E`
has total cost `c` (an exact sum). -/
inductive walk (E : ptr → ptr → Prop) (d : ptr → ptr → Nat) (start : ptr) : ptr → Nat → Prop
  | nil : walk E d start start 0
  | snoc {u v : ptr} {c : Nat} : walk E d start u c → E u v → walk E d start v (c + d u v)

/-- The statement `simple_walk E d start p v c`: `p` lists, last node first, a path from
`start` to `v` that visits no node twice, of total cost `c`. -/
inductive simple_walk (E : ptr → ptr → Prop) (d : ptr → ptr → Nat) (start : ptr) :
    List ptr → ptr → Nat → Prop
  | nil : simple_walk E d start [start] start 0
  | snoc {p : List ptr} {u v : ptr} {c : Nat} :
      simple_walk E d start p u c → E u v → v ∉ p →
      simple_walk E d start (v :: p) v (c + d u v)

/-- No sum the search forms wraps around: a path without repeated node, extended
by one more edge, costs less than `UINT_MOD`. -/
def no_wrap (E : ptr → ptr → Prop) (d : ptr → ptr → Nat) (start : ptr) : Prop :=
  ∀ p u c v, simple_walk E d start p u c → E u v → c + d u v < UINT_MOD

/-- A simple path all of whose nodes are assigned in `s` with a `g_score` not above
the cost of the path up to them. -/
inductive good_walk (E : ptr → ptr → Prop) (d : ptr → ptr → Nat) (start : ptr) (s : gastar C) :
    List ptr → ptr → Nat → Prop
  | nil : good_walk E d start s [start] start 0
  | snoc {p : List ptr} {u v : ptr} {c : Nat} :
      good_walk E d start s p u c → E u v → v ∉ p →
      (deref s v).assigned = true → (deref s v).value ≤ c + d u v →
      good_walk E d start s (v :: p) v (c + d u v)

/-! ## Termination measure -/

/-- Weight of a node: its `g_score` once it is assigned, `UINT_MOD` before. -/
def node_weight (s : gastar C) (k : ptr) : Nat :=
  if (deref s k).assigned then (deref s k).value else UINT_MOD

/-- Measure that every expansion decreases: the size of the frontier plus the
weights of the nodes of the finite graph `V`. -/
def search_measure (V : List ptr) (s : gastar C) : Nat :=
  (C.elems s.open_set_).length + (V.map (node_weight s)).sum

/-- The graph enumerated by `fn` stays inside the finite node list `V`. -/
def graph_within (fn : t_fn_neighbor) (V : List ptr) : Prop :=
  ∀ u, u ∈ V → ∀ v, v ∈ neighbors_of fn u → v ∈ V

/-- Every assigned node of `s` belongs to `V`. -/
def assigned_within (V : List ptr) (s : gastar C) : Prop :=
  ∀ k, (deref s k).assigned = true → k ∈ V

/-! ## Concrete sessions -/

/-- Sample allocator: the node record of identity `k` lives at address `k + 100`. -/
def demo_addr : ptr → Nat := fun k => k + 100

/-- Heuristic that is `0` everywhere (admissible and consistent for every graph). -/
def zero_heuristic : t_fn_heuristic := fun _ _ _ _ => 0

/-- Neighbor enumerator of the graph `1 → 2, 1 → 3, 1 → 4, 2 → 4`. -/
def dup_neighbor : t_fn_neighbor := fun a =>
  if a = 1 then [2, 3, 4, nullptr] else if a = 2 then [4, nullptr] else [nullptr]

/-- Distances `1 → 2 : 1`, `1 → 3 : 5`, `1 → 4 : 10`, `2 → 4 : 1`. -/
def dup_distance : t_fn_distance := fun a b _ _ =>
  if a = 1 ∧ b = 2 then 1 else if a = 1 ∧ b = 3 then 5 else if a = 1 ∧ b = 4 then 10 else 1

/-- Session on that graph from start `1` with the unreachable end `9`: `setup`, then two
calls `solve_next(false)`. -/
def dup_session : Option (gastar rb_set) :=
  match setup demo_addr (gastar_new rb_set) 1 9 (some dup_distance) (some zero_heuristic)
      (some dup_neighbor) none with
  | .ok s => after_calls demo_addr [(1, false), (1, false)] s
  | .error _ => none

/-- Neighbor enumerator of the graph with the single edge `1 → 2`. -/
def one_edge_neighbor : t_fn_neighbor := fun a => if a = 1 then [2, nullptr] else [nullptr]

/-- Distance that is `0` everywhere. -/
def zero_distance : t_fn_distance := fun _ _ _ _ => 0

/-- Distance that is `1` everywhere. -/
def unit_distance : t_fn_distance := fun _ _ _ _ => 1

/-- Session on the single edge `1 → 2` at distance `0`, from start `1` to end `2`:
`setup`, then `solve_next(true)`. -/
def zero_session : Option (gastar rb_set) :=
  match setup demo_addr (gastar_new rb_set) 1 2 (some zero_distance) (some zero_heuristic)
      (some one_edge_neighbor) none with
  | .ok s => after_calls demo_addr [(5, true)] s
  | .error _ => none

/-- Session on the single edge `1 → 2` at distance `1`, from start `1` to end `2`:
`setup`, then `solve_next(true)`. -/
def unit_session : Option (gastar rb_set) :=
  match setup demo_addr (gastar_new rb_set) 1 2 (some unit_distance) (some zero_heuristic)
      (some one_edge_neighbor) none with
  | .ok s => after_calls demo_addr [(5, true)] s
  | .error _ => none

/-- Neighbor enumerator of the chain `1 → 2 → 3`. -/
def chain_neighbor : t_fn_neighbor := fun a =>
  if a = 1 then [2, nullptr] else if a = 2 then [3, nullptr] else [nullptr]

/-- Distances `1 → 2 : 4294967295` (the largest `unsigned`) and `2 → 3 : 2`. -/
def wrap_distance : t_fn_distance := fun a _ _ _ => if a = 1 then 4294967295 else 2

/-- Session on that chain from start `1` to end `3`: `setup`, then `solve_next(true)`. -/
def wrap_session : Option (gastar rb_set) :=
  match setup demo_addr (gastar_new rb_set) 1 3 (some wrap_distance) (some zero_heuristic)
      (some chain_neighbor) none with
  | .ok s => after_calls demo_addr [(5, true)] s
  | .error _ => none

/-! ## Invariants of a session -/

/-- Invariant of every engine of a session set up with the given arguments; it
does not depend on the sums staying below `UINT_MOD`. -/
structure inv (fd : t_fn_distance) (fh : t_fn_heuristic) (fn : t_fn_neighbor)
    (fu : Option t_fn_usable) (start end_ : ptr) (s : gastar C) : Prop where
  h_fd : s.fn_distance_ = some fd
  h_fh : s.fn_heuristic_ = some fh
  h_fn : s.fn_neighbor_ = some fn
  h_fu : s.fn_usable_ = fu
  h_start : s.start_node_ = start
  h_end : s.end_node_ = end_
  start_ne : start ≠ nullptr
  end_ne : end_ ≠ nullptr
  key_obj : ∀ k n, s.all_nodes_ k = some n → n.obj = k
  key_ne : s.all_nodes_ nullptr = none
  end_mem : (s.all_nodes_ end_).isSome = true
  start_assigned : (deref s start).assigned = true
  start_value : (deref s start).value = 0
  start_parent : (deref s start).parent = nullptr
  value_lt : ∀ k, (deref s k).value < UINT_MOD
  open_assigned : ∀ k, k ∈ C.elems s.open_set_ → (deref s k).assigned = true
  parent_edge : ∀ k, (deref s k).parent ≠ nullptr →
    (deref s k).assigned = true ∧ (deref s (deref s k).parent).assigned = true
      ∧ edge fn fu start end_ (deref s k).parent k
  root : ∀ k, (deref s k).assigned = true → (deref s k).parent = nullptr → k = start

/-- Edge `k → v` is settled in `s`: `v` is assigned and its `g_score` is not
above the one of `k` plus the cost of the edge. -/
def settled_edge (d : ptr → ptr → Nat) (s : gastar C) (k v : ptr) : Prop :=
  (deref s v).assigned = true ∧ (deref s v).value ≤ (deref s k).value + d k v

/-- Invariant of a session whose sums do not wrap: every `g_score` is the cost of a
simple path, and a parent is cheaper than its child by at least the edge between them. -/
structure cost_inv (E : ptr → ptr → Prop) (d : ptr → ptr → Nat) (start : ptr)
    (s : gastar C) : Prop where
  has_walk : ∀ k, (deref s k).assigned = true →
    ∃ p, good_walk E d start s p k (deref s k).value
  parent_cost : ∀ k, (deref s k).parent ≠ nullptr →
    (deref s (deref s k).parent).value + d (deref s k).parent k ≤ (deref s k).value

/-- Invariant of a session whose sums do not wrap, while node `cur` is being expanded
and its neighbors `done_` have been handled (`cur = nullptr`, `done_ = []` between
expansions): the edges leaving an assigned node outside the frontier are settled. -/
def settled_inv (E : ptr → ptr → Prop) (d : ptr → ptr → Nat) (cur : ptr) (done_ : List ptr)
    (s : gastar C) : Prop :=
  ∀ k, (deref s k).assigned = true → k ∉ C.elems s.open_set_ →
    ∀ v, E k v → (k = cur → v ∈ done_) → settled_edge d s k v

/-! ## Further notions for the invariants -/

/-- Engine right after the pop at the head of the `do` loop body: `b` is the
current node and the first element of the frontier has been erased. -/
def with_current (s : gastar C) (b : ptr) : gastar C :=
  { s with current_node_ := b, open_set_ := C.erase_begin s.open_set_ }

/-- The statement `reach E start v`: some path leads from `start` to `v` along `E`
(the empty path when `v` is `start`). -/
inductive reach (E : ptr → ptr → Prop) (start : ptr) : ptr → Prop
  | nil : reach E start start
  | snoc {u v : ptr} : reach E start u → E u v → reach E start v

/-- Every assigned node is reached by a path of the searched graph. -/
def reach_inv (E : ptr → ptr → Prop) (start : ptr) (s : gastar C) : Prop :=
  ∀ k, (deref s k).assigned = true → reach E start k

/-- While node `cur` is being expanded and its neighbors `done_` have been handled
(`cur = nullptr`, `done_ = []` between expansions): the edges leaving an assigned node
outside the frontier lead to assigned nodes. -/
def spread_inv (E : ptr → ptr → Prop) (cur : ptr) (done_ : List ptr) (s : gastar C) : Prop :=
  ∀ k, (deref s k).assigned = true → k ∉ C.elems s.open_set_ →
    ∀ v, E k v → (k = cur → v ∈ done_) → (deref s v).assigned = true

/-- The `f_score` of every assigned node is the `unsigned` sum of its `g_score` and of
the heuristic taken with its parent. -/
def f_score_inv (fh : t_fn_heuristic) (start end_ : ptr) (s : gastar C) : Prop :=
  ∀ k, (deref s k).assigned = true →
    (deref s k).f_score
      = ((deref s k).value + fh k (deref s k).parent start end_) % UINT_MOD

/-- The current node is null or assigned. -/
def current_inv (s : gastar C) : Prop :=
  s.current_node_ = nullptr ∨ (deref s s.current_node_).assigned = true

/-- Ranking `r` of the nodes of `s`: a parent has a lower `g_score` than its child, or
the same `g_score` and a lower rank. -/
def rank_inv (r : ptr → Nat) (s : gastar C) : Prop :=
  ∀ k, (deref s k).parent ≠ nullptr →
    (deref s (deref s k).parent).value < (deref s k).value
    ∨ ((deref s (deref s k).parent).value = (deref s k).value
        ∧ r (deref s k).parent < r k)

/-- Whether node `x` comes before node `k` in the order of `rank_inv`. -/
def rank_below (r : ptr → Nat) (s : gastar C) (x k : ptr) : Prop :=
  (deref s x).value < (deref s k).value
  ∨ ((deref s x).value = (deref s k).value ∧ r x < r k)

/-! ## Further concrete sessions -/

/-- The session of `dup_session` after `n` calls `solve_next(false)`. -/
def dup_steps (n : Nat) : Option (gastar rb_set) :=
  match setup demo_addr (gastar_new rb_set) 1 9 (some dup_distance) (some zero_heuristic)
      (some dup_neighbor) none with
  | .ok s => after_calls demo_addr (List.replicate n (1, false)) s
  | .error _ => none

/-- Neighbor enumerator of the graph `1 → 2, 2 → 2`. -/
def loop_neighbor : t_fn_neighbor := fun a =>
  if a = 1 then [2, nullptr] else if a = 2 then [2, nullptr] else [nullptr]

/-- Distances `1 → 2 : 5` and `2 → 2 : 4294967295` (the largest `unsigned`). -/
def loop_distance : t_fn_distance := fun a _ _ _ => if a = 1 then 5 else 4294967295

/-- Session on that graph from start `1` to end `2`: `setup`, then `solve_next(true)`. -/
def loop_session : Option (gastar rb_set) :=
  match setup demo_addr (gastar_new rb_set) 1 2 (some loop_distance) (some zero_heuristic)
      (some loop_neighbor) none with
  | .ok s => after_calls demo_addr [(20, true)] s
  | .error _ => none

/-- Row of cell `k` of the 3x3 grid whose cells are numbered `1 .. 9` row by row. -/
def grid_row (k : ptr) : Nat := (k - 1) / 3

/-- Column of cell `k` of the 3x3 grid. -/
def grid_col (k : ptr) : Nat := (k - 1) % 3

/-- Neighbor enumerator of the fully open 3x3 grid, 4-directional: up, right, down,
left, then `nullptr`. This is the caller's callback of Scenario A; the directions come
in the order of `s_neighbor` in `test/main.cpp`, without its diagonals. -/
def grid_neighbor : t_fn_neighbor := fun k =>
  if 1 ≤ k ∧ k ≤ 9 then
    (if 0 < grid_row k then [k - 3] else [])
      ++ (if grid_col k < 2 then [k + 1] else [])
      ++ (if grid_row k < 2 then [k + 3] else [])
      ++ (if 0 < grid_col k then [k - 1] else [])
      ++ [nullptr]
  else [nullptr]

/-- Manhattan distance between two cells of the grid. -/
def manhattan (a b : ptr) : Nat :=
  (grid_row a - grid_row b) + (grid_row b - grid_row a)
    + ((grid_col a - grid_col b) + (grid_col b - grid_col a))

/-- Manhattan-distance heuristic to the end cell. -/
def grid_heuristic : t_fn_heuristic := fun node _ _ end_ => manhattan node end_

/-- The nine cells of the grid. -/
def grid_cells : List ptr := [1, 2, 3, 4, 5, 6, 7, 8, 9]

/-- Scenario A: the 3x3 grid from the top-left cell `1` to the bottom-right cell `9`,
uniform step cost `1`, no usable function: `setup`, then `solve_next(true)`. -/
def grid_session : Option (gastar rb_set) :=
  match setup demo_addr (gastar_new rb_set) 1 9 (some unit_distance) (some grid_heuristic)
      (some grid_neighbor) none with
  | .ok s => after_calls demo_addr [(20, true)] s
  | .error _ => none

/-- Neighbor enumerator of the graph `1 → 2, 1 → 3, 1 → 4, 1 → 5, 2 → 4`. -/
def stale_neighbor : t_fn_neighbor := fun a =>
  if a = 1 then [2, 3, 4, 5, nullptr] else if a = 2 then [4, nullptr] else [nullptr]

/-- Distances `1 → 2 : 1`, `1 → 3 : 5`, `1 → 4 : 10`, `1 → 5 : 20`, `2 → 4 : 1`. -/
def stale_distance : t_fn_distance := fun a b _ _ =>
  if a = 1 ∧ b = 2 then 1 else if a = 1 ∧ b = 3 then 5 else if a = 1 ∧ b = 4 then 10
  else if a = 1 ∧ b = 5 then 20 else 1

/-- Session on that graph from start `1` with the unreachable end `9`: `setup`, then `n`
calls `solve_next(false)`. -/
def stale_steps (n : Nat) : Option (gastar rb_set) :=
  match setup demo_addr (gastar_new rb_set) 1 9 (some stale_distance) (some zero_heuristic)
      (some stale_neighbor) none with
  | .ok s => after_calls demo_addr (List.replicate n (1, false)) s
  | .error _ => none

/-- Neighbor enumerator of the graph `1 → 3, 1 → 2`. -/
def fork_neighbor : t_fn_neighbor := fun a => if a = 1 then [3, 2, nullptr] else [nullptr]

/-- Usable function that rejects node `3` and accepts every other node. -/
def fork_usable : t_fn_usable := fun node _ _ _ => node != 3

/-- Session on that graph with that usable function, from start `1` to end `2`: `setup`,
then `solve_next(true)`. -/
def fork_session : Option (gastar rb_set) :=
  match setup demo_addr (gastar_new rb_set) 1 2 (some unit_distance) (some zero_heuristic)
      (some fork_neighbor) (some fork_usable) with
  | .ok s => after_calls demo_addr [(5, true)] s
  | .error _ => none

/-- Two allocations that order the node records alike: `node_sort` compares addresses
only for equality and for order. -/
def same_order (addr1 addr2 : ptr → Nat) : Prop :=
  ∀ a b, (addr1 a < addr1 b ↔ addr2 a < addr2 b) ∧ (addr1 a = addr1 b ↔ addr2 a = addr2 b)

/-- Sample allocator that places the node records `100` further up than `demo_addr`. -/
def shift_addr : ptr → Nat := fun k => k + 200

/-- Allocator that places the node records of the identities listed in `l` in the order
of the list, and every other record above them. -/
def order_addr (l : List ptr) : ptr → Nat :=
  fun k => if k ∈ l then 100 + l.indexOf k else 1000 + k

/-- Order of the addresses of the node records of Scenario A when the session runs on a
freshly constructed engine (glibc allocator): the records are allocated as the nodes are
first met, `9, 1, 2, 4, 3, 5, 7, 6, 8`, and this is also their order in memory. -/
def fresh_order : List ptr := [9, 1, 2, 4, 3, 5, 7, 6, 8]

/-- Order of the addresses of the same records when the engine has run a session on a
chain of four nodes before: `setup` frees the records of that session, and the allocator
hands their memory out again first. -/
def reused_order : List ptr := [1, 4, 2, 5, 3, 7, 6, 8, 9]

/-- Neighbor enumerator of the chain `11 → 12 → 13 → 14`. -/
def prior_neighbor : t_fn_neighbor := fun a =>
  if 11 ≤ a ∧ a < 14 then [a + 1, nullptr] else [nullptr]

/-- An engine that has been used: the one a session on that chain leaves behind (`setup`
from `11` to `14`, then `solve_next(true)`). -/
def used_engine : gastar rb_set :=
  match setup demo_addr (gastar_new rb_set) 11 14 (some unit_distance) (some zero_heuristic)
      (some prior_neighbor) none with
  | .ok s => (after_calls demo_addr [(10, true)] s).getD (gastar_new rb_set)
  | .error _ => gastar_new rb_set

/-- Scenario A run on the prior engine `prior` with node records allocated by `addr`:
`setup`, then `solve_next(true)`. -/
def grid_session_with (addr : ptr → Nat) (prior : gastar rb_set) : Option (gastar rb_set) :=
  match setup addr prior 1 9 (some unit_distance) (some grid_heuristic)
      (some grid_neighbor) none with
  | .ok s => after_calls addr [(20, true)] s
  | .error _ => none

/-! ## Reading the node store -/

theorem deref_of_some {s : gastar C} {k : ptr} {n : t_node} (h : s.all_nodes_ k = some n) :
    deref s k = n := by
  simp [deref, h]

theorem deref_of_none {s : gastar C} {k : ptr} (h : s.all_nodes_ k = none) :
    deref s k = zero_node := by
  simp [deref, h]

theorem some_of_assigned {s : gastar C} {k : ptr} (h : (deref s k).assigned = true) :
    s.all_nodes_ k = some (deref s k) := by
  cases hk : s.all_nodes_ k with
  | none => rw [deref_of_none hk] at h; simp [zero_node] at h
  | some n => rw [deref_of_some hk]

theorem some_of_parent {s : gastar C} {k : ptr} (h : (deref s k).parent ≠ nullptr) :
    s.all_nodes_ k = some (deref s k) := by
  cases hk : s.all_nodes_ k with
  | none => rw [deref_of_none hk] at h; simp [zero_node] at h
  | some n => rw [deref_of_some hk]

/-! ## The ordered container -/

theorem mem_emplace_of_mem (lt : ptr → ptr → Bool) (x y : ptr) (t : C.carrier)
    (h : y ∈ C.elems t) : y ∈ C.elems (C.emplace lt x t) := by
  rcases C.elems_emplace lt x t with ⟨h1, _⟩ | ⟨l, r, h1, h2⟩
  · rw [h1]; exact h
  · rw [h1] at h
    rw [h2]
    rcases List.mem_append.1 h with h | h
    · exact List.mem_append_left _ h
    · exact List.mem_append_right _ (List.mem_cons_of_mem _ h)

theorem mem_of_mem_emplace (lt : ptr → ptr → Bool) (x y : ptr) (t : C.carrier)
    (h : y ∈ C.elems (C.emplace lt x t)) : y = x ∨ y ∈ C.elems t := by
  rcases C.elems_emplace lt x t with ⟨h1, _⟩ | ⟨l, r, h1, h2⟩
  · rw [h1] at h; exact Or.inr h
  · rw [h2] at h
    rw [h1]
    rcases List.mem_append.1 h with h | h
    · exact Or.inr (List.mem_append_left _ h)
    · rcases List.mem_cons.1 h with h | h
      · exact Or.inl h
      · exact Or.inr (List.mem_append_right _ h)

theorem mem_emplace_self (lt : ptr → ptr → Bool) (x : ptr) (t : C.carrier)
    (h : ∀ y, y ∈ C.elems t → lt y x = false → lt x y = false → y = x) :
    x ∈ C.elems (C.emplace lt x t) := by
  rcases C.elems_emplace lt x t with ⟨h1, y, hy, h3, h4⟩ | ⟨l, r, _, h2⟩
  · rw [h1]
    have : y = x := h y hy h4 h3
    exact this ▸ hy
  · rw [h2]
    exact List.mem_append_right _ (List.mem_cons_self _ _)

theorem length_emplace_le (lt : ptr → ptr → Bool) (x : ptr) (t : C.carrier) :
    (C.elems (C.emplace lt x t)).length ≤ (C.elems t).length + 1 := by
  rcases C.elems_emplace lt x t with ⟨h1, _⟩ | ⟨l, r, h1, h2⟩
  · rw [h1]; exact Nat.le_succ _
  · rw [h1, h2]; simp; omega

theorem sublist_emplace (lt : ptr → ptr → Bool) (x : ptr) (t : C.carrier) :
    (C.elems t).Sublist (C.elems (C.emplace lt x t)) := by
  rcases C.elems_emplace lt x t with ⟨h1, _⟩ | ⟨l, r, h1, h2⟩
  · rw [h1]
  · rw [h1, h2]
    exact List.Sublist.append (List.Sublist.refl l) (List.sublist_cons_self x r)

theorem elems_emplace_empty (lt : ptr → ptr → Bool) (x : ptr) :
    C.elems (C.emplace lt x C.empty) = [x] := by
  rcases C.elems_emplace lt x C.empty with ⟨_, y, hy, _⟩ | ⟨l, r, h1, h2⟩
  · rw [C.elems_empty] at hy; cases hy
  · rw [C.elems_empty] at h1
    have hl : l = [] := by
      cases l with
      | nil => rfl
      | cons a l => cases h1
    subst hl
    have hr : r = [] := by simpa using h1.symm
    subst hr
    exact h2

theorem elems_erase_begin_of_cons {t : C.carrier} {b : ptr} {rest : List ptr}
    (h : C.elems t = b :: rest) : C.elems (C.erase_begin t) = rest :=
  C.elems_erase_begin t b rest h

theorem node_sort_equiv {a b : Nat × t_node} (h1 : node_sort a b = false)
    (h2 : node_sort b a = false) : a.1 = b.1 ∨ a.2.obj = b.2.obj := by
  unfold node_sort at h1 h2
  by_cases h : a.1 = b.1 ∨ a.2.obj = b.2.obj
  · exact h
  · have h' : ¬ (b.1 = a.1 ∨ b.2.obj = a.2.obj) := by
      intro hh; exact h (hh.imp Eq.symm Eq.symm)
    rw [if_neg h] at h1
    rw [if_neg h'] at h2
    split_ifs at h1 h2
    simp only [decide_eq_false_iff_not] at h1 h2
    exact Or.inl (by omega)

theorem open_set_less_equiv {addr : ptr → Nat} (haddr : Function.Injective addr) {s : gastar C}
    {x y : ptr} (hx : (deref s x).obj = x) (hy : (deref s y).obj = y)
    (h1 : open_set_less addr s y x = false) (h2 : open_set_less addr s x y = false) :
    y = x := by
  rcases node_sort_equiv h1 h2 with h | h
  · exact haddr h
  · simpa [hx, hy] using h


/-! ## One relaxation -/

theorem deref_relaxed (addr : ptr → Nat) (s : gastar C) (v : ptr) (g f : Nat) (k : ptr) :
    deref (relaxed addr s v g f) k
      = if k = v then ⟨true, g, f, s.current_node_, v⟩ else deref s k := by
  unfold deref relaxed
  by_cases h : k = v <;> simp [h]

theorem snd_get_or_cache_node (s : gastar C) (v : ptr) : (get_or_cache_node s v).2 = v := by
  unfold get_or_cache_node
  split <;> rfl

theorem get_or_cache_node_of_some {s : gastar C} {v : ptr} {n : t_node}
    (h : s.all_nodes_ v = some n) : (get_or_cache_node s v).1 = s := by
  unfold get_or_cache_node
  simp [h]

theorem get_or_cache_node_of_none {s : gastar C} {v : ptr} (h : s.all_nodes_ v = none) :
    (get_or_cache_node s v).1 = cached s v := by
  unfold get_or_cache_node cached
  simp [h]

theorem skip_eq (fu : Option t_fn_usable) (start end_ u v : ptr) :
    (match fu with
      | some f => !(f v u start end_)
      | none => false) = !(usable fu start end_ u v) := by
  cases fu <;> rfl

/-- The record `solve_next` writes into a relaxed node. -/
theorem modify_node_relax {s : gastar C} {v : ptr} {n : t_node} (g f : Nat) (c : ptr)
    (h : s.all_nodes_ v = some n) (hn : n.obj = v) :
    modify_node s v (fun n => { n with assigned := true, value := g, f_score := f, parent := c })
      = { s with all_nodes_ := fun k => if k = v then some ⟨true, g, f, c, v⟩ else s.all_nodes_ k } := by
  unfold modify_node
  congr 1
  funext k
  by_cases hk : k = v
  · subst hk; simp [h, hn]
  · simp [hk]

section relax_lemmas

variable {addr : ptr → Nat} {fd : t_fn_distance} {fh : t_fn_heuristic} {fn : t_fn_neighbor}
  {fu : Option t_fn_usable} {start end_ : ptr} {s : gastar C}

theorem inv.obj_of_assigned (h : inv fd fh fn fu start end_ s) {k : ptr}
    (hk : (deref s k).assigned = true) : (deref s k).obj = k :=
  h.key_obj k _ (some_of_assigned hk)

theorem inv.end_obj (h : inv fd fh fn fu start end_ s) : (deref s end_).obj = end_ := by
  have := h.end_mem
  cases he : s.all_nodes_ end_ with
  | none => simp [he] at this
  | some n => rw [deref_of_some he]; exact h.key_obj _ _ he

theorem inv.ne_null_of_assigned (h : inv fd fh fn fu start end_ s) {k : ptr}
    (hk : (deref s k).assigned = true) : k ≠ nullptr := by
  intro hn
  subst hn
  rw [deref_of_none h.key_ne] at hk
  simp [zero_node] at hk

theorem relax_eq (addr : ptr → Nat) (h : inv fd fh fn fu start end_ s)
    (hcur : (deref s s.current_node_).assigned = true) (v : ptr) :
    relax addr s v = some (if relaxes fd fu start end_ s v = true
      then relaxed addr s v (tentative_g fd start end_ s v) (tentative_f fd fh start end_ s v)
      else s) := by
  have hco := h.obj_of_assigned hcur
  have hso := h.obj_of_assigned h.start_assigned
  have heo := h.end_obj
  unfold relax
  simp only [h.h_fu, h.h_start, h.h_end, hco, hso, heo, skip_eq, snd_get_or_cache_node]
  by_cases hu : usable fu start end_ s.current_node_ v = true
  · simp only [hu, Bool.not_true, Bool.false_eq_true, if_false]
    cases hv : s.all_nodes_ v with
    | some n =>
      rw [get_or_cache_node_of_some hv]
      simp only [h.h_fd, h.h_fh, h.h_start, h.h_end, hco, hso, heo]
      rw [modify_node_relax _ _ _ hv (h.key_obj _ _ hv)]
      simp only [relaxes, hu, Bool.true_and, tentative_g, tentative_f]
      split
      · rfl
      · rfl
    | none =>
      have hvd : deref s v = zero_node := deref_of_none hv
      have hne : ∀ k, (s.all_nodes_ k).isSome = true → k ≠ v := by
        intro k hk hkv
        rw [hkv, hv] at hk
        simp at hk
      have hcv : s.current_node_ ≠ v := hne _ (by rw [some_of_assigned hcur]; rfl)
      have hsv : start ≠ v := hne _ (by rw [some_of_assigned h.start_assigned]; rfl)
      have hev : end_ ≠ v := hne _ h.end_mem
      rw [get_or_cache_node_of_none hv]
      have hd1 : ∀ k, k ≠ v → deref (cached s v) k = deref s k := by
        intro k hk
        simp [deref, cached, hk]
      have hv1 : (cached s v).all_nodes_ v = some ⟨false, 0, 0, nullptr, v⟩ := by
        simp [cached]
      have hdv : deref (cached s v) v = ⟨false, 0, 0, nullptr, v⟩ := deref_of_some hv1
      have e1 : (cached s v).fn_distance_ = some fd := by exact h.h_fd
      have e2 : (cached s v).fn_heuristic_ = some fh := by exact h.h_fh
      have e3 : (cached s v).start_node_ = start := by exact h.h_start
      have e4 : (cached s v).end_node_ = end_ := by exact h.h_end
      have e5 : (cached s v).current_node_ = s.current_node_ := rfl
      simp only [e1, e2, e3, e4, e5, hd1 _ hcv, hd1 _ hsv, hd1 _ hev, hdv,
        hco, hso, heo, Bool.not_false, Bool.true_or, if_true]
      have hr : relaxes fd fu start end_ s v = true := by
        simp [relaxes, hu, hvd, zero_node]
      rw [if_pos hr]
      rw [modify_node_relax _ _ _ hv1 rfl]
      simp only [relaxed, tentative_g, tentative_f, cached]
      have hst : ∀ n : t_node, (fun k => if k = v then some n
            else (if k = v then some (⟨false, 0, 0, nullptr, v⟩ : t_node) else s.all_nodes_ k))
          = (fun k => if k = v then some n else s.all_nodes_ k) := by
        intro n
        funext k
        by_cases hk : k = v <;> simp [hk]
      simp only [hst]
  · have hr : relaxes fd fu start end_ s v = false := by
      simp [relaxes, hu]
    simp [hu, hr]

end relax_lemmas


section inv_lemmas

variable {addr : ptr → Nat} {fd : t_fn_distance} {fh : t_fn_heuristic} {fn : t_fn_neighbor}
  {fu : Option t_fn_usable} {start end_ : ptr} {s : gastar C}

theorem ne_null_of_mem_neighbors {fn : t_fn_neighbor} {u v : ptr}
    (h : v ∈ neighbors_of fn u) : v ≠ nullptr := by
  unfold neighbors_of at h
  have := List.mem_takeWhile_imp h
  simpa using this

theorem relaxes_iff {fd : t_fn_distance} {fu : Option t_fn_usable} {start end_ : ptr}
    {s : gastar C} {v : ptr} :
    relaxes fd fu start end_ s v = true ↔
      usable fu start end_ s.current_node_ v = true ∧
        ((deref s v).assigned = false ∨ tentative_g fd start end_ s v < (deref s v).value) := by
  simp [relaxes]

theorem tentative_g_lt (fd : t_fn_distance) (start end_ : ptr) (s : gastar C) (v : ptr) :
    tentative_g fd start end_ s v < UINT_MOD :=
  Nat.mod_lt _ (by decide)

theorem inv.ne_start_of_relaxes (h : inv fd fh fn fu start end_ s) {v : ptr}
    (hr : relaxes fd fu start end_ s v = true) : v ≠ start := by
  intro hv
  subst hv
  rcases (relaxes_iff.1 hr).2 with h1 | h1
  · rw [h.start_assigned] at h1; cases h1
  · rw [h.start_value] at h1; exact Nat.not_lt_zero _ h1

theorem inv_relaxed (addr : ptr → Nat) (h : inv fd fh fn fu start end_ s)
    (hcur : (deref s s.current_node_).assigned = true) {v : ptr}
    (hv : v ∈ neighbors_of fn s.current_node_)
    (hu : usable fu start end_ s.current_node_ v = true) (hvs : v ≠ start)
    {g : Nat} (hg : g < UINT_MOD) (f : Nat) :
    inv fd fh fn fu start end_ (relaxed addr s v g f) := by
  have hvn := ne_null_of_mem_neighbors hv
  have hcn := h.ne_null_of_assigned hcur
  refine
    { h_fd := h.h_fd, h_fh := h.h_fh, h_fn := h.h_fn, h_fu := h.h_fu, h_start := h.h_start,
      h_end := h.h_end, start_ne := h.start_ne, end_ne := h.end_ne, key_obj := ?_, key_ne := ?_,
      end_mem := ?_, start_assigned := ?_, start_value := ?_, start_parent := ?_,
      value_lt := ?_, open_assigned := ?_, parent_edge := ?_, root := ?_ }
  · intro k n hk
    by_cases hkv : k = v
    · subst hkv
      simp [relaxed] at hk
      rw [← hk]
    · simp [relaxed, hkv] at hk
      exact h.key_obj k n hk
  · have : nullptr ≠ v := fun e => hvn e.symm
    simp [relaxed, this]
    exact h.key_ne
  · by_cases hev : end_ = v
    · simp [relaxed, hev]
    · simp [relaxed, hev]
      exact h.end_mem
  · rw [deref_relaxed, if_neg (fun e => hvs e.symm)]; exact h.start_assigned
  · rw [deref_relaxed, if_neg (fun e => hvs e.symm)]; exact h.start_value
  · rw [deref_relaxed, if_neg (fun e => hvs e.symm)]; exact h.start_parent
  · intro k
    rw [deref_relaxed]
    split
    · exact hg
    · exact h.value_lt k
  · intro k hk
    rw [deref_relaxed]
    split
    · rfl
    · rcases mem_of_mem_emplace _ _ _ _ hk with e | e
      · contradiction
      · exact h.open_assigned k e
  · intro k hk
    rw [deref_relaxed] at hk ⊢
    by_cases hkv : k = v
    · subst hkv
      rw [if_pos rfl]
      refine ⟨rfl, ?_, hv, hu⟩
      show (deref (relaxed addr s k g f) s.current_node_).assigned = true
      rw [deref_relaxed]
      split
      · rfl
      · exact hcur
    · rw [if_neg hkv] at hk ⊢
      obtain ⟨h1, h2, h3⟩ := h.parent_edge k hk
      refine ⟨h1, ?_, h3⟩
      rw [deref_relaxed]
      split
      · rfl
      · exact h2
  · intro k hk hp
    rw [deref_relaxed] at hk hp
    by_cases hkv : k = v
    · rw [if_pos hkv] at hp
      exact absurd hp hcn
    · rw [if_neg hkv] at hk hp
      exact h.root k hk hp

theorem inv_pop (h : inv fd fh fn fu start end_ s) (b : ptr) (rest : List ptr)
    (ho : C.elems s.open_set_ = b :: rest) :
    inv fd fh fn fu start end_ (with_current s b) :=
  { h_fd := h.h_fd, h_fh := h.h_fh, h_fn := h.h_fn, h_fu := h.h_fu, h_start := h.h_start,
    h_end := h.h_end, start_ne := h.start_ne, end_ne := h.end_ne, key_obj := h.key_obj,
    key_ne := h.key_ne, end_mem := h.end_mem, start_assigned := h.start_assigned,
    start_value := h.start_value, start_parent := h.start_parent, value_lt := h.value_lt,
    open_assigned := fun k hk => h.open_assigned k (by
      rw [ho]
      have e : C.elems (with_current s b).open_set_ = rest := elems_erase_begin_of_cons ho
      rw [e] at hk
      exact List.mem_cons_of_mem _ hk),
    parent_edge := h.parent_edge, root := h.root }

/-- Induction over the `for` loop of `solve_next`: a property of the engine and of
the neighbors handled so far that every pass of the body keeps, holds at the end. -/
theorem relax_all_induct (addr : ptr → Nat) (cur : ptr) (P : List ptr → gastar C → Prop)
    (hkeep : ∀ done_ v s, inv fd fh fn fu start end_ s → s.current_node_ = cur →
      (deref s cur).assigned = true → v ∈ neighbors_of fn cur →
      relaxes fd fu start end_ s v = false → P done_ s → P (done_ ++ [v]) s)
    (hrelax : ∀ done_ v s, inv fd fh fn fu start end_ s → s.current_node_ = cur →
      (deref s cur).assigned = true → v ∈ neighbors_of fn cur →
      relaxes fd fu start end_ s v = true → P done_ s →
      P (done_ ++ [v])
        (relaxed addr s v (tentative_g fd start end_ s v) (tentative_f fd fh start end_ s v))) :
    ∀ (l done_ : List ptr) (s : gastar C), inv fd fh fn fu start end_ s → s.current_node_ = cur →
      (deref s cur).assigned = true → (∀ v, v ∈ l → v ∈ neighbors_of fn cur) → P done_ s →
      ∃ s1, relax_all addr s l = some s1 ∧ inv fd fh fn fu start end_ s1 ∧
        s1.current_node_ = cur ∧ (deref s1 cur).assigned = true ∧ P (done_ ++ l) s1 := by
  intro l
  induction l with
  | nil =>
    intro done_ s h hc ha _ hP
    exact ⟨s, rfl, h, hc, ha, by simpa using hP⟩
  | cons v l ih =>
    intro done_ s h hc ha hl hP
    have hv : v ∈ neighbors_of fn cur := hl v (List.mem_cons_self _ _)
    have hl2 : ∀ w, w ∈ l → w ∈ neighbors_of fn cur := fun w hw => hl w (List.mem_cons_of_mem _ hw)
    have hre := relax_eq addr h (by rw [hc]; exact ha) v
    simp only [relax_all, hre]
    have happ : done_ ++ v :: l = (done_ ++ [v]) ++ l := by simp
    rw [happ]
    by_cases hr : relaxes fd fu start end_ s v = true
    · rw [if_pos hr]
      have hu := (relaxes_iff.1 hr).1
      have h2 : inv fd fh fn fu start end_
          (relaxed addr s v (tentative_g fd start end_ s v) (tentative_f fd fh start end_ s v)) :=
        inv_relaxed addr h (by rw [hc]; exact ha) (by rw [hc]; exact hv) hu
          (h.ne_start_of_relaxes hr) (tentative_g_lt _ _ _ _ _) _
      have ha2 : (deref (relaxed addr s v (tentative_g fd start end_ s v)
          (tentative_f fd fh start end_ s v)) cur).assigned = true := by
        rw [deref_relaxed]
        split
        · rfl
        · exact ha
      exact ih (done_ ++ [v]) _ h2 hc ha2 hl2 (hrelax done_ v s h hc ha hv hr hP)
    · rw [if_neg hr]
      exact ih (done_ ++ [v]) _ h hc ha hl2
        (hkeep done_ v s h hc ha hv (by simpa using hr) hP)

theorem expand_cons (addr : ptr → Nat) {s : gastar C} {fn : t_fn_neighbor} {b : ptr}
    {rest : List ptr} (ho : C.elems s.open_set_ = b :: rest) (hfn : s.fn_neighbor_ = some fn) :
    expand addr s = relax_all addr (with_current s b)
      (neighbors_of fn (deref s b).obj) := by
  have e : expand addr s = (match (with_current s b).fn_neighbor_ with
      | none => none
      | some fn => relax_all addr (with_current s b)
          (neighbors_of fn (deref (with_current s b) b).obj)) := by
    unfold expand
    rw [ho]
    rfl
  have h2 : (with_current s b).fn_neighbor_ = some fn := hfn
  rw [e, h2]
  rfl

/-- Induction over one expansion. -/
theorem expand_induct (addr : ptr → Nat) (P : List ptr → gastar C → Prop)
    (h : inv fd fh fn fu start end_ s) (b : ptr) (rest : List ptr)
    (ho : C.elems s.open_set_ = b :: rest)
    (hkeep : ∀ done_ v s, inv fd fh fn fu start end_ s → s.current_node_ = b →
      (deref s b).assigned = true → v ∈ neighbors_of fn b →
      relaxes fd fu start end_ s v = false → P done_ s → P (done_ ++ [v]) s)
    (hrelax : ∀ done_ v s, inv fd fh fn fu start end_ s → s.current_node_ = b →
      (deref s b).assigned = true → v ∈ neighbors_of fn b →
      relaxes fd fu start end_ s v = true → P done_ s →
      P (done_ ++ [v])
        (relaxed addr s v (tentative_g fd start end_ s v) (tentative_f fd fh start end_ s v)))
    (hP : P [] (with_current s b)) :
    ∃ s1, expand addr s = some s1 ∧ inv fd fh fn fu start end_ s1 ∧
      s1.current_node_ = b ∧ (deref s1 b).assigned = true ∧ P (neighbors_of fn b) s1 := by
  have hb : (deref s b).assigned = true := h.open_assigned b (by rw [ho]; exact List.mem_cons_self _ _)
  have hbo : (deref s b).obj = b := h.obj_of_assigned hb
  have h1 := inv_pop h b rest ho
  rw [expand_cons addr ho h.h_fn, hbo]
  have := relax_all_induct addr b P hkeep hrelax (neighbors_of fn b) []
    (with_current s b) h1 rfl hb (fun v hv => hv) hP
  simpa using this

theorem inv_expand (addr : ptr → Nat) (h : inv fd fh fn fu start end_ s)
    (ho : C.elems s.open_set_ ≠ []) :
    ∃ s1, expand addr s = some s1 ∧ inv fd fh fn fu start end_ s1
      ∧ s1.current_node_ ≠ nullptr ∧ (C.elems s.open_set_).head? = some s1.current_node_ := by
  cases hos : C.elems s.open_set_ with
  | nil => exact absurd hos ho
  | cons b rest =>
    obtain ⟨s1, h1, h2, h3, h4, _⟩ := expand_induct addr (fun _ _ => True) h b rest hos
      (fun _ _ _ _ _ _ _ _ _ => trivial) (fun _ _ _ _ _ _ _ _ _ => trivial) trivial
    refine ⟨s1, h1, h2, ?_, by simp [h3]⟩
    rw [h3]
    exact h2.ne_null_of_assigned h4

end inv_lemmas


/-! ## `setup` -/

theorem setup_ok (addr : ptr → Nat) (s : gastar C) (start end_ : ptr) (fd : t_fn_distance)
    (fh : t_fn_heuristic) (fn : t_fn_neighbor) (fu : Option t_fn_usable)
    (hs : start ≠ nullptr) (he : end_ ≠ nullptr) :
    setup addr s start end_ (some fd) (some fh) (some fn) fu
      = .ok (setup_state C start end_ fd fh fn fu) := by
  unfold setup
  rw [if_neg hs, if_neg he]
  simp only [get_or_cache_node, modify_node, setup_state]
  by_cases hse : start = end_
  · subst hse
    simp
    refine ⟨?_, C.emplace_empty _ _ _⟩
    funext k
    by_cases hk : k = start <;> simp [hk]
  · have hes : ¬ end_ = start := fun h => hse h.symm
    simp [hse, hes]
    refine ⟨?_, C.emplace_empty _ _ _⟩
    funext k
    by_cases hk : k = start
    · simp [hk, hse]
    · simp [hk]

theorem setup_error_iff (addr : ptr → Nat) (s : gastar C) (start end_ : ptr)
    (fd : Option t_fn_distance) (fh : Option t_fn_heuristic) (fn : Option t_fn_neighbor)
    (fu : Option t_fn_usable) :
    (∃ e, setup addr s start end_ fd fh fn fu = .error e) ↔
      (start = nullptr ∨ end_ = nullptr ∨ fd = none ∨ fh = none ∨ fn = none) := by
  by_cases hs : start = nullptr
  · simp [setup, hs]
  by_cases he : end_ = nullptr
  · simp [setup, hs, he]
  cases fd with
  | none => simp [setup, hs, he]
  | some fd =>
  cases fh with
  | none => simp [setup, hs, he]
  | some fh =>
  cases fn with
  | none => simp [setup, hs, he]
  | some fn =>
  rw [setup_ok addr s start end_ fd fh fn fu hs he]
  simp [hs, he]

theorem setup_eq_ok {addr : ptr → Nat} {s s0 : gastar C} {start end_ : ptr}
    {fd : t_fn_distance} {fh : t_fn_heuristic} {fn : t_fn_neighbor} {fu : Option t_fn_usable}
    (h : setup addr s start end_ (some fd) (some fh) (some fn) fu = .ok s0) :
    start ≠ nullptr ∧ end_ ≠ nullptr ∧ s0 = setup_state C start end_ fd fh fn fu := by
  have hne : ¬ (start = nullptr ∨ end_ = nullptr ∨ (some fd) = none ∨ (some fh) = none
      ∨ (some fn) = none) := by
    rw [← setup_error_iff addr s start end_ (some fd) (some fh) (some fn) fu]
    rintro ⟨e, he⟩
    rw [h] at he
    cases he
  have hs : start ≠ nullptr := fun e => hne (Or.inl e)
  have he : end_ ≠ nullptr := fun e => hne (Or.inr (Or.inl e))
  refine ⟨hs, he, ?_⟩
  rw [setup_ok addr s start end_ fd fh fn fu hs he] at h
  injection h with h
  exact h.symm

theorem deref_setup_state (start end_ : ptr) (fd : t_fn_distance) (fh : t_fn_heuristic)
    (fn : t_fn_neighbor) (fu : Option t_fn_usable) (k : ptr) :
    deref (setup_state C start end_ fd fh fn fu) k =
      if k = start then ⟨true, 0, fh start nullptr start end_, nullptr, start⟩
      else if k = end_ then ⟨false, 0, 0, nullptr, end_⟩
      else zero_node := by
  unfold deref setup_state
  by_cases h1 : k = start
  · simp [h1]
  · by_cases h2 : k = end_
    · subst h2
      simp [h1]
    · simp [h1, h2]

theorem inv_setup_state {start end_ : ptr} (fd : t_fn_distance) (fh : t_fn_heuristic)
    (fn : t_fn_neighbor) (fu : Option t_fn_usable)
    (hs : start ≠ nullptr) (he : end_ ≠ nullptr) :
    inv fd fh fn fu start end_ (setup_state C start end_ fd fh fn fu) := by
  refine
    { h_fd := rfl, h_fh := rfl, h_fn := rfl, h_fu := rfl, h_start := rfl,
      h_end := rfl, start_ne := hs, end_ne := he, key_obj := ?_, key_ne := ?_,
      end_mem := ?_, start_assigned := ?_, start_value := ?_, start_parent := ?_,
      value_lt := ?_, open_assigned := ?_, parent_edge := ?_, root := ?_ }
  · intro k n hk
    simp only [setup_state] at hk
    split_ifs at hk with h1 h2
    · injection hk with hk; rw [← hk, h1]
    · injection hk with hk; rw [← hk, h2]
  · have h1 : ¬ nullptr = start := fun e => hs e.symm
    have h2 : ¬ nullptr = end_ := fun e => he e.symm
    simp [setup_state, h1, h2]
  · simp only [setup_state]
    split_ifs <;> simp_all
  · rw [deref_setup_state, if_pos rfl]
  · rw [deref_setup_state, if_pos rfl]
  · rw [deref_setup_state, if_pos rfl]
  · intro k
    rw [deref_setup_state]
    split_ifs <;> simp [zero_node, UINT_MOD]
  · intro k hk
    have hk2 : k ∈ C.elems (C.emplace (fun _ _ => false) start C.empty) := hk
    rw [elems_emplace_empty] at hk2
    have : k = start := by simpa using hk2
    rw [deref_setup_state, if_pos this]
  · intro k hk
    rw [deref_setup_state] at hk
    split_ifs at hk <;> simp [zero_node] at hk
  · intro k hk _
    rw [deref_setup_state] at hk
    split_ifs at hk with h1 h2
    all_goals first | exact h1 | simp [zero_node] at hk

/-! ## Sessions are sequences of expansions -/

section session_lemmas

variable {addr : ptr → Nat} {fd : t_fn_distance} {fh : t_fn_heuristic} {fn : t_fn_neighbor}
  {fu : Option t_fn_usable} {start end_ : ptr}

theorem solve_loop_expands (addr : ptr → Nat) (c : Bool) :
    ∀ (fuel : Nat) (s s1 : gastar C), solve_loop addr c fuel s = some s1 →
      ∃ n, expand_n addr n s = some s1 ∧ (C.elems s.open_set_ = [] → n = 0)
        ∧ (C.elems s.open_set_ ≠ [] → 0 < n) := by
  intro fuel
  induction fuel with
  | zero => intro s s1 h; simp [solve_loop] at h
  | succ fuel ih =>
    intro s s1 h
    simp only [solve_loop] at h
    by_cases he : C.elems s.open_set_ = []
    · simp [he] at h
      subst h
      exact ⟨0, rfl, fun _ => rfl, fun hn => absurd he hn⟩
    · have he2 : (C.elems s.open_set_).isEmpty = false := by
        cases hs : C.elems s.open_set_ with
        | nil => exact absurd hs he
        | cons _ _ => rfl
      simp only [he2, Bool.false_eq_true, if_false] at h
      cases hx : expand addr s with
      | none => simp [hx] at h
      | some s2 =>
        simp only [hx] at h
        cases c with
        | false =>
          simp at h
          subst h
          exact ⟨1, by simp [expand_n, hx], fun h0 => absurd h0 he, fun _ => Nat.one_pos⟩
        | true =>
          simp at h
          obtain ⟨n, hn, _, _⟩ := ih s2 s1 h
          exact ⟨n + 1, by simp [expand_n, hx, hn], fun h0 => absurd h0 he,
            fun _ => Nat.succ_pos _⟩

theorem inv_expand_n (addr : ptr → Nat) :
    ∀ (n : Nat) (s s1 : gastar C), inv fd fh fn fu start end_ s → expand_n addr n s = some s1 →
      inv fd fh fn fu start end_ s1 ∧ (0 < n → s1.current_node_ ≠ nullptr)
        ∧ (n = 0 → s1 = s) := by
  intro n
  induction n with
  | zero =>
    intro s s1 h he
    simp [expand_n] at he
    subst he
    exact ⟨h, fun h0 => absurd h0 (Nat.lt_irrefl 0), fun _ => rfl⟩
  | succ n ih =>
    intro s s1 h he
    simp only [expand_n] at he
    cases hx : expand addr s with
    | none => simp [hx] at he
    | some s2 =>
      simp only [hx] at he
      have ho : C.elems s.open_set_ ≠ [] := by
        intro ho
        simp [expand, ho] at hx
      obtain ⟨s2', hx', h2, hc, _⟩ := inv_expand addr h ho
      rw [hx] at hx'
      injection hx' with hx'
      subst hx'
      obtain ⟨h3, hc3, he3⟩ := ih s2 s1 h2 he
      refine ⟨h3, fun _ => ?_, fun h0 => absurd h0 (Nat.succ_ne_zero n)⟩
      rcases Nat.eq_zero_or_pos n with hn | hn
      · rw [he3 hn]; exact hc
      · exact hc3 hn

theorem expand_n_add (addr : ptr → Nat) :
    ∀ (n m : Nat) (s s2 s1 : gastar C), expand_n addr n s = some s2 →
      expand_n addr m s2 = some s1 → expand_n addr (n + m) s = some s1 := by
  intro n
  induction n with
  | zero =>
    intro m s s2 s1 hn hm
    simp [expand_n] at hn
    subst hn
    simpa using hm
  | succ n ih =>
    intro m s s2 s1 hn hm
    simp only [expand_n] at hn
    cases hx : expand addr s with
    | none => simp [hx] at hn
    | some s3 =>
      simp only [hx] at hn
      have e : n + 1 + m = (n + m) + 1 := by omega
      rw [e]
      simp only [expand_n, hx]
      exact ih m s3 s2 s1 hn hm

theorem after_calls_expands (addr : ptr → Nat) :
    ∀ (calls : List (Nat × Bool)) (s s1 : gastar C), after_calls addr calls s = some s1 →
      ∃ n, expand_n addr n s = some s1 := by
  intro calls
  induction calls with
  | nil =>
    intro s s1 h
    simp [after_calls] at h
    exact ⟨0, by simp [expand_n, h]⟩
  | cons c cs ih =>
    intro s s1 h
    simp only [after_calls, solve_next] at h
    cases hl : solve_loop addr c.2 c.1 s with
    | none => simp [hl] at h
    | some s2 =>
      simp [hl] at h
      obtain ⟨n, hn, _⟩ := solve_loop_expands addr c.2 c.1 s s2 hl
      obtain ⟨m, hm⟩ := ih s2 s1 h
      exact ⟨n + m, expand_n_add addr n m s s2 s1 hn hm⟩

theorem inv_after_calls {addr : ptr → Nat} {sp s0 s : gastar C} {calls : List (Nat × Bool)}
    (hs : setup addr sp start end_ (some fd) (some fh) (some fn) fu = .ok s0)
    (hc : after_calls addr calls s0 = some s) : inv fd fh fn fu start end_ s := by
  obtain ⟨h1, h2, h3⟩ := setup_eq_ok hs
  subst h3
  obtain ⟨n, hn⟩ := after_calls_expands addr calls _ _ hc
  exact (inv_expand_n addr n _ _ (inv_setup_state (C := C) fd fh fn fu h1 h2) hn).1

end session_lemmas


/-! ## Claims on `setup` -/

/-- C4: `setup` throws a `gastar_exception` naming the first missing argument, checked
in the order start, end, distance function, heuristic function, neighbor function; a null
start gives the start message whatever the other arguments are; `setup` fails exactly
when one of those five is null or empty, so an empty usable function never makes it
fail. -/
theorem setup_rejects_missing_arguments (addr : ptr → Nat) (s : gastar C) (start end_ : ptr)
    (fd : Option t_fn_distance) (fh : Option t_fn_heuristic) (fn : Option t_fn_neighbor)
    (fu : Option t_fn_usable) :
    (start = nullptr →
      setup addr s start end_ fd fh fn fu = .error ⟨"start node cannot be empty"⟩)
    ∧ (start ≠ nullptr → end_ = nullptr →
      setup addr s start end_ fd fh fn fu = .error ⟨"end node cannot be empty"⟩)
    ∧ (start ≠ nullptr → end_ ≠ nullptr → fd = none →
      setup addr s start end_ fd fh fn fu
        = .error ⟨"distance calculation function cannot be empty"⟩)
    ∧ (start ≠ nullptr → end_ ≠ nullptr → fd ≠ none → fh = none →
      setup addr s start end_ fd fh fn fu
        = .error ⟨"heuristic calculation function cannot be empty"⟩)
    ∧ (start ≠ nullptr → end_ ≠ nullptr → fd ≠ none → fh ≠ none → fn = none →
      setup addr s start end_ fd fh fn fu
        = .error ⟨"neighbor getter function cannot be empty"⟩)
    ∧ ((∃ e, setup addr s start end_ fd fh fn fu = .error e) ↔
      (start = nullptr ∨ end_ = nullptr ∨ fd = none ∨ fh = none ∨ fn = none))
    ∧ (start ≠ nullptr → end_ ≠ nullptr → fd ≠ none → fh ≠ none → fn ≠ none →
      ∃ s0, setup addr s start end_ fd fh fn none = .ok s0) := by
  refine ⟨?_, ?_, ?_, ?_, ?_, setup_error_iff addr s start end_ fd fh fn fu, ?_⟩
  · intro h
    simp [setup, h]
  · intro h1 h2
    simp [setup, h1, h2]
  · intro h1 h2 h3
    simp [setup, h1, h2, h3]
  · intro h1 h2 h3 h4
    cases fd with
    | none => exact absurd rfl h3
    | some fd => simp [setup, h1, h2, h4]
  · intro h1 h2 h3 h4 h5
    cases fd with
    | none => exact absurd rfl h3
    | some fd =>
      cases fh with
      | none => exact absurd rfl h4
      | some fh => simp [setup, h1, h2, h5]
  · intro h1 h2 h3 h4 h5
    cases fd with
    | none => exact absurd rfl h3
    | some fd =>
      cases fh with
      | none => exact absurd rfl h4
      | some fh =>
        cases fn with
        | none => exact absurd rfl h5
        | some fn => exact ⟨_, setup_ok addr s start end_ fd fh fn none h1 h2⟩

/-- C6: after a successful `setup(start, end, ...)`, also when start equals end, the node
store has entries exactly for `start` and `end`, the start node is assigned with
`g_score = 0`, `f_score = heuristic_fn(start, none, start, end)` and no parent, the
frontier is exactly the start node, and the current node is cleared, so that `is_done()`
and `is_solved()` are false. -/
theorem setup_initial_state (addr : ptr → Nat) (s : gastar C) (start end_ : ptr)
    (fd : t_fn_distance) (fh : t_fn_heuristic) (fn : t_fn_neighbor) (fu : Option t_fn_usable)
    (hs : start ≠ nullptr) (he : end_ ≠ nullptr) :
    ∃ s0, setup addr s start end_ (some fd) (some fh) (some fn) fu = .ok s0
      ∧ (∀ k, (s0.all_nodes_ k).isSome = true ↔ (k = start ∨ k = end_))
      ∧ s0.all_nodes_ start = some ⟨true, 0, fh start nullptr start end_, nullptr, start⟩
      ∧ (end_ ≠ start → s0.all_nodes_ end_ = some ⟨false, 0, 0, nullptr, end_⟩)
      ∧ s0.start_node_ = start ∧ s0.end_node_ = end_
      ∧ C.elems s0.open_set_ = [start]
      ∧ s0.current_node_ = nullptr ∧ get_current_node addr s0 = nullptr
      ∧ is_done s0 = false ∧ is_solved s0 = false := by
  refine ⟨_, setup_ok addr s start end_ fd fh fn fu hs he, ?_, ?_, ?_, rfl, rfl,
    elems_emplace_empty _ _, rfl, rfl, ?_, ?_⟩
  · intro k
    by_cases h1 : k = start
    · simp [setup_state, h1]
    · by_cases h2 : k = end_
      · subst h2
        simp [setup_state, h1]
      · simp [setup_state, h1, h2]
  · simp [setup_state]
  · intro h
    simp [setup_state, h]
  · simp [is_done, setup_state, elems_emplace_empty]
  · simp [is_solved, is_done, setup_state, elems_emplace_empty]

theorem setup_initial_state_witness :
    ∃ s0, setup demo_addr (gastar_new rb_set) 1 1 (some unit_distance) (some zero_heuristic)
        (some one_edge_neighbor) none = .ok s0
      ∧ rb_elems s0.open_set_ = [1] ∧ is_done s0 = false ∧ is_solved s0 = false := by
  obtain ⟨s0, h1, _, _, _, _, _, h2, _, _, h3, h4⟩ :=
    setup_initial_state demo_addr (gastar_new rb_set) 1 1 unit_distance zero_heuristic
      one_edge_neighbor none (by decide) (by decide)
  exact ⟨s0, h1, h2, h3, h4⟩

theorem open_set_less_same_order {addr1 addr2 : ptr → Nat} (h : same_order addr1 addr2)
    (s : gastar C) : open_set_less addr1 s = open_set_less addr2 s := by
  funext a b
  unfold open_set_less node_sort
  simp only [(h a b).1, (h a b).2]

theorem relax_same_order {addr1 addr2 : ptr → Nat} (h : same_order addr1 addr2)
    (s : gastar C) (v : ptr) : relax addr1 s v = relax addr2 s v := by
  unfold relax
  simp only [open_set_less_same_order h]

theorem relax_all_same_order {addr1 addr2 : ptr → Nat} (h : same_order addr1 addr2) :
    ∀ (l : List ptr) (s : gastar C), relax_all addr1 s l = relax_all addr2 s l := by
  intro l
  induction l with
  | nil => intro s; rfl
  | cons v l ih =>
    intro s
    simp only [relax_all, relax_same_order h]
    cases relax addr2 s v with
    | none => rfl
    | some s1 => exact ih s1

theorem expand_same_order {addr1 addr2 : ptr → Nat} (h : same_order addr1 addr2)
    (s : gastar C) : expand addr1 s = expand addr2 s := by
  unfold expand
  simp only [relax_all_same_order h]

theorem solve_loop_same_order {addr1 addr2 : ptr → Nat} (h : same_order addr1 addr2)
    (c : Bool) : ∀ (fuel : Nat) (s : gastar C),
      solve_loop addr1 c fuel s = solve_loop addr2 c fuel s := by
  intro fuel
  induction fuel with
  | zero => intro s; rfl
  | succ fuel ih =>
    intro s
    simp only [solve_loop, expand_same_order h]
    split
    · rfl
    · cases expand addr2 s with
      | none => rfl
      | some s1 => simp only [ih s1]

theorem after_calls_same_order {addr1 addr2 : ptr → Nat} (h : same_order addr1 addr2) :
    ∀ (calls : List (Nat × Bool)) (s : gastar C),
      after_calls addr1 calls s = after_calls addr2 calls s := by
  intro calls
  induction calls with
  | nil => intro s; rfl
  | cons c cs ih =>
    intro s
    simp only [after_calls, solve_next, solve_loop_same_order h]
    cases solve_loop addr2 c.2 c.1 s with
    | none => rfl
    | some s1 => exact ih s1

/-- C7 (amended): for every implementation `C` of the frontier container: a successful
`setup` overwrites every data member: for any two prior
engines and the same arguments `setup` has the same outcome and leaves equal engines,
wherever the node records are allocated; the engines (all scores and parents) after any
further sequence of `solve_next` calls and the paths reconstructed from them are equal
too, provided the two sessions allocate their node records in the same order of
addresses. -/
theorem setup_resets_session (addr1 addr2 : ptr → Nat) (s1 s2 : gastar C)
    (start end_ : ptr) (fd : Option t_fn_distance) (fh : Option t_fn_heuristic)
    (fn : Option t_fn_neighbor) (fu : Option t_fn_usable) :
    setup addr1 s1 start end_ fd fh fn fu = setup addr2 s2 start end_ fd fh fn fu
    ∧ ∀ t1 t2, setup addr1 s1 start end_ fd fh fn fu = .ok t1 →
        setup addr2 s2 start end_ fd fh fn fu = .ok t2 →
        t1 = t2
        ∧ (same_order addr1 addr2 →
            (∀ calls, after_calls addr1 calls t1 = after_calls addr2 calls t2)
            ∧ (∀ calls fuel, (after_calls addr1 calls t1).map
                  (fun t => reconstruct_end fuel t (some record_visit) [])
                = (after_calls addr2 calls t2).map
                  (fun t => reconstruct_end fuel t (some record_visit) []))) := by
  have key : setup addr1 s1 start end_ fd fh fn fu = setup addr2 s2 start end_ fd fh fn fu := by
    by_cases hs : start = nullptr
    · simp [setup, hs]
    by_cases he : end_ = nullptr
    · simp [setup, hs, he]
    cases fd with
    | none => simp [setup, hs, he]
    | some fd =>
    cases fh with
    | none => simp [setup, hs, he]
    | some fh =>
    cases fn with
    | none => simp [setup, hs, he]
    | some fn => rw [setup_ok addr1 s1 _ _ _ _ _ _ hs he, setup_ok addr2 s2 _ _ _ _ _ _ hs he]
  refine ⟨key, ?_⟩
  intro t1 t2 h1 h2
  rw [key, h2] at h1
  injection h1 with h1
  subst h1
  refine ⟨rfl, fun hord => ⟨fun calls => after_calls_same_order hord calls t2, ?_⟩⟩
  intro calls fuel
  rw [after_calls_same_order hord calls t2]

theorem same_order_shift : same_order demo_addr shift_addr := by
  intro (a : Nat) (b : Nat)
  simp only [demo_addr, shift_addr]
  constructor <;> constructor <;> intro h <;> omega

theorem order_addr_injective (l : List ptr) (hl : l.length ≤ 900) :
    Function.Injective (order_addr l) := by
  intro (a : Nat) (b : Nat) h
  simp only [order_addr] at h
  by_cases ha : a ∈ l <;> by_cases hb : b ∈ l
  · rw [if_pos ha, if_pos hb] at h
    exact (List.indexOf_inj ha hb).1 (Nat.add_left_cancel h)
  · rw [if_pos ha, if_neg hb] at h
    have := List.indexOf_lt_length.2 ha
    omega
  · rw [if_neg ha, if_pos hb] at h
    have := List.indexOf_lt_length.2 hb
    omega
  · rw [if_neg ha, if_neg hb] at h
    exact Nat.add_left_cancel h

theorem setup_resets_session_witness :
    same_order demo_addr shift_addr
    ∧ setup demo_addr (gastar_new rb_set) 1 9 (some unit_distance) (some grid_heuristic)
        (some grid_neighbor) none
      = setup shift_addr used_engine 1 9 (some unit_distance) (some grid_heuristic)
        (some grid_neighbor) none
    ∧ after_calls demo_addr [(20, true)]
        (setup_state rb_set 1 9 unit_distance grid_heuristic grid_neighbor none)
      = after_calls shift_addr [(20, true)]
        (setup_state rb_set 1 9 unit_distance grid_heuristic grid_neighbor none) := by
  have h := setup_resets_session demo_addr shift_addr (gastar_new rb_set) used_engine 1 9
    (some unit_distance) (some grid_heuristic) (some grid_neighbor) none
  refine ⟨same_order_shift, h.1, ?_⟩
  exact ((h.2 _ _
    (setup_ok demo_addr (gastar_new rb_set) 1 9 unit_distance grid_heuristic grid_neighbor none
      (by decide) (by decide))
    (setup_ok shift_addr used_engine 1 9 unit_distance grid_heuristic grid_neighbor none
      (by decide) (by decide))).2 same_order_shift).1 [(20, true)]

/-- C7 (as stated) fails: Scenario A set up with the same arguments on a fresh and on a
used engine starts from equal engines, but the node records of the second session lie in
another order of addresses (both allocations are injective), so the tie-break of
`node_sort` pops the nodes in another order: the used engine has run a session and is
done, the `g_score` of the end node is `4` in both sessions, but the parent of node `6` is
`3` in one and `5` in the other, and `reconstruct_end` visits `9, 6, 3, 2, 1` in one and
`9, 6, 5, 4, 1` in the other. -/
theorem sessions_differ_with_addresses :
    Function.Injective (order_addr fresh_order) ∧ Function.Injective (order_addr reused_order)
    ∧ is_done used_engine = true ∧ (used_engine.all_nodes_ 12).isSome = true
    ∧ setup (order_addr fresh_order) (gastar_new rb_set) 1 9 (some unit_distance)
        (some grid_heuristic) (some grid_neighbor) none
      = setup (order_addr reused_order) used_engine 1 9 (some unit_distance)
        (some grid_heuristic) (some grid_neighbor) none
    ∧ (grid_session_with (order_addr fresh_order) (gastar_new rb_set)).map
        (fun s => ((deref s 9).value, (deref s 6).parent)) = some (4, 3)
    ∧ (grid_session_with (order_addr reused_order) used_engine).map
        (fun s => ((deref s 9).value, (deref s 6).parent)) = some (4, 5)
    ∧ (grid_session_with (order_addr fresh_order) (gastar_new rb_set)).bind
        (fun s => reconstruct_end 10 s (some record_visit) []) = some ([9, 6, 3, 2, 1], none)
    ∧ (grid_session_with (order_addr reused_order) used_engine).bind
        (fun s => reconstruct_end 10 s (some record_visit) [])
          = some ([9, 6, 5, 4, 1], none) := by
  refine ⟨order_addr_injective _ (by decide), order_addr_injective _ (by decide),
    by decide, by decide, ?_, by decide, by decide, by decide, by decide⟩
  rw [setup_ok (order_addr fresh_order) (gastar_new rb_set) 1 9 unit_distance grid_heuristic
      grid_neighbor none (by decide) (by decide),
    setup_ok (order_addr reused_order) used_engine 1 9 unit_distance grid_heuristic
      grid_neighbor none (by decide) (by decide)]

/-! ## Claims on `solve_next` that need no invariant -/

theorem after_calls_of_empty (addr : ptr → Nat) (s : gastar C) (h : C.elems s.open_set_ = []) :
    ∀ calls : List (Nat × Bool), (∀ c, c ∈ calls → 0 < c.1) →
      after_calls addr calls s = some s := by
  intro calls
  induction calls with
  | nil => intro _; rfl
  | cons c cs ih =>
    intro hc
    obtain ⟨f, hf⟩ : ∃ f, c.1 = f + 1 :=
      ⟨c.1 - 1, by have := hc c (List.mem_cons_self _ _); omega⟩
    simp only [after_calls, solve_next, hf, solve_loop, h, List.isEmpty_nil, if_true,
      Option.map_some']
    exact ih (fun c hc1 => hc c (List.mem_cons_of_mem _ hc1))

/-- C9: with an empty frontier `solve_next`, for either value of `continuous`, returns
true and leaves the whole engine as it was (node store, frontier, current node, hence
`is_done()` and `is_solved()`); this holds whatever the callbacks are, empty ones
included, so none is invoked; and no sequence of `solve_next` calls changes the engine
again. -/
theorem solve_next_on_empty_frontier (addr : ptr → Nat) (fuel : Nat) (continuous : Bool)
    (s : gastar C) (h : C.elems s.open_set_ = []) :
    solve_next addr (fuel + 1) continuous s = some (s, true)
    ∧ ∀ calls : List (Nat × Bool), (∀ c, c ∈ calls → 0 < c.1) →
        after_calls addr calls s = some s := by
  refine ⟨?_, after_calls_of_empty addr s h⟩
  simp [solve_next, solve_loop, h]

theorem solve_next_on_empty_frontier_witness :
    solve_next demo_addr 1 true (gastar_new rb_set) = some (gastar_new rb_set, true) :=
  (solve_next_on_empty_frontier demo_addr 0 true (gastar_new rb_set) rfl).1

/-- C10 (what the code does): after `setup(start, ...)` and one `solve_next(false)`,
`get_current_node()` is the address of the node record of `start`, which the record's
`obj` field maps back to the identity `start`; it is not the identity itself. -/
theorem get_current_node_after_first_step (addr : ptr → Nat) (sp s0 s1 : gastar C)
    (start end_ : ptr) (fd : t_fn_distance) (fh : t_fn_heuristic) (fn : t_fn_neighbor)
    (fu : Option t_fn_usable) (fuel : Nat) (b : Bool)
    (hs : setup addr sp start end_ (some fd) (some fh) (some fn) fu = .ok s0)
    (hn : solve_next addr fuel false s0 = some (s1, b)) :
    get_current_node addr s1 = addr start ∧ (deref s1 s1.current_node_).obj = start := by
  obtain ⟨h1, h2, h3⟩ := setup_eq_ok hs
  subst h3
  have hi := inv_setup_state (C := C) fd fh fn fu h1 h2
  simp only [solve_next, Option.map_eq_some'] at hn
  obtain ⟨s2, hl, he⟩ := hn
  injection he with he _
  subst he
  cases fuel with
  | zero => simp [solve_loop] at hl
  | succ fuel =>
    have ho : C.elems (setup_state C start end_ fd fh fn fu).open_set_ ≠ [] := by
      simp [setup_state, elems_emplace_empty]
    obtain ⟨s3, hx, h3, hc, hh⟩ := inv_expand addr hi ho
    have he2 : (C.elems (setup_state C start end_ fd fh fn fu).open_set_).isEmpty = false := by
      simp [setup_state, elems_emplace_empty]
    simp only [solve_loop, he2, Bool.false_eq_true, if_false, hx] at hl
    injection hl with hl
    subst hl
    have hcs : s3.current_node_ = start := by
      have e : C.elems (setup_state C start end_ fd fh fn fu).open_set_ = [start] :=
        elems_emplace_empty _ _
      rw [e] at hh
      simpa using hh.symm
    refine ⟨?_, ?_⟩
    · unfold get_current_node
      rw [if_neg hc, hcs]
    · rw [hcs]
      exact h3.obj_of_assigned h3.start_assigned

theorem get_current_node_after_first_step_witness :
    ∃ s1 b, solve_next demo_addr 1 false (setup_state rb_set 1 2 unit_distance zero_heuristic
        one_edge_neighbor none) = some (s1, b)
      ∧ get_current_node demo_addr s1 = 101 ∧ (deref s1 s1.current_node_).obj = 1 := by
  have hs := setup_ok demo_addr (gastar_new rb_set) 1 2 unit_distance zero_heuristic
    one_edge_neighbor none (by decide) (by decide)
  cases hn : solve_next demo_addr 1 false (setup_state rb_set 1 2 unit_distance zero_heuristic
      one_edge_neighbor none) with
  | none =>
    have : (solve_next demo_addr 1 false (setup_state rb_set 1 2 unit_distance zero_heuristic
      one_edge_neighbor none)).isSome = true := by decide
    rw [hn] at this
    cases this
  | some r =>
    exact ⟨r.1, r.2, rfl, get_current_node_after_first_step demo_addr (gastar_new rb_set) _ r.1 1 2
      unit_distance zero_heuristic one_edge_neighbor none 1 r.2 hs hn⟩

/-- C8 (what the code does): after `setup` and two `solve_next(false)` calls on the graph
`1 → 2, 1 → 3, 1 → 4, 2 → 4`, node `4`, relaxed while it already was in the frontier,
is in the frontier twice. -/
theorem open_set_holds_duplicate :
    dup_session.map (fun s => rb_elems s.open_set_) = some [4, 3, 4]
    ∧ dup_session.map (fun s => (s.open_set_ : rb_tree))
        = some (.node false (.node true .nil 4 .nil) 3 (.node true .nil 4 .nil)) := by
  decide

/-- With one more neighbor of the start node the same relaxation adds no entry: after the
first call the frontier is `2, 3, 4, 5`; the second call pops `2`, which leaves the tree
with root `4`, and relaxes `4` from `g = 10` to `g = 2`; the search for the place of the
new entry meets the old entry of `4` at the root, so nothing is inserted and `4` keeps its
place behind `3`, whose scores are higher; the third call pops `3`. -/
theorem stale_entry_keeps_its_place :
    (stale_steps 1).map (fun s => rb_elems s.open_set_) = some [2, 3, 4, 5]
    ∧ (stale_steps 2).map (fun s => (s.open_set_ : rb_tree))
        = some (.node false (.node false .nil 3 .nil) 4 (.node false .nil 5 .nil))
    ∧ (stale_steps 2).map (fun s => ((deref s 3).f_score, (deref s 4).f_score)) = some (5, 2)
    ∧ (stale_steps 3).map (fun s => s.current_node_) = some 3 := by
  decide


/-! ## Claims on the reconstruction functions -/

theorem reconstruct_end_throws_iff {σ : Type} (fuel : Nat) (t : gastar C)
    (v : Option (ptr → σ → σ)) (w : σ) :
    (∃ w1 e, reconstruct_end fuel t v w = some (w1, some e)) ↔
      (v = none ∨ is_solved t = false) := by
  cases v with
  | none => simp [reconstruct_end]
  | some visit =>
    cases hsol : is_solved t with
    | false => simp [reconstruct_end, hsol]
    | true =>
      simp only [reconstruct_end, hsol, Bool.not_true, Bool.false_eq_true, if_false]
      cases parent_walk t fuel t.end_node_ <;> simp

theorem reconstruct_current_throws_iff {σ : Type} (fuel : Nat) (t : gastar C)
    (v : Option (ptr → σ → σ)) (w : σ) :
    (∃ w1 e, reconstruct_current fuel t v w = some (w1, some e)) ↔
      (v = none ∨ t.current_node_ = nullptr) := by
  cases v with
  | none => simp [reconstruct_current]
  | some visit =>
    by_cases hc : t.current_node_ = nullptr
    · simp [reconstruct_current, hc]
    · simp only [reconstruct_current, hc, if_false]
      cases parent_walk t fuel t.current_node_ <;> simp

theorem reconstruct_end_throws_state {σ : Type} (fuel : Nat) (t : gastar C)
    (v : Option (ptr → σ → σ)) (w w1 : σ) (e : gastar_exception)
    (h : reconstruct_end fuel t v w = some (w1, some e)) : w1 = w := by
  cases v with
  | none =>
    simp [reconstruct_end] at h
    exact h.1.symm
  | some visit =>
    cases hsol : is_solved t with
    | false =>
      simp [reconstruct_end, hsol] at h
      exact h.1.symm
    | true =>
      simp only [reconstruct_end, hsol, Bool.not_true, Bool.false_eq_true, if_false] at h
      cases hp : parent_walk t fuel t.end_node_ <;> simp [hp] at h

theorem reconstruct_current_throws_state {σ : Type} (fuel : Nat) (t : gastar C)
    (v : Option (ptr → σ → σ)) (w w1 : σ) (e : gastar_exception)
    (h : reconstruct_current fuel t v w = some (w1, some e)) : w1 = w := by
  cases v with
  | none =>
    simp [reconstruct_current] at h
    exact h.1.symm
  | some visit =>
    by_cases hc : t.current_node_ = nullptr
    · simp [reconstruct_current, hc] at h
      exact h.1.symm
    · simp only [reconstruct_current, hc, if_false] at h
      cases hp : parent_walk t fuel t.current_node_ <;> simp [hp] at h

/-- C5: `reconstruct_end` throws exactly when the visitor is empty or `is_solved()` is
false, which is the case on a fresh engine and right after `setup`; `reconstruct_current`
throws exactly when the visitor is empty or `current_node_` is null, which in a session
means that no expansion took place since `setup`; whenever either throws, the caller
state the visitor acts on is untouched, so the visitor was not invoked. -/
theorem reconstruct_usage_errors {σ : Type} (addr : ptr → Nat) (sp s0 s : gastar C)
    (start end_ : ptr) (fd : t_fn_distance) (fh : t_fn_heuristic) (fn : t_fn_neighbor)
    (fu : Option t_fn_usable) (n fuel : Nat) (v : Option (ptr → σ → σ)) (w : σ)
    (hs : setup addr sp start end_ (some fd) (some fh) (some fn) fu = .ok s0)
    (hn : expand_n addr n s0 = some s) :
    (∀ t : gastar C,
      ((∃ w1 e, reconstruct_end fuel t v w = some (w1, some e)) ↔
        (v = none ∨ is_solved t = false))
      ∧ ((∃ w1 e, reconstruct_current fuel t v w = some (w1, some e)) ↔
        (v = none ∨ t.current_node_ = nullptr))
      ∧ (∀ w1 e, reconstruct_end fuel t v w = some (w1, some e) → w1 = w)
      ∧ (∀ w1 e, reconstruct_current fuel t v w = some (w1, some e) → w1 = w))
    ∧ is_solved (gastar_new C) = false ∧ (gastar_new C).current_node_ = nullptr
    ∧ is_solved s0 = false
    ∧ (s.current_node_ = nullptr ↔ n = 0)
    ∧ ((∃ w1 e, reconstruct_current fuel s v w = some (w1, some e)) ↔ (v = none ∨ n = 0)) := by
  obtain ⟨h1, h2, h3⟩ := setup_eq_ok hs
  subst h3
  have hi := inv_setup_state (C := C) fd fh fn fu h1 h2
  obtain ⟨_, hc, he⟩ := inv_expand_n addr n _ _ hi hn
  have hcur : s.current_node_ = nullptr ↔ n = 0 := by
    constructor
    · intro h0
      rcases Nat.eq_zero_or_pos n with hz | hp
      · exact hz
      · exact absurd h0 (hc hp)
    · intro h0
      rw [he h0]
      rfl
  refine ⟨fun t => ⟨reconstruct_end_throws_iff fuel t v w,
      reconstruct_current_throws_iff fuel t v w,
      fun w1 e => reconstruct_end_throws_state fuel t v w w1 e,
      fun w1 e => reconstruct_current_throws_state fuel t v w w1 e⟩, ?_, rfl, ?_, hcur, ?_⟩
  · simp [is_solved, is_done, gastar_new]
  · simp [is_solved, is_done, setup_state, elems_emplace_empty]
  · rw [reconstruct_current_throws_iff, hcur]

theorem reconstruct_usage_errors_witness :
    (∃ w1 e, reconstruct_end 5 (setup_state rb_set 1 2 unit_distance zero_heuristic
        one_edge_neighbor none) (some record_visit) [] = some (w1, some e))
    ∧ (∃ w1 e, reconstruct_current 5 (setup_state rb_set 1 2 unit_distance zero_heuristic
        one_edge_neighbor none) (some record_visit) [] = some (w1, some e)) := by
  have h := reconstruct_usage_errors demo_addr (gastar_new rb_set)
    (setup_state rb_set 1 2 unit_distance zero_heuristic one_edge_neighbor none)
    (setup_state rb_set 1 2 unit_distance zero_heuristic one_edge_neighbor none) 1 2
    unit_distance zero_heuristic one_edge_neighbor none 0 5 (some record_visit) []
    (setup_ok demo_addr (gastar_new rb_set) 1 2 unit_distance zero_heuristic one_edge_neighbor none
      (by decide) (by decide)) rfl
  obtain ⟨h1, _, _, h2, _, h3⟩ := h
  exact ⟨((h1 _).1).2 (Or.inr h2), h3.2 (Or.inr rfl)⟩


/-! ## Termination of `solve_next(true)` on a finite graph -/

section termination

variable {addr : ptr → Nat} {fd : t_fn_distance} {fh : t_fn_heuristic} {fn : t_fn_neighbor}
  {fu : Option t_fn_usable} {start end_ : ptr}

theorem sum_map_le_of_le (V : List ptr) (f g : ptr → Nat) (h : ∀ k, f k ≤ g k) :
    (V.map f).sum ≤ (V.map g).sum := by
  induction V with
  | nil => simp
  | cons a V ih =>
    simp only [List.map_cons, List.sum_cons]
    exact Nat.add_le_add (h a) ih

theorem sum_map_lt_of_le (V : List ptr) (f g : ptr → Nat) (h : ∀ k, f k ≤ g k) (v : ptr)
    (hv : v ∈ V) (hlt : f v + 1 ≤ g v) : (V.map f).sum + 1 ≤ (V.map g).sum := by
  induction V with
  | nil => cases hv
  | cons a V ih =>
    simp only [List.map_cons, List.sum_cons]
    rcases List.mem_cons.1 hv with e | e
    · subst e
      have := sum_map_le_of_le V f g h
      omega
    · have := ih e
      have := h a
      omega

theorem node_weight_relaxed (addr : ptr → Nat) (s : gastar C) (v : ptr) (g f : Nat) (k : ptr) :
    node_weight (relaxed addr s v g f) k = if k = v then g else node_weight s k := by
  unfold node_weight
  rw [deref_relaxed]
  by_cases h : k = v <;> simp [h]

theorem search_measure_relaxed (addr : ptr → Nat) (V : List ptr) (s : gastar C) (v : ptr)
    (hv : v ∈ V) (hr : relaxes fd fu start end_ s v = true) (f : Nat) :
    search_measure V (relaxed addr s v (tentative_g fd start end_ s v) f)
      ≤ search_measure V s := by
  have hw : tentative_g fd start end_ s v + 1 ≤ node_weight s v := by
    unfold node_weight
    rcases (relaxes_iff.1 hr).2 with h1 | h1
    · simp only [h1, Bool.false_eq_true, if_false]
      exact tentative_g_lt _ _ _ _ _
    · split
      · exact h1
      · exact tentative_g_lt _ _ _ _ _
  have hle : ∀ k, node_weight (relaxed addr s v (tentative_g fd start end_ s v) f) k
      ≤ node_weight s k := by
    intro k
    rw [node_weight_relaxed]
    split
    · rename_i hk; subst hk; omega
    · exact Nat.le_refl _
  have hsum := sum_map_lt_of_le V _ _ hle v hv (by rw [node_weight_relaxed, if_pos rfl]; exact hw)
  have hlen : (C.elems (relaxed addr s v (tentative_g fd start end_ s v) f).open_set_).length
      ≤ (C.elems s.open_set_).length + 1 := length_emplace_le _ _ _
  unfold search_measure
  omega

theorem expand_decreases (addr : ptr → Nat) (V : List ptr) {s : gastar C}
    (h : inv fd fh fn fu start end_ s) (hV : graph_within fn V) (hw : assigned_within V s)
    (ho : C.elems s.open_set_ ≠ []) :
    ∃ s1, expand addr s = some s1 ∧ inv fd fh fn fu start end_ s1 ∧ assigned_within V s1
      ∧ search_measure V s1 + 1 ≤ search_measure V s := by
  cases hos : C.elems s.open_set_ with
  | nil => exact absurd hos ho
  | cons b rest =>
    have hb : b ∈ V := hw b (h.open_assigned b (by rw [hos]; exact List.mem_cons_self _ _))
    obtain ⟨s1, h1, h2, _, _, h5, h6⟩ := expand_induct addr
      (fun _ t => assigned_within V t ∧ search_measure V t + 1 ≤ search_measure V s)
      h b rest hos
      (fun _ _ _ _ _ _ _ _ hP => hP)
      (fun _ v t ht _ _ hv hr hP => by
        have hvV : v ∈ V := hV b hb v hv
        refine ⟨?_, ?_⟩
        · intro k hk
          rw [deref_relaxed] at hk
          by_cases hkv : k = v
          · rw [hkv]; exact hvV
          · rw [if_neg hkv] at hk
            exact hP.1 k hk
        · have := search_measure_relaxed addr V t v hvV hr
            (tentative_f fd fh start end_ t v)
          omega)
      ⟨hw, by
        have e : C.elems (with_current s b).open_set_ = rest := elems_erase_begin_of_cons hos
        show (C.elems (with_current s b).open_set_).length + (V.map (node_weight s)).sum + 1
          ≤ (C.elems s.open_set_).length + (V.map (node_weight s)).sum
        rw [e, hos, List.length_cons]
        omega⟩
    exact ⟨s1, h1, h2, h5, h6⟩

theorem solve_loop_terminates (addr : ptr → Nat) (V : List ptr) (hV : graph_within fn V) :
    ∀ (fuel : Nat) (s : gastar C), inv fd fh fn fu start end_ s → assigned_within V s →
      search_measure V s < fuel →
      ∃ s1, solve_loop addr true fuel s = some s1 ∧ C.elems s1.open_set_ = []
        ∧ inv fd fh fn fu start end_ s1 := by
  intro fuel
  induction fuel with
  | zero => intro s _ _ h; exact absurd h (Nat.not_lt_zero _)
  | succ fuel ih =>
    intro s h hw hm
    by_cases he : C.elems s.open_set_ = []
    · exact ⟨s, by simp [solve_loop, he], he, h⟩
    · obtain ⟨s1, h1, h2, h3, h4⟩ := expand_decreases addr V h hV hw he
      obtain ⟨s2, h5, h6, h7⟩ := ih s1 h2 h3 (by omega)
      refine ⟨s2, ?_, h6, h7⟩
      have he2 : (C.elems s.open_set_).isEmpty = false := by
        cases hs : C.elems s.open_set_ with
        | nil => exact absurd hs he
        | cons _ _ => rfl
      simp [solve_loop, he2, h1, h5]

theorem assigned_within_setup_state (V : List ptr) (start end_ : ptr) (fd : t_fn_distance)
    (fh : t_fn_heuristic) (fn : t_fn_neighbor) (fu : Option t_fn_usable) (hs : start ∈ V) :
    assigned_within V (setup_state C start end_ fd fh fn fu) := by
  intro k hk
  rw [deref_setup_state] at hk
  split_ifs at hk with h1 h2
  all_goals first | exact h1 ▸ hs | simp [zero_node] at hk

theorem assigned_within_expand_n (addr : ptr → Nat) (V : List ptr) (hV : graph_within fn V) :
    ∀ (n : Nat) (s s1 : gastar C), inv fd fh fn fu start end_ s → assigned_within V s →
      expand_n addr n s = some s1 → assigned_within V s1 := by
  intro n
  induction n with
  | zero =>
    intro s s1 _ hw he
    simp [expand_n] at he
    subst he
    exact hw
  | succ n ih =>
    intro s s1 h hw he
    simp only [expand_n] at he
    cases hx : expand addr s with
    | none => simp [hx] at he
    | some s2 =>
      simp only [hx] at he
      have ho : C.elems s.open_set_ ≠ [] := by
        intro ho
        simp [expand, ho] at hx
      obtain ⟨s2', hx', h2, h3, _⟩ := expand_decreases addr V h hV hw ho
      rw [hx] at hx'
      injection hx' with hx'
      subst hx'
      exact ih s2 s1 h2 h3 he

/-! ## Single steps against the continuous loop -/

theorem solve_loop_true_empty (addr : ptr → Nat) :
    ∀ (fuel : Nat) (s s1 : gastar C), solve_loop addr true fuel s = some s1 →
      C.elems s1.open_set_ = [] := by
  intro fuel
  induction fuel with
  | zero => intro s s1 h; simp [solve_loop] at h
  | succ fuel ih =>
    intro s s1 h
    simp only [solve_loop] at h
    cases ho : C.elems s.open_set_ with
    | nil =>
      simp [ho] at h
      subst h
      exact ho
    | cons b rest =>
      simp only [ho, List.isEmpty_cons, Bool.false_eq_true, if_false] at h
      cases hx : expand addr s with
      | none => simp [hx] at h
      | some s2 =>
        simp only [hx, if_true] at h
        exact ih s2 s1 h

theorem solve_loop_fuel_mono (addr : ptr → Nat) (c : Bool) :
    ∀ (fuel : Nat) (s s1 : gastar C), solve_loop addr c fuel s = some s1 →
      ∀ k, solve_loop addr c (fuel + k) s = some s1 := by
  intro fuel
  induction fuel with
  | zero => intro s s1 h; simp [solve_loop] at h
  | succ fuel ih =>
    intro s s1 h k
    have e : fuel + 1 + k = (fuel + k) + 1 := by omega
    rw [e]
    simp only [solve_loop] at h ⊢
    split
    · rename_i he
      simpa [he] using h
    · rename_i he
      simp only [he, if_false] at h
      cases hx : expand addr s with
      | none => simp [hx] at h
      | some s2 =>
        simp only [hx] at h ⊢
        cases c with
        | false => simpa using h
        | true =>
          simp only [if_true] at h ⊢
          exact ih s2 s1 h k

theorem solve_loop_deterministic (addr : ptr → Nat) (c : Bool) (n m : Nat) (s a b : gastar C)
    (ha : solve_loop addr c n s = some a) (hb : solve_loop addr c m s = some b) : a = b := by
  have h1 := solve_loop_fuel_mono addr c n s a ha m
  have h2 := solve_loop_fuel_mono addr c m s b hb n
  rw [Nat.add_comm] at h2
  rw [h1] at h2
  injection h2

theorem drive_of_solve_loop (addr : ptr → Nat) :
    ∀ (n : Nat) (s s1 : gastar C), solve_loop addr true n s = some s1 →
      drive addr n s = some s1 := by
  intro n
  induction n with
  | zero => intro s s1 h; simp [solve_loop] at h
  | succ n ih =>
    intro s s1 h
    simp only [solve_loop] at h
    cases ho : C.elems s.open_set_ with
    | nil =>
      simp [ho] at h
      subst h
      simp [drive, solve_next, solve_loop, ho]
    | cons b rest =>
      simp only [ho, List.isEmpty_cons, Bool.false_eq_true, if_false] at h
      cases hx : expand addr s with
      | none => simp [hx] at h
      | some s2 =>
        simp only [hx, if_true] at h
        simp only [drive, solve_next, solve_loop, ho, List.isEmpty_cons, Bool.false_eq_true,
          if_false, hx, Option.map_some']
        cases he : (C.elems s2.open_set_).isEmpty with
        | true =>
          simp only [if_true]
          cases n with
          | zero => simp [solve_loop] at h
          | succ n =>
            simp [solve_loop, he] at h
            rw [h]
        | false =>
          simp only [Bool.false_eq_true, if_false]
          exact ih s2 s1 h

theorem solve_loop_of_drive (addr : ptr → Nat) :
    ∀ (n : Nat) (s s1 : gastar C), drive addr n s = some s1 →
      solve_loop addr true (n + 1) s = some s1 := by
  intro n
  induction n with
  | zero => intro s s1 h; simp [drive] at h
  | succ n ih =>
    intro s s1 h
    cases ho : C.elems s.open_set_ with
    | nil =>
      simp [drive, solve_next, solve_loop, ho] at h
      subst h
      simp [solve_loop, ho]
    | cons b rest =>
      simp only [drive, solve_next, solve_loop, ho, List.isEmpty_cons, Bool.false_eq_true,
        if_false] at h
      cases hx : expand addr s with
      | none => simp [hx] at h
      | some s2 =>
        simp only [hx, Option.map_some'] at h
        have e : solve_loop addr true (n + 1 + 1) s = solve_loop addr true (n + 1) s2 := by
          simp [solve_loop, ho, hx]
        rw [e]
        cases he : (C.elems s2.open_set_).isEmpty with
        | true =>
          simp only [he, if_true] at h
          injection h with h
          subst h
          simp [solve_loop, he]
        | false =>
          simp only [he, Bool.false_eq_true, if_false] at h
          exact ih s2 s1 h

end termination


theorem assigned_within_after_calls {addr : ptr → Nat} {fd : t_fn_distance}
    {fh : t_fn_heuristic} {fn : t_fn_neighbor} {fu : Option t_fn_usable} {start end_ : ptr}
    {sp s0 s : gastar C} {calls : List (Nat × Bool)} {V : List ptr}
    (hs : setup addr sp start end_ (some fd) (some fh) (some fn) fu = .ok s0)
    (hc : after_calls addr calls s0 = some s) (hstart : start ∈ V)
    (hV : graph_within fn V) : assigned_within V s := by
  obtain ⟨h1, h2, h3⟩ := setup_eq_ok hs
  subst h3
  obtain ⟨n, hn⟩ := after_calls_expands addr calls _ _ hc
  exact assigned_within_expand_n addr V hV n _ _ (inv_setup_state (C := C) fd fh fn fu h1 h2)
    (assigned_within_setup_state V start end_ fd fh fn fu hstart) hn

/-- C3: for every implementation `C` of the frontier container: from every engine of a
session, the loop that calls `solve_next(false)` until it returns true and the single
call `solve_next(true)` leave the same engine whenever one of them returns, hence the same node store (assigned flags, `g_score`, `f_score`, parents)
and the same `reconstruct_end` path; and on a finite graph both return. -/
theorem single_steps_agree_with_continuous (addr : ptr → Nat) (sp s0 s : gastar C)
    (start end_ : ptr) (fd : t_fn_distance) (fh : t_fn_heuristic) (fn : t_fn_neighbor)
    (fu : Option t_fn_usable) (calls : List (Nat × Bool))
    (hs : setup addr sp start end_ (some fd) (some fh) (some fn) fu = .ok s0)
    (hc : after_calls addr calls s0 = some s) :
    (∀ fuel s1 b, solve_next addr fuel true s = some (s1, b) →
      b = true ∧ drive addr fuel s = some s1)
    ∧ (∀ n s1, drive addr n s = some s1 → solve_next addr (n + 1) true s = some (s1, true))
    ∧ (∀ fuel n s1 s2 b, solve_next addr fuel true s = some (s1, b) →
        drive addr n s = some s2 →
        s1 = s2 ∧ ∀ k v, reconstruct_end k s1 (some record_visit) v
          = reconstruct_end k s2 (some record_visit) v)
    ∧ (∀ V : List ptr, start ∈ V → graph_within fn V →
        ∃ s1, (∃ fuel, solve_next addr fuel true s = some (s1, true))
          ∧ (∃ n, drive addr n s = some s1)) := by
  have key : ∀ fuel s1 b, solve_next addr fuel true s = some (s1, b) →
      solve_loop addr true fuel s = some s1 ∧ b = true := by
    intro fuel s1 b hr
    simp only [solve_next, Option.map_eq_some'] at hr
    obtain ⟨a, ha, hr⟩ := hr
    injection hr with h1 h2
    subst h1
    refine ⟨ha, ?_⟩
    rw [← h2, solve_loop_true_empty addr fuel s a ha]
    rfl
  have key2 : ∀ n s1, drive addr n s = some s1 →
      solve_next addr (n + 1) true s = some (s1, true) := by
    intro n s1 hd
    have h1 := solve_loop_of_drive addr n s s1 hd
    have h2 := solve_loop_true_empty addr _ s s1 h1
    simp [solve_next, h1, h2]
  refine ⟨?_, key2, ?_, ?_⟩
  · intro fuel s1 b hr
    obtain ⟨h1, h2⟩ := key fuel s1 b hr
    exact ⟨h2, drive_of_solve_loop addr fuel s s1 h1⟩
  · intro fuel n s1 s2 b hr hd
    obtain ⟨h1, _⟩ := key fuel s1 b hr
    have h2 := solve_loop_of_drive addr n s s2 hd
    have := solve_loop_deterministic addr true _ _ s s1 s2 h1 h2
    subst this
    exact ⟨rfl, fun _ _ => rfl⟩
  · intro V hstart hV
    have hi := inv_after_calls hs hc
    have hw := assigned_within_after_calls hs hc hstart hV
    obtain ⟨s1, h1, h2, _⟩ := solve_loop_terminates addr V hV (search_measure V s + 1) s hi hw
      (Nat.lt_succ_self _)
    exact ⟨s1, ⟨search_measure V s + 1, by simp [solve_next, h1, h2]⟩,
      ⟨search_measure V s + 1, drive_of_solve_loop addr _ s s1 h1⟩⟩

theorem graph_within_one_edge : graph_within one_edge_neighbor [1, 2] := by
  unfold graph_within
  decide

theorem single_steps_agree_with_continuous_witness :
    ∃ s1, (∃ fuel, solve_next demo_addr fuel true (setup_state rb_set 1 2 unit_distance zero_heuristic
        one_edge_neighbor none) = some (s1, true))
      ∧ (∃ n, drive demo_addr n (setup_state rb_set 1 2 unit_distance zero_heuristic
        one_edge_neighbor none) = some s1) :=
  (single_steps_agree_with_continuous demo_addr (gastar_new rb_set)
    (setup_state rb_set 1 2 unit_distance zero_heuristic one_edge_neighbor none)
    (setup_state rb_set 1 2 unit_distance zero_heuristic one_edge_neighbor none) 1 2
    unit_distance zero_heuristic one_edge_neighbor none []
    (setup_ok demo_addr (gastar_new rb_set) 1 2 unit_distance zero_heuristic one_edge_neighbor none
      (by decide) (by decide)) rfl).2.2.2 [1, 2] (by decide) graph_within_one_edge

/-! ## Sessions whose sums do not wrap -/

section cost_lemmas

variable {addr : ptr → Nat} {fd : t_fn_distance} {fh : t_fn_heuristic} {fn : t_fn_neighbor}
  {fu : Option t_fn_usable} {start end_ : ptr} {s : gastar C}

theorem simple_walk.to_walk {E : ptr → ptr → Prop} {d : ptr → ptr → Nat} {start : ptr}
    {p : List ptr} {k : ptr} {c : Nat} (h : simple_walk E d start p k c) :
    walk E d start k c := by
  induction h with
  | nil => exact walk.nil
  | snoc _ he _ ih => exact walk.snoc ih he

theorem good_walk.to_simple {E : ptr → ptr → Prop} {d : ptr → ptr → Nat} {start : ptr}
    {s : gastar C} {p : List ptr} {k : ptr} {c : Nat} (h : good_walk E d start s p k c) :
    simple_walk E d start p k c := by
  induction h with
  | nil => exact simple_walk.nil
  | snoc _ he hn _ _ ih => exact simple_walk.snoc ih he hn

theorem good_walk.head_mem {E : ptr → ptr → Prop} {d : ptr → ptr → Nat} {start : ptr}
    {s : gastar C} {p : List ptr} {k : ptr} {c : Nat} (h : good_walk E d start s p k c) :
    k ∈ p := by
  cases h with
  | nil => exact List.mem_cons_self _ _
  | snoc _ _ _ _ _ => exact List.mem_cons_self _ _

theorem good_walk.mem_le {E : ptr → ptr → Prop} {d : ptr → ptr → Nat} {start : ptr}
    {s : gastar C} {p : List ptr} {k : ptr} {c : Nat} (h : good_walk E d start s p k c)
    (hsa : (deref s start).assigned = true) (hsv : (deref s start).value = 0) :
    ∀ w, w ∈ p → (deref s w).assigned = true ∧ (deref s w).value ≤ c := by
  induction h with
  | nil =>
    intro w hw
    have : w = start := by simpa using hw
    subst this
    exact ⟨hsa, by omega⟩
  | snoc _ _ _ ha hv ih =>
    intro w hw
    rcases List.mem_cons.1 hw with e | e
    · subst e
      exact ⟨ha, hv⟩
    · obtain ⟨h1, h2⟩ := ih w e
      exact ⟨h1, by omega⟩

theorem good_walk.mono {E : ptr → ptr → Prop} {d : ptr → ptr → Nat} {start : ptr}
    {s t : gastar C} {p : List ptr} {k : ptr} {c : Nat} (h : good_walk E d start s p k c)
    (hst : ∀ w, (deref s w).assigned = true →
      (deref t w).assigned = true ∧ (deref t w).value ≤ (deref s w).value) :
    good_walk E d start t p k c := by
  induction h with
  | nil => exact good_walk.nil
  | snoc _ he hn ha hv ih =>
    obtain ⟨h1, h2⟩ := hst _ ha
    exact good_walk.snoc ih he hn h1 (by omega)

theorem cost_inv_setup_state (E : ptr → ptr → Prop) (d : ptr → ptr → Nat) (start end_ : ptr)
    (fd : t_fn_distance) (fh : t_fn_heuristic) (fn : t_fn_neighbor)
    (fu : Option t_fn_usable) :
    cost_inv E d start (setup_state C start end_ fd fh fn fu) := by
  constructor
  · intro k hk
    rw [deref_setup_state] at hk ⊢
    split_ifs at hk ⊢ with h1 h2
    all_goals first | exact ⟨[start], h1 ▸ good_walk.nil⟩ | simp [zero_node] at hk
  · intro k hk
    rw [deref_setup_state] at hk
    split_ifs at hk <;> simp [zero_node, nullptr] at hk

theorem settled_inv_setup_state (E : ptr → ptr → Prop) (d : ptr → ptr → Nat)
    (start end_ : ptr) (fd : t_fn_distance) (fh : t_fn_heuristic) (fn : t_fn_neighbor)
    (fu : Option t_fn_usable) :
    settled_inv E d nullptr [] (setup_state C start end_ fd fh fn fu) := by
  intro k hk ho
  rw [deref_setup_state] at hk
  split_ifs at hk with h1 h2
  all_goals first
    | (simp [zero_node] at hk; done)
    | exact absurd (by
        show k ∈ C.elems (C.emplace (fun _ _ => false) start C.empty)
        rw [elems_emplace_empty, h1]
        exact List.mem_cons_self _ _) ho

/-- Without wrap-around the sum `new_g_score` is the exact sum. -/
theorem tentative_g_eq
    (hc : cost_inv (edge fn fu start end_) (edge_cost fd start end_) start s)
    (hnw : no_wrap (edge fn fu start end_) (edge_cost fd start end_) start)
    (hcur : (deref s s.current_node_).assigned = true) {v : ptr}
    (he : edge fn fu start end_ s.current_node_ v) :
    tentative_g fd start end_ s v
      = (deref s s.current_node_).value + fd s.current_node_ v start end_ := by
  obtain ⟨p, hp⟩ := hc.has_walk _ hcur
  have := hnw p _ _ v hp.to_simple he
  unfold tentative_g
  exact Nat.mod_eq_of_lt this

theorem cost_inv_relaxed (addr : ptr → Nat) (h : inv fd fh fn fu start end_ s)
    (hc : cost_inv (edge fn fu start end_) (edge_cost fd start end_) start s)
    (hnw : no_wrap (edge fn fu start end_) (edge_cost fd start end_) start)
    (hcur : (deref s s.current_node_).assigned = true) {v : ptr}
    (hv : v ∈ neighbors_of fn s.current_node_)
    (hr : relaxes fd fu start end_ s v = true) (f : Nat) :
    cost_inv (edge fn fu start end_) (edge_cost fd start end_) start
        (relaxed addr s v (tentative_g fd start end_ s v) f)
      ∧ s.current_node_ ≠ v
      ∧ (∀ w, (deref s w).assigned = true →
          (deref (relaxed addr s v (tentative_g fd start end_ s v) f) w).assigned = true
          ∧ (deref (relaxed addr s v (tentative_g fd start end_ s v) f) w).value
              ≤ (deref s w).value) := by
  obtain ⟨hu, hcond⟩ := relaxes_iff.1 hr
  have he : edge fn fu start end_ s.current_node_ v := ⟨hv, hu⟩
  have htg := tentative_g_eq hc hnw hcur he
  obtain ⟨p, hp⟩ := hc.has_walk _ hcur
  have hvp : v ∉ p := by
    intro hm
    obtain ⟨h1, h2⟩ := hp.mem_le h.start_assigned h.start_value v hm
    rcases hcond with h3 | h3
    · rw [h1] at h3; cases h3
    · omega
  have hcv : s.current_node_ ≠ v := fun e => hvp (e ▸ hp.head_mem)
  have hmono : ∀ w, (deref s w).assigned = true →
      (deref (relaxed addr s v (tentative_g fd start end_ s v) f) w).assigned = true
      ∧ (deref (relaxed addr s v (tentative_g fd start end_ s v) f) w).value
          ≤ (deref s w).value := by
    intro w hw
    rw [deref_relaxed]
    by_cases hwv : w = v
    · subst hwv
      rw [if_pos rfl]
      refine ⟨rfl, ?_⟩
      rcases hcond with h3 | h3
      · rw [hw] at h3; cases h3
      · exact Nat.le_of_lt h3
    · rw [if_neg hwv]
      exact ⟨hw, Nat.le_refl _⟩
  refine ⟨⟨?_, ?_⟩, hcv, hmono⟩
  · intro k hk
    by_cases hkv : k = v
    · subst hkv
      refine ⟨k :: p, ?_⟩
      have hval : (deref (relaxed addr s k (tentative_g fd start end_ s k) f) k).value
          = (deref s s.current_node_).value + edge_cost fd start end_ s.current_node_ k := by
        rw [deref_relaxed, if_pos rfl]
        exact htg
      rw [hval]
      exact good_walk.snoc (hp.mono hmono) he hvp hk (by rw [hval])
    · have hk2 : (deref s k).assigned = true := by
        rw [deref_relaxed, if_neg hkv] at hk
        exact hk
      obtain ⟨q, hq⟩ := hc.has_walk k hk2
      refine ⟨q, ?_⟩
      rw [deref_relaxed, if_neg hkv]
      exact hq.mono hmono
  · intro k hk
    by_cases hkv : k = v
    · subst hkv
      have e1 : (deref (relaxed addr s k (tentative_g fd start end_ s k) f) k).parent
          = s.current_node_ := by
        rw [deref_relaxed, if_pos rfl]
      have e2 : (deref (relaxed addr s k (tentative_g fd start end_ s k) f) k).value
          = tentative_g fd start end_ s k := by
        rw [deref_relaxed, if_pos rfl]
      rw [e1, e2, deref_relaxed, if_neg hcv, htg]
      exact Nat.le_refl _
    · have e1 : deref (relaxed addr s v (tentative_g fd start end_ s v) f) k = deref s k := by
        rw [deref_relaxed, if_neg hkv]
      rw [e1] at hk ⊢
      have h1 := hc.parent_cost k hk
      have h2 := (hmono _ (h.parent_edge k hk).2.1).2
      omega

end cost_lemmas


section settled_lemmas

variable {addr : ptr → Nat} {fd : t_fn_distance} {fh : t_fn_heuristic} {fn : t_fn_neighbor}
  {fu : Option t_fn_usable} {start end_ : ptr} {s : gastar C}

theorem mem_open_relaxed (haddr : Function.Injective addr)
    (h : inv fd fh fn fu start end_ s) {v : ptr} {g f : Nat}
    (h2 : inv fd fh fn fu start end_ (relaxed addr s v g f)) :
    v ∈ C.elems (relaxed addr s v g f).open_set_ := by
  show v ∈ C.elems (C.emplace (open_set_less addr (relaxed addr s v g f)) v s.open_set_)
  apply mem_emplace_self
  intro y hy h1 h3
  have hya : (deref (relaxed addr s v g f) y).assigned = true := by
    rw [deref_relaxed]
    split
    · rfl
    · exact h.open_assigned y hy
  have hva : (deref (relaxed addr s v g f) v).assigned = true := by
    rw [deref_relaxed, if_pos rfl]
  exact open_set_less_equiv haddr (h2.obj_of_assigned hva) (h2.obj_of_assigned hya) h1 h3

theorem settled_inv_keep
    (hc : cost_inv (edge fn fu start end_) (edge_cost fd start end_) start s)
    (hnw : no_wrap (edge fn fu start end_) (edge_cost fd start end_) start)
    (hcur : (deref s s.current_node_).assigned = true) {v : ptr} {done_ : List ptr}
    (hr : relaxes fd fu start end_ s v = false)
    (hs : settled_inv (edge fn fu start end_) (edge_cost fd start end_) s.current_node_ done_ s) :
    settled_inv (edge fn fu start end_) (edge_cost fd start end_) s.current_node_
      (done_ ++ [v]) s := by
  intro k hk ho w he hd
  by_cases hkb : k = s.current_node_
  · rcases List.mem_append.1 (hd hkb) with hw | hw
    · exact hs k hk ho w he (fun _ => hw)
    · have hwv : w = v := by simpa using hw
      subst hwv
      subst hkb
      have htg := tentative_g_eq hc hnw hcur he
      have hu : usable fu start end_ s.current_node_ w = true := he.2
      have hr2 : ¬ (relaxes fd fu start end_ s w = true) := by simp [hr]
      rw [relaxes_iff] at hr2
      have h3 : ¬ ((deref s w).assigned = false ∨
          tentative_g fd start end_ s w < (deref s w).value) := fun h4 => hr2 ⟨hu, h4⟩
      have h5 : (deref s w).assigned = true := by
        cases h6 : (deref s w).assigned with
        | false => exact absurd (Or.inl h6) h3
        | true => rfl
      refine ⟨h5, ?_⟩
      have h7 : ¬ tentative_g fd start end_ s w < (deref s w).value := fun h8 => h3 (Or.inr h8)
      unfold edge_cost
      omega
  · exact hs k hk ho w he (fun e => absurd e hkb)

theorem settled_inv_relaxed (haddr : Function.Injective addr)
    (h : inv fd fh fn fu start end_ s)
    (hc : cost_inv (edge fn fu start end_) (edge_cost fd start end_) start s)
    (hnw : no_wrap (edge fn fu start end_) (edge_cost fd start end_) start)
    (hcur : (deref s s.current_node_).assigned = true) {v : ptr} {done_ : List ptr}
    (hv : v ∈ neighbors_of fn s.current_node_)
    (hr : relaxes fd fu start end_ s v = true)
    (hs : settled_inv (edge fn fu start end_) (edge_cost fd start end_) s.current_node_ done_ s) :
    settled_inv (edge fn fu start end_) (edge_cost fd start end_) s.current_node_
      (done_ ++ [v])
      (relaxed addr s v (tentative_g fd start end_ s v) (tentative_f fd fh start end_ s v)) := by
  obtain ⟨hu, _⟩ := relaxes_iff.1 hr
  have he0 : edge fn fu start end_ s.current_node_ v := ⟨hv, hu⟩
  have htg := tentative_g_eq hc hnw hcur he0
  obtain ⟨_, hcv, hmono⟩ := cost_inv_relaxed addr h hc hnw hcur hv hr
    (tentative_f fd fh start end_ s v)
  have h2 := inv_relaxed addr h hcur hv hu (h.ne_start_of_relaxes hr)
    (tentative_g_lt fd start end_ s v) (tentative_f fd fh start end_ s v)
  have hvo := mem_open_relaxed haddr h h2
  intro k hk ho w he hd
  have hkv : k ≠ v := fun e => ho (e ▸ hvo)
  have hk2 : (deref s k).assigned = true := by
    rw [deref_relaxed, if_neg hkv] at hk
    exact hk
  have ho2 : k ∉ C.elems s.open_set_ := fun hm => ho (mem_emplace_of_mem _ _ _ _ hm)
  have hkval : (deref (relaxed addr s v (tentative_g fd start end_ s v)
      (tentative_f fd fh start end_ s v)) k).value = (deref s k).value := by
    rw [deref_relaxed, if_neg hkv]
  have hold : settled_edge (edge_cost fd start end_) s k w →
      settled_edge (edge_cost fd start end_) (relaxed addr s v (tentative_g fd start end_ s v)
        (tentative_f fd fh start end_ s v)) k w := by
    rintro ⟨h3, h4⟩
    obtain ⟨h5, h6⟩ := hmono w h3
    refine ⟨h5, ?_⟩
    rw [hkval]
    omega
  by_cases hkb : k = s.current_node_
  · rcases List.mem_append.1 (hd hkb) with hw | hw
    · exact hold (hs k hk2 ho2 w he (fun _ => hw))
    · have hwv : w = v := by simpa using hw
      subst hwv
      subst hkb
      refine ⟨by rw [deref_relaxed, if_pos rfl], ?_⟩
      rw [hkval, deref_relaxed, if_pos rfl]
      show tentative_g fd start end_ s w ≤ _
      rw [htg]
      exact Nat.le_refl _
  · exact hold (hs k hk2 ho2 w he (fun e => absurd e hkb))

theorem cost_inv_congr {E : ptr → ptr → Prop} {d : ptr → ptr → Nat} {start : ptr}
    {s t : gastar C} (hst : ∀ k, deref t k = deref s k) (hc : cost_inv E d start s) :
    cost_inv E d start t := by
  constructor
  · intro k hk
    rw [hst] at hk ⊢
    obtain ⟨p, hp⟩ := hc.has_walk k hk
    exact ⟨p, hp.mono (fun w hw => by rw [hst]; exact ⟨hw, Nat.le_refl _⟩)⟩
  · intro k hk
    rw [hst] at hk ⊢
    rw [hst]
    exact hc.parent_cost k hk

/-- One expansion keeps the invariants of a session without wrap-around. -/
theorem cost_inv_expand (haddr : Function.Injective addr)
    (h : inv fd fh fn fu start end_ s)
    (hc : cost_inv (edge fn fu start end_) (edge_cost fd start end_) start s)
    (hs : settled_inv (edge fn fu start end_) (edge_cost fd start end_) nullptr [] s)
    (hnw : no_wrap (edge fn fu start end_) (edge_cost fd start end_) start)
    (ho : C.elems s.open_set_ ≠ []) :
    ∃ s1, expand addr s = some s1 ∧ inv fd fh fn fu start end_ s1
      ∧ cost_inv (edge fn fu start end_) (edge_cost fd start end_) start s1
      ∧ settled_inv (edge fn fu start end_) (edge_cost fd start end_) nullptr [] s1 := by
  cases hos : C.elems s.open_set_ with
  | nil => exact absurd hos ho
  | cons b rest =>
    obtain ⟨s1, h1, h2, _, _, h5, h6⟩ := expand_induct addr
      (fun done_ t => cost_inv (edge fn fu start end_) (edge_cost fd start end_) start t
        ∧ settled_inv (edge fn fu start end_) (edge_cost fd start end_) b done_ t)
      h b rest hos
      (fun done_ v t _ htc hta _ hr hP => by
        subst htc
        exact ⟨hP.1, settled_inv_keep hP.1 hnw hta hr hP.2⟩)
      (fun done_ v t ht htc hta hv hr hP => by
        subst htc
        exact ⟨(cost_inv_relaxed addr ht hP.1 hnw hta hv hr _).1,
          settled_inv_relaxed haddr ht hP.1 hnw hta hv hr hP.2⟩)
      ⟨cost_inv_congr (s := s) (fun _ => rfl) hc, by
        intro k hk hko w he hd
        have hkb : k ≠ b := fun e => by
          have := hd e
          simp at this
        have hko2 : k ∉ C.elems s.open_set_ := by
          rw [hos]
          intro hm
          rcases List.mem_cons.1 hm with e | e
          · exact hkb e
          · exact hko (by
              have e2 : C.elems (with_current s b).open_set_ = rest :=
                elems_erase_begin_of_cons hos
              rw [e2]; exact e)
        exact hs k hk hko2 w he (fun e => absurd e (h.ne_null_of_assigned hk))⟩
    refine ⟨s1, h1, h2, h5, ?_⟩
    intro k hk hko w he _
    exact h6 k hk hko w he (fun e => e ▸ he.1)

theorem cost_inv_expand_n (haddr : Function.Injective addr)
    (hnw : no_wrap (edge fn fu start end_) (edge_cost fd start end_) start) :
    ∀ (n : Nat) (s s1 : gastar C), inv fd fh fn fu start end_ s →
      cost_inv (edge fn fu start end_) (edge_cost fd start end_) start s →
      settled_inv (edge fn fu start end_) (edge_cost fd start end_) nullptr [] s →
      expand_n addr n s = some s1 →
      cost_inv (edge fn fu start end_) (edge_cost fd start end_) start s1
        ∧ settled_inv (edge fn fu start end_) (edge_cost fd start end_) nullptr [] s1 := by
  intro n
  induction n with
  | zero =>
    intro s s1 _ hc hs he
    simp [expand_n] at he
    subst he
    exact ⟨hc, hs⟩
  | succ n ih =>
    intro s s1 h hc hs he
    simp only [expand_n] at he
    cases hx : expand addr s with
    | none => simp [hx] at he
    | some s2 =>
      simp only [hx] at he
      have ho : C.elems s.open_set_ ≠ [] := by
        intro ho
        simp [expand, ho] at hx
      obtain ⟨s2', hx', h2, h3, h4⟩ := cost_inv_expand haddr h hc hs hnw ho
      rw [hx] at hx'
      injection hx' with hx'
      subst hx'
      exact ih s2 s1 h2 h3 h4 he

theorem cost_inv_after_calls {sp s0 : gastar C} {calls : List (Nat × Bool)}
    (haddr : Function.Injective addr)
    (hnw : no_wrap (edge fn fu start end_) (edge_cost fd start end_) start)
    (hs : setup addr sp start end_ (some fd) (some fh) (some fn) fu = .ok s0)
    (hc : after_calls addr calls s0 = some s) :
    cost_inv (edge fn fu start end_) (edge_cost fd start end_) start s
      ∧ settled_inv (edge fn fu start end_) (edge_cost fd start end_) nullptr [] s := by
  obtain ⟨h1, h2, h3⟩ := setup_eq_ok hs
  subst h3
  obtain ⟨n, hn⟩ := after_calls_expands addr calls _ _ hc
  exact cost_inv_expand_n haddr hnw n _ _ (inv_setup_state (C := C) fd fh fn fu h1 h2)
    (cost_inv_setup_state _ _ start end_ fd fh fn fu)
    (settled_inv_setup_state _ _ start end_ fd fh fn fu) hn

end settled_lemmas


section path_lemmas

variable {addr : ptr → Nat} {fd : t_fn_distance} {fh : t_fn_heuristic} {fn : t_fn_neighbor}
  {fu : Option t_fn_usable} {start end_ : ptr} {s : gastar C}

theorem cost_only_expand_n
    (hnw : no_wrap (edge fn fu start end_) (edge_cost fd start end_) start) :
    ∀ (n : Nat) (s s1 : gastar C), inv fd fh fn fu start end_ s →
      cost_inv (edge fn fu start end_) (edge_cost fd start end_) start s →
      expand_n addr n s = some s1 →
      cost_inv (edge fn fu start end_) (edge_cost fd start end_) start s1 := by
  intro n
  induction n with
  | zero =>
    intro s s1 _ hc he
    simp [expand_n] at he
    subst he
    exact hc
  | succ n ih =>
    intro s s1 h hc he
    simp only [expand_n] at he
    cases hx : expand addr s with
    | none => simp [hx] at he
    | some s2 =>
      simp only [hx] at he
      cases hos : C.elems s.open_set_ with
      | nil => simp [expand, hos] at hx
      | cons b rest =>
        obtain ⟨s2', hx', h2, _, _, h5⟩ := expand_induct addr
          (fun _ t => cost_inv (edge fn fu start end_) (edge_cost fd start end_) start t)
          h b rest hos
          (fun _ _ _ _ _ _ _ _ hP => hP)
          (fun _ v t ht htc hta hv hr hP => by
            subst htc
            exact (cost_inv_relaxed addr ht hP hnw hta hv hr _).1)
          (cost_inv_congr (s := s) (fun _ => rfl) hc)
        rw [hx] at hx'
        injection hx' with hx'
        subst hx'
        exact ih s2 s1 h2 h5 he

theorem cost_only_after_calls {sp s0 : gastar C} {calls : List (Nat × Bool)}
    (hnw : no_wrap (edge fn fu start end_) (edge_cost fd start end_) start)
    (hs : setup addr sp start end_ (some fd) (some fh) (some fn) fu = .ok s0)
    (hc : after_calls addr calls s0 = some s) :
    cost_inv (edge fn fu start end_) (edge_cost fd start end_) start s := by
  obtain ⟨h1, h2, h3⟩ := setup_eq_ok hs
  subst h3
  obtain ⟨n, hn⟩ := after_calls_expands addr calls _ _ hc
  exact cost_only_expand_n hnw n _ _ (inv_setup_state (C := C) fd fh fn fu h1 h2)
    (cost_inv_setup_state _ _ start end_ fd fh fn fu) hn

theorem foldl_record_visit (l acc : List ptr) :
    l.foldl (fun acc p => record_visit p acc) acc = acc ++ l := by
  induction l generalizing acc with
  | nil => simp
  | cons a l ih =>
    rw [List.foldl_cons, ih]
    simp [record_visit]

theorem parent_walk_fuel_mono (s : gastar C) :
    ∀ (fuel : Nat) (k : ptr) (l : List ptr), parent_walk s fuel k = some l →
      ∀ m, parent_walk s (fuel + m) k = some l := by
  intro fuel
  induction fuel with
  | zero => intro k l h; simp [parent_walk] at h
  | succ fuel ih =>
    intro k l h m
    have e : fuel + 1 + m = (fuel + m) + 1 := by omega
    rw [e]
    simp only [parent_walk] at h ⊢
    split
    · rename_i hk
      simpa [hk] using h
    · rename_i hk
      simp only [hk, if_false, Option.map_eq_some'] at h
      obtain ⟨l2, h1, h2⟩ := h
      rw [ih _ _ h1 m]
      simpa using h2

/-- The parent walk from an assigned node of a session with positive distances and no
wrap-around: it returns, ends at the start node, and `g_score` decreases along it. -/
theorem parent_walk_spec (h : inv fd fh fn fu start end_ s)
    (hc : cost_inv (edge fn fu start end_) (edge_cost fd start end_) start s)
    (hpos : ∀ u v, edge fn fu start end_ u v → 0 < fd u v start end_) :
    ∀ (n : Nat) (k : ptr), (deref s k).assigned = true → (deref s k).value < n →
      ∃ l, parent_walk s (n + 1) k = some (k :: l)
        ∧ (k :: l).getLast? = some start
        ∧ (∀ x, x ∈ k :: l → (deref s x).assigned = true)
        ∧ (k :: l).Chain' (fun a b => (deref s b).value < (deref s a).value) := by
  intro n
  induction n with
  | zero => intro k _ hv; exact absurd hv (Nat.not_lt_zero _)
  | succ n ih =>
    intro k hk hv
    have hkn : k ≠ nullptr := h.ne_null_of_assigned hk
    have hko : (deref s k).obj = k := h.obj_of_assigned hk
    by_cases hp : (deref s k).parent = nullptr
    · refine ⟨[], ?_, ?_, ?_, ?_⟩
      · simp [parent_walk, hkn, hp, hko]
      · simp [h.root k hk hp]
      · intro x hx
        have : x = k := by simpa using hx
        rw [this]; exact hk
      · simp
    · obtain ⟨_, hqa, hqe⟩ := h.parent_edge k hp
      have hpc := hc.parent_cost k hp
      have hd := hpos _ _ hqe
      unfold edge_cost at hpc
      obtain ⟨l, h1, h2, h3, h4⟩ := ih (deref s k).parent hqa (by omega)
      refine ⟨(deref s k).parent :: l, ?_, ?_, ?_, ?_⟩
      · have : parent_walk s (n + 1 + 1) k
            = (parent_walk s (n + 1) (deref s k).parent).map (fun l => (deref s k).obj :: l) := by
          rw [parent_walk.eq_def]
          simp [hkn]
        rw [this, h1, hko]
        rfl
      · rw [List.getLast?_cons_cons]
        exact h2
      · intro x hx
        rcases List.mem_cons.1 hx with e | e
        · rw [e]; exact hk
        · exact h3 x e
      · exact List.Chain'.cons (by omega) h4

end path_lemmas


/-! ## Claims on the result of the search -/

theorem is_solved_iff (s : gastar C) :
    is_solved s = true ↔
      s.end_node_ ≠ nullptr ∧ C.elems s.open_set_ = [] ∧ (deref s s.end_node_).parent ≠ nullptr := by
  unfold is_solved is_done
  simp only [Bool.and_eq_true, decide_eq_true_eq, List.isEmpty_iff]
  constructor
  · rintro ⟨⟨h1, h2⟩, h3⟩
    exact ⟨fun e => h1 e.symm, h2, fun e => h3 e.symm⟩
  · rintro ⟨h1, h2, h3⟩
    exact ⟨⟨fun e => h1 e.symm, h2⟩, fun e => h3 e.symm⟩

/-- C2 (amended): for every implementation `C` of the frontier container: in a session
whose distances are positive and whose sums do not wrap around, whenever `is_solved()` is true `reconstruct_end` returns, the identities it hands
to the visitor start with the end identity and end with the start identity, the start node
is the only visited node without parent, and `g_score` strictly decreases along the
sequence. -/
theorem reconstruct_end_path (addr : ptr → Nat) (sp s0 s : gastar C) (start end_ : ptr)
    (fd : t_fn_distance) (fh : t_fn_heuristic) (fn : t_fn_neighbor) (fu : Option t_fn_usable)
    (calls : List (Nat × Bool))
    (hnw : no_wrap (edge fn fu start end_) (edge_cost fd start end_) start)
    (hpos : ∀ u v, edge fn fu start end_ u v → 0 < fd u v start end_)
    (hs : setup addr sp start end_ (some fd) (some fh) (some fn) fu = .ok s0)
    (hc : after_calls addr calls s0 = some s)
    (hsol : is_solved s = true) :
    ∃ fuel0 path,
      (∀ fuel, fuel0 ≤ fuel →
        reconstruct_end fuel s (some record_visit) [] = some (path, none))
      ∧ path.head? = some end_
      ∧ path.getLast? = some start
      ∧ (∀ x, x ∈ path → ((deref s x).parent = nullptr ↔ x = start))
      ∧ path.Chain' (fun a b => (deref s b).value < (deref s a).value) := by
  have hi := inv_after_calls hs hc
  have hci := cost_only_after_calls hnw hs hc
  obtain ⟨_, _, hp⟩ := (is_solved_iff s).1 hsol
  rw [hi.h_end] at hp
  have hea := (hi.parent_edge end_ hp).1
  obtain ⟨l, h1, h2, h3, h4⟩ := parent_walk_spec hi hci hpos ((deref s end_).value + 1) end_ hea
    (Nat.lt_succ_self _)
  refine ⟨(deref s end_).value + 1 + 1, end_ :: l, ?_, rfl, h2, ?_, h4⟩
  · intro fuel hf
    obtain ⟨m, rfl⟩ := Nat.exists_eq_add_of_le hf
    have := parent_walk_fuel_mono s _ _ _ h1 m
    simp only [reconstruct_end, hsol, Bool.not_true, Bool.false_eq_true, if_false, hi.h_end,
      this, Option.map_some', foldl_record_visit, List.nil_append]
  · intro x hx
    constructor
    · exact hi.root x (h3 x hx)
    · intro e
      rw [e]
      exact hi.start_parent

theorem neighbors_one_edge (u : ptr) :
    neighbors_of one_edge_neighbor u = if u = 1 then [2] else [] := by
  unfold neighbors_of one_edge_neighbor
  split <;> simp [nullptr]

theorem simple_walk_one_edge {p : List ptr} {u : ptr} {c : Nat}
    (h : simple_walk (edge one_edge_neighbor none 1 2) (edge_cost unit_distance 1 2) 1 p u c) :
    (u = 1 ∧ c = 0) ∨ (u = 2 ∧ c = 1) := by
  induction h with
  | nil => exact Or.inl ⟨rfl, rfl⟩
  | @snoc q a b k _ he _ ih =>
    have hm : b ∈ neighbors_of one_edge_neighbor a := he.1
    rw [neighbors_one_edge] at hm
    rcases ih with ⟨e1, e2⟩ | ⟨e1, _⟩
    · subst e1 e2
      have hb : b = 2 := by simpa using hm
      exact Or.inr ⟨hb, rfl⟩
    · subst e1
      simp at hm

theorem no_wrap_one_edge :
    no_wrap (edge one_edge_neighbor none 1 2) (edge_cost unit_distance 1 2) 1 := by
  intro p u c v hp _
  have : c ≤ 1 := by
    rcases simple_walk_one_edge hp with ⟨_, e⟩ | ⟨_, e⟩ <;> omega
  show c + 1 < 4294967296
  omega

theorem reconstruct_end_path_witness :
    ∃ s fuel0 path,
      after_calls demo_addr [(5, true)]
        (setup_state rb_set 1 2 unit_distance zero_heuristic one_edge_neighbor none) = some s
      ∧ (∀ fuel, fuel0 ≤ fuel →
        reconstruct_end fuel s (some record_visit) [] = some (path, none))
      ∧ path.head? = some 2 ∧ path.getLast? = some 1 := by
  cases hc : after_calls demo_addr [(5, true)]
      (setup_state rb_set 1 2 unit_distance zero_heuristic one_edge_neighbor none) with
  | none =>
    have : (after_calls demo_addr [(5, true)]
      (setup_state rb_set 1 2 unit_distance zero_heuristic one_edge_neighbor none)).isSome = true := by
      decide
    rw [hc] at this
    cases this
  | some s =>
    have hsol : is_solved s = true := by
      have : (after_calls demo_addr [(5, true)]
          (setup_state rb_set 1 2 unit_distance zero_heuristic one_edge_neighbor none)).map is_solved
          = some true := by decide
      rw [hc] at this
      simpa using this
    obtain ⟨fuel0, path, h1, h2, h3, _⟩ := reconstruct_end_path demo_addr (gastar_new rb_set)
      (setup_state rb_set 1 2 unit_distance zero_heuristic one_edge_neighbor none) s 1 2
      unit_distance zero_heuristic one_edge_neighbor none [(5, true)] no_wrap_one_edge
      (fun _ _ _ => Nat.one_pos)
      (setup_ok demo_addr (gastar_new rb_set) 1 2 unit_distance zero_heuristic one_edge_neighbor none
        (by decide) (by decide)) hc hsol
    exact ⟨s, fuel0, path, rfl, h1, h2, h3⟩

/-- C2 (as stated) fails: on the single edge `1 → 2` at distance `0`, after `setup` and
`solve_next(true)` the engine is solved, `reconstruct_end` visits `2, 1`, and both nodes
have `g_score` `0`. -/
theorem reconstruct_end_path_not_decreasing :
    zero_session.map is_solved = some true
    ∧ zero_session.map (fun s => reconstruct_end 5 s (some record_visit) [])
        = some (some ([2, 1], none))
    ∧ zero_session.map (fun s => ((deref s 2).value, (deref s 1).value)) = some (0, 0) := by
  decide


theorem walk_lower_bound {fd : t_fn_distance} {fh : t_fn_heuristic} {fn : t_fn_neighbor}
    {fu : Option t_fn_usable} {start end_ : ptr} {s : gastar C}
    (h : inv fd fh fn fu start end_ s)
    (hs : settled_inv (edge fn fu start end_) (edge_cost fd start end_) nullptr [] s)
    (ho : C.elems s.open_set_ = []) {v : ptr} {c : Nat}
    (hw : walk (edge fn fu start end_) (edge_cost fd start end_) start v c) :
    (deref s v).assigned = true ∧ (deref s v).value ≤ c := by
  induction hw with
  | nil => exact ⟨h.start_assigned, by rw [h.start_value]⟩
  | @snoc u v c _ he ih =>
    obtain ⟨h1, h2⟩ := ih
    obtain ⟨h3, h4⟩ := hs u h1 (by rw [ho]; exact List.not_mem_nil _) v he
      (fun e => absurd e (h.ne_null_of_assigned h1))
    exact ⟨h3, by omega⟩

/-- C1 (amended): for every implementation `C` of the frontier container: on a finite
graph, whatever the heuristic, when no sum of the search wraps around `UINT_MOD`, `setup` followed by `solve_next(true)` returns, and in every
engine of the session in which `is_solved()` is true the `g_score` of the end node is the
cost of a path from start to end along usable edges and is not above the cost of any such
path. -/
theorem solved_cost_is_minimal (addr : ptr → Nat) (sp s0 : gastar C) (start end_ : ptr)
    (fd : t_fn_distance) (fh : t_fn_heuristic) (fn : t_fn_neighbor) (fu : Option t_fn_usable)
    (V : List ptr)
    (haddr : Function.Injective addr)
    (hnw : no_wrap (edge fn fu start end_) (edge_cost fd start end_) start)
    (hstart : start ∈ V) (hV : graph_within fn V)
    (hs : setup addr sp start end_ (some fd) (some fh) (some fn) fu = .ok s0) :
    (∃ fuel s1, solve_next addr fuel true s0 = some (s1, true))
    ∧ ∀ calls s, after_calls addr calls s0 = some s → is_solved s = true →
        walk (edge fn fu start end_) (edge_cost fd start end_) start end_
          (deref s s.end_node_).value
        ∧ ∀ c, walk (edge fn fu start end_) (edge_cost fd start end_) start end_ c →
          (deref s s.end_node_).value ≤ c := by
  constructor
  · have h0 : after_calls addr [] s0 = some s0 := rfl
    have hi := inv_after_calls hs h0
    have hw := assigned_within_after_calls hs h0 hstart hV
    obtain ⟨s1, h1, h2, _⟩ := solve_loop_terminates addr V hV (search_measure V s0 + 1) s0 hi hw
      (Nat.lt_succ_self _)
    exact ⟨search_measure V s0 + 1, s1, by simp [solve_next, h1, h2]⟩
  · intro calls s hc hsol
    have hi := inv_after_calls hs hc
    obtain ⟨hci, hsi⟩ := cost_inv_after_calls haddr hnw hs hc
    obtain ⟨_, ho, hp⟩ := (is_solved_iff s).1 hsol
    rw [hi.h_end] at hp ⊢
    have hea := (hi.parent_edge end_ hp).1
    obtain ⟨p, hgw⟩ := hci.has_walk end_ hea
    exact ⟨hgw.to_simple.to_walk, fun c hw => (walk_lower_bound hi hsi ho hw).2⟩

theorem demo_addr_injective : Function.Injective demo_addr := by
  intro a b h
  have h2 : a + 100 = b + 100 := h
  exact Nat.add_right_cancel h2

theorem solved_cost_is_minimal_witness :
    (∃ fuel s1, solve_next demo_addr fuel true
        (setup_state rb_set 1 2 unit_distance zero_heuristic one_edge_neighbor none) = some (s1, true))
    ∧ ∀ calls s, after_calls demo_addr calls
          (setup_state rb_set 1 2 unit_distance zero_heuristic one_edge_neighbor none) = some s →
        is_solved s = true →
        walk (edge one_edge_neighbor none 1 2) (edge_cost unit_distance 1 2) 1 2
          (deref s s.end_node_).value
        ∧ ∀ c, walk (edge one_edge_neighbor none 1 2) (edge_cost unit_distance 1 2) 1 2 c →
          (deref s s.end_node_).value ≤ c :=
  solved_cost_is_minimal demo_addr (gastar_new rb_set)
    (setup_state rb_set 1 2 unit_distance zero_heuristic one_edge_neighbor none) 1 2
    unit_distance zero_heuristic one_edge_neighbor none [1, 2] demo_addr_injective
    no_wrap_one_edge (by decide) graph_within_one_edge
    (setup_ok demo_addr (gastar_new rb_set) 1 2 unit_distance zero_heuristic one_edge_neighbor none
      (by decide) (by decide))

theorem neighbors_chain (u : ptr) :
    neighbors_of chain_neighbor u = if u = 1 then [2] else if u = 2 then [3] else [] := by
  unfold neighbors_of chain_neighbor
  split
  · simp [nullptr]
  · split <;> simp [nullptr]

theorem walk_chain {v : ptr} {c : Nat}
    (h : walk (edge chain_neighbor none 1 3) (edge_cost wrap_distance 1 3) 1 v c) :
    (v = 1 ∧ c = 0) ∨ (v = 2 ∧ c = 4294967295) ∨ (v = 3 ∧ c = 4294967297) := by
  induction h with
  | nil => exact Or.inl ⟨rfl, rfl⟩
  | @snoc a b k _ he ih =>
    have hm : b ∈ neighbors_of chain_neighbor a := he.1
    rw [neighbors_chain] at hm
    rcases ih with ⟨e1, e2⟩ | ⟨e1, e2⟩ | ⟨e1, _⟩
    · subst e1 e2
      have hb : b = 2 := by simpa using hm
      exact Or.inr (Or.inl ⟨hb, by simp [edge_cost, wrap_distance]⟩)
    · subst e1 e2
      have hb : b = 3 := by simpa using hm
      exact Or.inr (Or.inr ⟨hb, by simp [edge_cost, wrap_distance]⟩)
    · subst e1
      simp at hm

/-- C1 (as stated) fails: on the chain `1 → 2 → 3` with distances `4294967295` and `2`
and the zero heuristic, which is admissible and consistent, `setup` and `solve_next(true)`
leave a solved engine whose end node has `g_score` `1`, while every path from `1` to `3`
costs `4294967297`. -/
theorem solved_cost_wraps_around :
    wrap_session.map (fun s => (is_solved s, (deref s s.end_node_).value)) = some (true, 1)
    ∧ (∀ u v, zero_heuristic u nullptr 1 3 ≤ wrap_distance u v 1 3 + zero_heuristic v u 1 3)
    ∧ ∀ c, walk (edge chain_neighbor none 1 3) (edge_cost wrap_distance 1 3) 1 3 c →
        c = 4294967297 := by
  refine ⟨by decide, fun _ _ => Nat.zero_le _, ?_⟩
  intro c hc
  rcases walk_chain hc with ⟨e, _⟩ | ⟨e, _⟩ | ⟨_, e⟩
  · cases e
  · cases e
  · exact e


theorem simple_walk.bound {E : ptr → ptr → Prop} {d : ptr → ptr → Nat} {start : ptr}
    {V : List ptr} {D : Nat} (hstart : start ∈ V)
    (hE : ∀ u v, u ∈ V → E u v → v ∈ V ∧ d u v ≤ D)
    {p : List ptr} {k : ptr} {c : Nat} (h : simple_walk E d start p k c) :
    k ∈ V ∧ p.Nodup ∧ p ⊆ V ∧ c + D ≤ p.length * D := by
  induction h with
  | nil => exact ⟨hstart, by simp, by simpa using hstart, by simp⟩
  | @snoc p u v c _ he hn ih =>
    obtain ⟨h1, h2, h3, h4⟩ := ih
    obtain ⟨h5, h6⟩ := hE u v h1 he
    refine ⟨h5, List.nodup_cons.2 ⟨hn, h2⟩, List.cons_subset.2 ⟨h5, h3⟩, ?_⟩
    rw [List.length_cons, Nat.succ_mul]
    omega

/-- A numeric bound that excludes wrap-around: all edges inside the finite node list
`V` cost at most `D`, and `V.length * D` stays below `UINT_MOD`. -/
theorem no_wrap_of_bound {E : ptr → ptr → Prop} {d : ptr → ptr → Nat} {start : ptr}
    (V : List ptr) (D : Nat) (hstart : start ∈ V)
    (hE : ∀ u v, u ∈ V → E u v → v ∈ V ∧ d u v ≤ D)
    (hb : V.length * D < UINT_MOD) : no_wrap E d start := by
  intro p u c v hp he
  obtain ⟨h1, h2, h3, h4⟩ := hp.bound hstart hE
  have h5 := (hE u v h1 he).2
  have h6 : p.length ≤ V.length := (List.subperm_of_subset h2 h3).length_le
  have h7 : p.length * D ≤ V.length * D := Nat.mul_le_mul_right D h6
  omega


/-! ## Claims on `node_sort` -/

theorem node_sort_iff {a b : Nat × t_node} (h1 : a.1 ≠ b.1) (h2 : a.2.obj ≠ b.2.obj) :
    node_sort a b = true ↔
      (a.2.f_score < b.2.f_score
        ∨ (a.2.f_score = b.2.f_score
          ∧ (a.2.value < b.2.value ∨ (a.2.value = b.2.value ∧ a.1 < b.1)))) := by
  unfold node_sort
  have h : ¬ (a.1 = b.1 ∨ a.2.obj = b.2.obj) := fun h => h.elim h1 h2
  rw [if_neg h]
  split_ifs <;> simp <;> omega

theorem node_sort_same {a b : Nat × t_node} (h : a.1 = b.1 ∨ a.2.obj = b.2.obj) :
    node_sort a b = false := by
  unfold node_sort
  rw [if_pos h]

theorem node_sort_distinct {a b : Nat × t_node} (h : node_sort a b = true) :
    a.1 ≠ b.1 ∧ a.2.obj ≠ b.2.obj := by
  constructor
  · intro e
    rw [node_sort_same (Or.inl e)] at h
    cases h
  · intro e
    rw [node_sort_same (Or.inr e)] at h
    cases h

/-- C18: `node_sort` is irreflexive and asymmetric; on node pointers with distinct
addresses and distinct identities it is total (exactly one of `node_sort(a,b)`,
`node_sort(b,a)` holds) and transitive, and it orders by `f_score` ascending, then
`g_score` ascending, then address; for two records of the same identity it is false both
ways whatever their scores. -/
theorem node_sort_strict_order (a b c : Nat × t_node) :
    node_sort a a = false
    ∧ (node_sort a b = true → node_sort b a = false)
    ∧ (a.1 ≠ b.1 → a.2.obj ≠ b.2.obj →
        ((node_sort a b = true ∧ node_sort b a = false)
          ∨ (node_sort a b = false ∧ node_sort b a = true)))
    ∧ (a.1 ≠ c.1 → a.2.obj ≠ c.2.obj →
        node_sort a b = true → node_sort b c = true → node_sort a c = true)
    ∧ (a.1 ≠ b.1 → a.2.obj ≠ b.2.obj →
        (node_sort a b = true ↔
          (a.2.f_score < b.2.f_score
            ∨ (a.2.f_score = b.2.f_score
              ∧ (a.2.value < b.2.value ∨ (a.2.value = b.2.value ∧ a.1 < b.1))))))
    ∧ (a.2.obj = b.2.obj → node_sort a b = false ∧ node_sort b a = false) := by
  have asym : ∀ x y : Nat × t_node, node_sort x y = true → node_sort y x = false := by
    intro x y h
    obtain ⟨h1, h2⟩ := node_sort_distinct h
    have h3 := (node_sort_iff h1 h2).1 h
    cases hyx : node_sort y x with
    | false => rfl
    | true =>
      have h4 := (node_sort_iff (fun e => h1 e.symm) (fun e => h2 e.symm)).1 hyx
      omega
  refine ⟨node_sort_same (Or.inl rfl), asym a b, ?_, ?_, fun h1 h2 => node_sort_iff h1 h2, ?_⟩
  · intro h1 h2
    cases hab : node_sort a b with
    | true => exact Or.inl ⟨rfl, asym a b hab⟩
    | false =>
      refine Or.inr ⟨rfl, ?_⟩
      rw [node_sort_iff (fun e => h1 e.symm) (fun e => h2 e.symm)]
      have h3 : ¬ (node_sort a b = true) := by simp [hab]
      rw [node_sort_iff h1 h2] at h3
      omega
  · intro h1 h2 hab hbc
    obtain ⟨h3, h4⟩ := node_sort_distinct hab
    obtain ⟨h5, h6⟩ := node_sort_distinct hbc
    rw [node_sort_iff h3 h4] at hab
    rw [node_sort_iff h5 h6] at hbc
    rw [node_sort_iff h1 h2]
    omega
  · intro h
    exact ⟨node_sort_same (Or.inr h), node_sort_same (Or.inr h.symm)⟩


/-! ## Claims that hold in every session -/

theorem relax_of_rejected (addr : ptr → Nat) (t : gastar C) (v : ptr) (f : t_fn_usable)
    (hf : t.fn_usable_ = some f)
    (hr : f v (deref t t.current_node_).obj (deref t t.start_node_).obj
      (deref t t.end_node_).obj = false) :
    relax addr t v = some t := by
  unfold relax
  simp [hf, hr]

/-- C17: for every implementation `C` of the frontier container: a neighbor that a
present `usable_fn` rejects for `(neighbor, N, start, end)` leaves the engine as it is, node store and frontier included, so no store entry is
created for it; and in every engine of a session, a node `M` with parent `P` was
enumerated by `neighbor_fn(P)` and, when `usable_fn` is present,
`usable_fn(M, P, start, end)` returned true. -/
theorem rejected_neighbors_are_skipped (addr : ptr → Nat) (sp s0 s : gastar C)
    (start end_ : ptr) (fd : t_fn_distance) (fh : t_fn_heuristic) (fn : t_fn_neighbor)
    (fu : Option t_fn_usable) (calls : List (Nat × Bool))
    (hs : setup addr sp start end_ (some fd) (some fh) (some fn) fu = .ok s0)
    (hc : after_calls addr calls s0 = some s) :
    (∀ (t : gastar C) (v : ptr) (f : t_fn_usable), t.fn_usable_ = some f →
      f v (deref t t.current_node_).obj (deref t t.start_node_).obj
        (deref t t.end_node_).obj = false →
      relax addr t v = some t)
    ∧ ∀ m, (deref s m).parent ≠ nullptr →
        m ∈ neighbors_of fn (deref s m).parent
        ∧ ∀ f, fu = some f → f m (deref s m).parent start end_ = true := by
  refine ⟨relax_of_rejected addr, ?_⟩
  intro m hm
  obtain ⟨_, _, h1, h2⟩ := (inv_after_calls hs hc).parent_edge m hm
  refine ⟨h1, ?_⟩
  intro f hf
  subst hf
  exact h2

theorem rejected_neighbors_are_skipped_witness :
    ∃ s, fork_session = some s
      ∧ fork_usable 3 1 1 2 = false
      ∧ relax demo_addr (with_current (setup_state rb_set 1 2 unit_distance zero_heuristic
          fork_neighbor (some fork_usable)) 1) 3
        = some (with_current (setup_state rb_set 1 2 unit_distance zero_heuristic
          fork_neighbor (some fork_usable)) 1)
      ∧ s.all_nodes_ 3 = none
      ∧ (deref s 2).parent = 1 ∧ 2 ∈ neighbors_of fork_neighbor 1
      ∧ fork_usable 2 1 1 2 = true := by
  have hs := setup_ok demo_addr (gastar_new rb_set) 1 2 unit_distance zero_heuristic
    fork_neighbor (some fork_usable) (by decide) (by decide)
  cases hc : after_calls demo_addr [(5, true)]
      (setup_state rb_set 1 2 unit_distance zero_heuristic fork_neighbor
        (some fork_usable)) with
  | none =>
    have : (after_calls demo_addr [(5, true)]
      (setup_state rb_set 1 2 unit_distance zero_heuristic fork_neighbor
        (some fork_usable))).isSome = true := by decide
    rw [hc] at this
    cases this
  | some s =>
    have hp : (deref s 2).parent = 1 := by
      have : (after_calls demo_addr [(5, true)]
          (setup_state rb_set 1 2 unit_distance zero_heuristic fork_neighbor
            (some fork_usable))).map (fun s => (deref s 2).parent) = some 1 := by decide
      rw [hc] at this
      simpa using this
    have h3 : s.all_nodes_ 3 = none := by
      have : (after_calls demo_addr [(5, true)]
          (setup_state rb_set 1 2 unit_distance zero_heuristic fork_neighbor
            (some fork_usable))).map (fun s => s.all_nodes_ 3) = some none := by decide
      rw [hc] at this
      simpa using this
    have h := rejected_neighbors_are_skipped demo_addr (gastar_new rb_set) _ s 1 2
      unit_distance zero_heuristic fork_neighbor (some fork_usable) [(5, true)] hs hc
    have hm := h.2 2 (by rw [hp]; decide)
    rw [hp] at hm
    refine ⟨s, ?_, rfl, h.1 _ 3 fork_usable rfl rfl, h3, hp, hm.1, hm.2 fork_usable rfl⟩
    unfold fork_session
    rw [hs]
    exact hc

/-- C20: for every implementation `C` of the frontier container: when `setup` is called
with start equal to end, the start node never gets a parent, so `is_solved()` is false in every engine of the session and `reconstruct_end`
throws for every visitor, while on a finite graph `solve_next(true)` returns and
`is_done()` is then true. -/
theorem start_equal_end_never_solved {σ : Type} (addr : ptr → Nat) (sp s0 : gastar C)
    (start : ptr) (fd : t_fn_distance) (fh : t_fn_heuristic) (fn : t_fn_neighbor)
    (fu : Option t_fn_usable)
    (hs : setup addr sp start start (some fd) (some fh) (some fn) fu = .ok s0) :
    (∀ calls s, after_calls addr calls s0 = some s →
      (deref s s.start_node_).parent = nullptr
      ∧ is_solved s = false
      ∧ ∀ (fuel : Nat) (v : Option (ptr → σ → σ)) (w : σ),
          ∃ e, reconstruct_end fuel s v w = some (w, some e))
    ∧ ∀ V : List ptr, start ∈ V → graph_within fn V →
        ∃ fuel s1, solve_next addr fuel true s0 = some (s1, true)
          ∧ is_done s1 = true ∧ is_solved s1 = false := by
  have key : ∀ calls s, after_calls addr calls s0 = some s →
      (deref s s.start_node_).parent = nullptr ∧ is_solved s = false := by
    intro calls s hc
    have hi := inv_after_calls hs hc
    have hp : (deref s s.start_node_).parent = nullptr := by
      rw [hi.h_start]; exact hi.start_parent
    refine ⟨hp, ?_⟩
    cases hsol : is_solved s with
    | false => rfl
    | true =>
      obtain ⟨_, _, h3⟩ := (is_solved_iff s).1 hsol
      rw [hi.h_end, ← hi.h_start] at h3
      exact absurd hp h3
  constructor
  · intro calls s hc
    obtain ⟨h1, h2⟩ := key calls s hc
    refine ⟨h1, h2, ?_⟩
    intro fuel v w
    obtain ⟨w1, e, he⟩ := (reconstruct_end_throws_iff fuel s v w).2 (Or.inr h2)
    have := reconstruct_end_throws_state fuel s v w w1 e he
    subst this
    exact ⟨e, he⟩
  · intro V hstart hV
    have h0 : after_calls addr [] s0 = some s0 := rfl
    have hi := inv_after_calls hs h0
    have hw := assigned_within_after_calls hs h0 hstart hV
    obtain ⟨s1, h1, h2, h3⟩ := solve_loop_terminates addr V hV (search_measure V s0 + 1) s0
      hi hw (Nat.lt_succ_self _)
    have hsn : solve_next addr (search_measure V s0 + 1) true s0 = some (s1, true) := by
      simp [solve_next, h1, h2]
    have hc1 : after_calls addr [(search_measure V s0 + 1, true)] s0 = some s1 := by
      simp [after_calls, hsn]
    refine ⟨_, s1, hsn, ?_, (key _ s1 hc1).2⟩
    have hne : nullptr ≠ s1.end_node_ := by
      rw [h3.h_end]; exact fun e => h3.end_ne e.symm
    simp [is_done, h2, hne]

theorem start_equal_end_never_solved_witness :
    ∃ fuel s1, solve_next demo_addr fuel true
        (setup_state rb_set 1 1 unit_distance zero_heuristic one_edge_neighbor none) = some (s1, true)
      ∧ is_done s1 = true ∧ is_solved s1 = false :=
  (start_equal_end_never_solved (σ := List ptr) demo_addr (gastar_new rb_set)
    (setup_state rb_set 1 1 unit_distance zero_heuristic one_edge_neighbor none) 1
    unit_distance zero_heuristic one_edge_neighbor none
    (setup_ok demo_addr (gastar_new rb_set) 1 1 unit_distance zero_heuristic one_edge_neighbor none
      (by decide) (by decide))).2 [1, 2] (by decide) graph_within_one_edge


theorem after_calls_of_expand_n (addr : ptr → Nat) :
    ∀ (n : Nat) (s s1 : gastar C), expand_n addr n s = some s1 →
      after_calls addr (List.replicate n (1, false)) s = some s1 := by
  intro n
  induction n with
  | zero =>
    intro s s1 h
    simpa [expand_n, after_calls] using h
  | succ n ih =>
    intro s s1 h
    simp only [expand_n] at h
    cases hx : expand addr s with
    | none => simp [hx] at h
    | some s2 =>
      simp only [hx] at h
      have ho : (C.elems s.open_set_).isEmpty = false := by
        cases hs : C.elems s.open_set_ with
        | nil => simp [expand, hs] at hx
        | cons _ _ => rfl
      simp only [List.replicate_succ, after_calls, solve_next, solve_loop, ho,
        Bool.false_eq_true, if_false, hx, Option.map_some']
      exact ih s2 s1 h

/-- C19: for every implementation `C` of the frontier container: on a graph whose
nodes lie in a finite list closed under the neighbor enumeration, for every distance and
heuristic function, some number `k` of `solve_next(false)` calls after a successful
`setup` empties the frontier, and `solve_next(true)` returns true, leaving the same
engine. -/
theorem search_terminates (addr : ptr → Nat) (sp s0 : gastar C) (start end_ : ptr)
    (fd : t_fn_distance) (fh : t_fn_heuristic) (fn : t_fn_neighbor) (fu : Option t_fn_usable)
    (V : List ptr)
    (hs : setup addr sp start end_ (some fd) (some fh) (some fn) fu = .ok s0)
    (hstart : start ∈ V) (hV : graph_within fn V) :
    ∃ k s1, after_calls addr (List.replicate k (1, false)) s0 = some s1
      ∧ C.elems s1.open_set_ = []
      ∧ ∃ fuel, solve_next addr fuel true s0 = some (s1, true) := by
  have h0 : after_calls addr [] s0 = some s0 := rfl
  have hi := inv_after_calls hs h0
  have hw := assigned_within_after_calls hs h0 hstart hV
  obtain ⟨s1, h1, h2, _⟩ := solve_loop_terminates addr V hV (search_measure V s0 + 1) s0
    hi hw (Nat.lt_succ_self _)
  obtain ⟨k, hk, _⟩ := solve_loop_expands addr true _ s0 s1 h1
  exact ⟨k, s1, after_calls_of_expand_n addr k s0 s1 hk, h2,
    search_measure V s0 + 1, by simp [solve_next, h1, h2]⟩

theorem search_terminates_witness :
    ∃ k s1, after_calls demo_addr (List.replicate k (1, false))
        (setup_state rb_set 1 2 unit_distance zero_heuristic one_edge_neighbor none) = some s1
      ∧ rb_elems s1.open_set_ = []
      ∧ ∃ fuel, solve_next demo_addr fuel true
          (setup_state rb_set 1 2 unit_distance zero_heuristic one_edge_neighbor none)
            = some (s1, true) :=
  search_terminates demo_addr (gastar_new rb_set)
    (setup_state rb_set 1 2 unit_distance zero_heuristic one_edge_neighbor none) 1 2
    unit_distance zero_heuristic one_edge_neighbor none [1, 2]
    (setup_ok demo_addr (gastar_new rb_set) 1 2 unit_distance zero_heuristic one_edge_neighbor none
      (by decide) (by decide)) (by decide) graph_within_one_edge


section more_invariants

variable {addr : ptr → Nat} {fd : t_fn_distance} {fh : t_fn_heuristic} {fn : t_fn_neighbor}
  {fu : Option t_fn_usable} {start end_ : ptr}

/-- A property that `setup` establishes and every expansion keeps holds in every engine
of the session. -/
theorem session_induct (Q : gastar C → Prop) {sp s0 s : gastar C} {calls : List (Nat × Bool)}
    (hstep : ∀ t t1, inv fd fh fn fu start end_ t → Q t → expand addr t = some t1 → Q t1)
    (hs : setup addr sp start end_ (some fd) (some fh) (some fn) fu = .ok s0)
    (hc : after_calls addr calls s0 = some s)
    (h0 : Q (setup_state C start end_ fd fh fn fu)) : Q s := by
  obtain ⟨h1, h2, h3⟩ := setup_eq_ok hs
  subst h3
  obtain ⟨n, hn⟩ := after_calls_expands addr calls _ _ hc
  have key : ∀ (n : Nat) (t t1 : gastar C), inv fd fh fn fu start end_ t → Q t →
      expand_n addr n t = some t1 → Q t1 := by
    intro n
    induction n with
    | zero =>
      intro t t1 _ hq he
      simp [expand_n] at he
      subst he
      exact hq
    | succ n ih =>
      intro t t1 hi hq he
      simp only [expand_n] at he
      cases hx : expand addr t with
      | none => simp [hx] at he
      | some t2 =>
        simp only [hx] at he
        have ho : C.elems t.open_set_ ≠ [] := by
          intro ho
          simp [expand, ho] at hx
        obtain ⟨t2', hx', h2', _⟩ := inv_expand addr hi ho
        rw [hx] at hx'
        injection hx' with hx'
        subst hx'
        exact ih t2 t1 h2' (hstep t t2 hi hq hx) he
  exact key n _ _ (inv_setup_state (C := C) fd fh fn fu h1 h2) h0 hn

theorem f_score_inv_expand {t t1 : gastar C} (hi : inv fd fh fn fu start end_ t)
    (hf : f_score_inv fh start end_ t) (hx : expand addr t = some t1) :
    f_score_inv fh start end_ t1 := by
  cases hos : C.elems t.open_set_ with
  | nil => simp [expand, hos] at hx
  | cons b rest =>
    obtain ⟨t2, hx', _, _, _, h5⟩ := expand_induct addr
      (fun _ u => f_score_inv fh start end_ u) hi b rest hos
      (fun _ _ _ _ _ _ _ _ hP => hP)
      (fun _ v u _ huc _ _ _ hP => by
        intro k hk
        rw [deref_relaxed] at hk ⊢
        by_cases hkv : k = v
        · subst hkv
          simp only [if_true]
          rfl
        · rw [if_neg hkv] at hk ⊢
          exact hP k hk)
      (fun k hk => hf k hk)
    rw [hx] at hx'
    injection hx' with hx'
    subst hx'
    exact h5

theorem f_score_inv_setup_state (start end_ : ptr) (fd : t_fn_distance) (fh : t_fn_heuristic)
    (fn : t_fn_neighbor) (fu : Option t_fn_usable)
    (hh : fh start nullptr start end_ < UINT_MOD) :
    f_score_inv fh start end_ (setup_state C start end_ fd fh fn fu) := by
  intro k hk
  rw [deref_setup_state] at hk ⊢
  split_ifs at hk ⊢ with h1 h2
  · subst h1
    simp only [Nat.zero_add]
    exact (Nat.mod_eq_of_lt hh).symm
  all_goals simp [zero_node] at hk

end more_invariants

/-- C16: for every implementation `C` of the frontier container: in every engine of a
session, every assigned node `n` has
`f_score(n) = g_score(n) + heuristic_fn(n, parent(n), start, end)` as an `unsigned` sum
(the parent being null for the start node), for a heuristic whose values are `unsigned`. -/
theorem f_score_is_g_plus_heuristic (addr : ptr → Nat) (sp s0 s : gastar C)
    (start end_ : ptr) (fd : t_fn_distance) (fh : t_fn_heuristic) (fn : t_fn_neighbor)
    (fu : Option t_fn_usable) (calls : List (Nat × Bool))
    (hh : fh start nullptr start end_ < UINT_MOD)
    (hs : setup addr sp start end_ (some fd) (some fh) (some fn) fu = .ok s0)
    (hc : after_calls addr calls s0 = some s) :
    ∀ n, (deref s n).assigned = true →
      (deref s n).f_score
        = ((deref s n).value + fh n (deref s n).parent start end_) % UINT_MOD :=
  session_induct (f_score_inv fh start end_)
    (fun _ _ hi hf hx => f_score_inv_expand hi hf hx) hs hc
    (f_score_inv_setup_state start end_ fd fh fn fu hh)

theorem unit_session_state :
    ∃ s, after_calls demo_addr [(5, true)]
        (setup_state rb_set 1 2 unit_distance zero_heuristic one_edge_neighbor none) = some s
      ∧ unit_session = some s
      ∧ (deref s 2).assigned = true ∧ (deref s 2).parent = 1 ∧ (deref s 2).value = 1
      ∧ is_solved s = true ∧ s.current_node_ = 2 := by
  have hs := setup_ok demo_addr (gastar_new rb_set) 1 2 unit_distance zero_heuristic
    one_edge_neighbor none (by decide) (by decide)
  cases hc : after_calls demo_addr [(5, true)]
      (setup_state rb_set 1 2 unit_distance zero_heuristic one_edge_neighbor none) with
  | none =>
    have : (after_calls demo_addr [(5, true)]
      (setup_state rb_set 1 2 unit_distance zero_heuristic one_edge_neighbor none)).isSome = true := by
      decide
    rw [hc] at this
    cases this
  | some s =>
    have h1 : (after_calls demo_addr [(5, true)]
        (setup_state rb_set 1 2 unit_distance zero_heuristic one_edge_neighbor none)).map
        (fun s => ((deref s 2).assigned, (deref s 2).parent, (deref s 2).value))
        = some (true, 1, 1) := by decide
    have h2 : (after_calls demo_addr [(5, true)]
        (setup_state rb_set 1 2 unit_distance zero_heuristic one_edge_neighbor none)).map
        (fun s => (is_solved s, s.current_node_)) = some (true, 2) := by decide
    rw [hc] at h1 h2
    simp only [Option.map_some', Option.some.injEq, Prod.mk.injEq] at h1 h2
    refine ⟨s, rfl, ?_, h1.1, h1.2.1, h1.2.2, h2.1, h2.2⟩
    unfold unit_session
    rw [hs]
    exact hc

theorem f_score_is_g_plus_heuristic_witness :
    ∃ s, unit_session = some s ∧ (deref s 2).assigned = true
      ∧ (deref s 2).f_score
          = ((deref s 2).value + zero_heuristic 2 (deref s 2).parent 1 2) % UINT_MOD := by
  obtain ⟨s, hc, hu, ha, _⟩ := unit_session_state
  exact ⟨s, hu, ha, f_score_is_g_plus_heuristic demo_addr (gastar_new rb_set) _ s 1 2 unit_distance
    zero_heuristic one_edge_neighbor none [(5, true)] (by decide)
    (setup_ok demo_addr (gastar_new rb_set) 1 2 unit_distance zero_heuristic one_edge_neighbor none
      (by decide) (by decide)) hc 2 ha⟩


section reach_lemmas

variable {addr : ptr → Nat} {fd : t_fn_distance} {fh : t_fn_heuristic} {fn : t_fn_neighbor}
  {fu : Option t_fn_usable} {start end_ : ptr}

theorem reach_inv_expand {t t1 : gastar C} (hi : inv fd fh fn fu start end_ t)
    (hr : reach_inv (edge fn fu start end_) start t) (hx : expand addr t = some t1) :
    reach_inv (edge fn fu start end_) start t1 := by
  cases hos : C.elems t.open_set_ with
  | nil => simp [expand, hos] at hx
  | cons b rest =>
    obtain ⟨t2, hx', _, _, _, h5⟩ := expand_induct addr
      (fun _ u => reach_inv (edge fn fu start end_) start u) hi b rest hos
      (fun _ _ _ _ _ _ _ _ hP => hP)
      (fun _ v u _ huc hub hv hrel hP => by
        intro k hk
        rw [deref_relaxed] at hk
        by_cases hkv : k = v
        · subst hkv
          have hu := (relaxes_iff.1 hrel).1
          rw [huc] at hu
          exact reach.snoc (hP b hub) ⟨hv, hu⟩
        · rw [if_neg hkv] at hk
          exact hP k hk)
      (fun k hk => hr k hk)
    rw [hx] at hx'
    injection hx' with hx'
    subst hx'
    exact h5

theorem reach_inv_setup_state (E : ptr → ptr → Prop) (start end_ : ptr) (fd : t_fn_distance)
    (fh : t_fn_heuristic) (fn : t_fn_neighbor) (fu : Option t_fn_usable) :
    reach_inv E start (setup_state C start end_ fd fh fn fu) := by
  intro k hk
  rw [deref_setup_state] at hk
  split_ifs at hk with h1 h2
  all_goals first
    | (simp [zero_node] at hk; done)
    | exact h1 ▸ reach.nil

theorem spread_inv_expand (haddr : Function.Injective addr) {t t1 : gastar C}
    (hi : inv fd fh fn fu start end_ t)
    (hsp : spread_inv (edge fn fu start end_) nullptr [] t) (hx : expand addr t = some t1) :
    spread_inv (edge fn fu start end_) nullptr [] t1 := by
  cases hos : C.elems t.open_set_ with
  | nil => simp [expand, hos] at hx
  | cons b rest =>
    obtain ⟨t2, hx', _, _, _, h5⟩ := expand_induct addr
      (fun done_ u => spread_inv (edge fn fu start end_) b done_ u) hi b rest hos
      (fun done_ v u _ huc _ _ hrel hP => by
        intro k hk ho w he hd
        by_cases hkb : k = b
        · rcases List.mem_append.1 (hd hkb) with hw | hw
          · exact hP k hk ho w he (fun _ => hw)
          · have hwv : w = v := by simpa using hw
            subst hwv
            subst hkb
            have hu : usable fu start end_ u.current_node_ w = true := by
              rw [huc]; exact he.2
            have hr2 : ¬ (relaxes fd fu start end_ u w = true) := by simp [hrel]
            rw [relaxes_iff] at hr2
            cases h6 : (deref u w).assigned with
            | false => exact absurd ⟨hu, Or.inl h6⟩ hr2
            | true => rfl
        · exact hP k hk ho w he (fun e => absurd e hkb))
      (fun done_ v u hu huc hub hv hrel hP => by
        have hcur : (deref u u.current_node_).assigned = true := by rw [huc]; exact hub
        have hv' : v ∈ neighbors_of fn u.current_node_ := by rw [huc]; exact hv
        have h2 := inv_relaxed addr hu hcur hv' (relaxes_iff.1 hrel).1
          (hu.ne_start_of_relaxes hrel) (tentative_g_lt fd start end_ u v)
          (tentative_f fd fh start end_ u v)
        have hvo := mem_open_relaxed haddr hu h2
        intro k hk ho w he hd
        have hkv : k ≠ v := fun e => ho (e ▸ hvo)
        have hk2 : (deref u k).assigned = true := by
          rw [deref_relaxed, if_neg hkv] at hk
          exact hk
        have ho2 : k ∉ C.elems u.open_set_ := fun hm => ho (mem_emplace_of_mem _ _ _ _ hm)
        have hold : (deref u w).assigned = true →
            (deref (relaxed addr u v (tentative_g fd start end_ u v)
              (tentative_f fd fh start end_ u v)) w).assigned = true := by
          intro h3
          rw [deref_relaxed]
          split
          · rfl
          · exact h3
        by_cases hkb : k = b
        · rcases List.mem_append.1 (hd hkb) with hw | hw
          · exact hold (hP k hk2 ho2 w he (fun _ => hw))
          · have hwv : w = v := by simpa using hw
            rw [hwv, deref_relaxed, if_pos rfl]
        · exact hold (hP k hk2 ho2 w he (fun e => absurd e hkb)))
      (by
        intro k hk hko w he hd
        have hkb : k ≠ b := fun e => by
          have := hd e
          simp at this
        have hko2 : k ∉ C.elems t.open_set_ := by
          rw [hos]
          intro hm
          rcases List.mem_cons.1 hm with e | e
          · exact hkb e
          · exact hko (by
              have e2 : C.elems (with_current t b).open_set_ = rest :=
                elems_erase_begin_of_cons hos
              rw [e2]; exact e)
        exact hsp k hk hko2 w he (fun e => absurd e (hi.ne_null_of_assigned hk)))
    rw [hx] at hx'
    injection hx' with hx'
    subst hx'
    intro k hk hko w he _
    exact h5 k hk hko w he (fun e => e ▸ he.1)

theorem spread_inv_setup_state (E : ptr → ptr → Prop) (start end_ : ptr) (fd : t_fn_distance)
    (fh : t_fn_heuristic) (fn : t_fn_neighbor) (fu : Option t_fn_usable) :
    spread_inv E nullptr [] (setup_state C start end_ fd fh fn fu) := by
  intro k hk ho
  rw [deref_setup_state] at hk
  split_ifs at hk with h1 h2
  all_goals first
    | (simp [zero_node] at hk; done)
    | exact absurd (by
        show k ∈ C.elems (C.emplace (fun _ _ => false) start C.empty)
        rw [elems_emplace_empty, h1]
        exact List.mem_cons_self _ _) ho

theorem assigned_of_reach {s : gastar C} (hi : inv fd fh fn fu start end_ s)
    (hsp : spread_inv (edge fn fu start end_) nullptr [] s) (ho : C.elems s.open_set_ = [])
    {v : ptr} (hr : reach (edge fn fu start end_) start v) :
    (deref s v).assigned = true := by
  induction hr with
  | nil => exact hi.start_assigned
  | @snoc u v _ he ih =>
    exact hsp u ih (by rw [ho]; exact List.not_mem_nil _) v he
      (fun e => absurd e (hi.ne_null_of_assigned ih))

end reach_lemmas

/-- C11: for every implementation `C` of the frontier container: on a finite graph
`setup` followed by `solve_next(true)` returns, and afterwards a node, the end node in particular, is assigned if and only if some path leads to it from
start along enumerated neighbors that pass the usability test (the empty path when it is
the start node). -/
theorem end_assigned_iff_reachable (addr : ptr → Nat) (sp s0 : gastar C) (start end_ : ptr)
    (fd : t_fn_distance) (fh : t_fn_heuristic) (fn : t_fn_neighbor) (fu : Option t_fn_usable)
    (V : List ptr)
    (haddr : Function.Injective addr)
    (hs : setup addr sp start end_ (some fd) (some fh) (some fn) fu = .ok s0)
    (hstart : start ∈ V) (hV : graph_within fn V) :
    (∃ fuel s1, solve_next addr fuel true s0 = some (s1, true))
    ∧ ∀ fuel s1 b, solve_next addr fuel true s0 = some (s1, b) →
        ((deref s1 s1.end_node_).assigned = true ↔ reach (edge fn fu start end_) start end_)
        ∧ ∀ v, (deref s1 v).assigned = true ↔ reach (edge fn fu start end_) start v := by
  constructor
  · have h0 : after_calls addr [] s0 = some s0 := rfl
    have hi := inv_after_calls hs h0
    have hw := assigned_within_after_calls hs h0 hstart hV
    obtain ⟨s1, h1, h2, _⟩ := solve_loop_terminates addr V hV (search_measure V s0 + 1) s0
      hi hw (Nat.lt_succ_self _)
    exact ⟨search_measure V s0 + 1, s1, by simp [solve_next, h1, h2]⟩
  · intro fuel s1 b hr
    have hc : after_calls addr [(fuel, true)] s0 = some s1 := by
      simp [after_calls, hr]
    simp only [solve_next, Option.map_eq_some'] at hr
    obtain ⟨a, ha, hr⟩ := hr
    injection hr with hr1 _
    subst hr1
    have ho := solve_loop_true_empty addr fuel s0 a ha
    have hi := inv_after_calls hs hc
    have hre : reach_inv (edge fn fu start end_) start a :=
      session_induct (reach_inv (edge fn fu start end_) start)
        (fun _ _ hi hq hx => reach_inv_expand hi hq hx) hs hc
        (reach_inv_setup_state _ start end_ fd fh fn fu)
    have hsp : spread_inv (edge fn fu start end_) nullptr [] a :=
      session_induct (spread_inv (edge fn fu start end_) nullptr [])
        (fun _ _ hi hq hx => spread_inv_expand haddr hi hq hx) hs hc
        (spread_inv_setup_state _ start end_ fd fh fn fu)
    have key : ∀ v, (deref a v).assigned = true ↔ reach (edge fn fu start end_) start v :=
      fun v => ⟨hre v, fun h => assigned_of_reach hi hsp ho h⟩
    refine ⟨?_, key⟩
    rw [hi.h_end]
    exact key end_

theorem end_assigned_iff_reachable_witness :
    ∃ fuel s1, solve_next demo_addr fuel true
        (setup_state rb_set 1 2 unit_distance zero_heuristic one_edge_neighbor none) = some (s1, true)
      ∧ ((deref s1 s1.end_node_).assigned = true
          ↔ reach (edge one_edge_neighbor none 1 2) 1 2) := by
  have h := end_assigned_iff_reachable demo_addr (gastar_new rb_set)
    (setup_state rb_set 1 2 unit_distance zero_heuristic one_edge_neighbor none) 1 2
    unit_distance zero_heuristic one_edge_neighbor none [1, 2] demo_addr_injective
    (setup_ok demo_addr (gastar_new rb_set) 1 2 unit_distance zero_heuristic one_edge_neighbor none
      (by decide) (by decide)) (by decide) graph_within_one_edge
  obtain ⟨fuel, s1, h1⟩ := h.1
  exact ⟨fuel, s1, h1, (h.2 fuel s1 true h1).1⟩


/-! ## Claims on the frontier after an in-place score update -/

/-- C13 (what the code does): on the graph `1 → 2, 1 → 3, 1 → 4, 2 → 4`, after `setup`
and three `solve_next(false)` calls the frontier holds node `3` with `(f, g) = (5, 5)` and,
as a stale second entry, node `4` with `(f, g) = (2, 2)`; the fourth call makes node `3`
current, which is not the minimum of the frontier. -/
theorem pop_is_not_the_minimum :
    (dup_steps 3).map (fun s => rb_elems s.open_set_) = some [3, 4]
    ∧ (dup_steps 3).map (fun s => ((deref s 3).f_score, (deref s 3).value)) = some (5, 5)
    ∧ (dup_steps 3).map (fun s => ((deref s 4).f_score, (deref s 4).value)) = some (2, 2)
    ∧ (dup_steps 4).map (fun s => s.current_node_) = some 3 := by
  decide

theorem relax_all_append (addr : ptr → Nat) :
    ∀ (l1 l2 : List ptr) (s : gastar C),
      relax_all addr s (l1 ++ l2)
        = (relax_all addr s l1).bind (fun t => relax_all addr t l2) := by
  intro l1
  induction l1 with
  | nil => intro l2 s; rfl
  | cons a l1 ih =>
    intro l2 s
    simp only [List.cons_append, relax_all]
    cases relax addr s a with
    | none => rfl
    | some s1 => exact ih l2 s1

/-- C14 (what the code does): in the expansion of the popped node `b`, the pass of the
loop for an enumerated neighbor `v` relaxes it exactly when it passes the usability test
and is unassigned or reached at a lower `g_score`; then `v` gets `assigned = true`, the new
`g_score`, `f_score` and parent `b`, no other node record changes, and the frontier is
the result of `open_set_.emplace(v)` on the frontier as it was, whatever the container
implementation: `v` is in it, and the entries it had before, an older entry of `v`
included, are all still there in the same order (nothing is evicted, at most one entry is
added); otherwise the engine is unchanged. -/
theorem relaxation_rule (addr : ptr → Nat) (sp s0 s t : gastar C) (start end_ : ptr)
    (fd : t_fn_distance) (fh : t_fn_heuristic) (fn : t_fn_neighbor) (fu : Option t_fn_usable)
    (calls : List (Nat × Bool)) (b v : ptr) (rest pre post : List ptr)
    (haddr : Function.Injective addr)
    (hs : setup addr sp start end_ (some fd) (some fh) (some fn) fu = .ok s0)
    (hc : after_calls addr calls s0 = some s)
    (ho : C.elems s.open_set_ = b :: rest)
    (hn : neighbors_of fn b = pre ++ v :: post)
    (ht : relax_all addr (with_current s b) pre = some t) :
    t.current_node_ = b
    ∧ expand addr s = (relax addr t v).bind (fun t1 => relax_all addr t1 post)
    ∧ ∃ t1, relax addr t v = some t1
      ∧ ((usable fu start end_ b v = true
            ∧ ((deref t v).assigned = false
              ∨ ((deref t b).value + fd b v start end_) % UINT_MOD < (deref t v).value)) →
          t1.all_nodes_ v
              = some ⟨true, ((deref t b).value + fd b v start end_) % UINT_MOD,
                  (((deref t b).value + fd b v start end_) % UINT_MOD
                    + fh v b start end_) % UINT_MOD, b, v⟩
          ∧ (∀ k, k ≠ v → t1.all_nodes_ k = t.all_nodes_ k)
          ∧ v ∈ C.elems t1.open_set_
          ∧ (∀ x, x ∈ C.elems t.open_set_ → x ∈ C.elems t1.open_set_)
          ∧ t1.open_set_ = C.emplace (open_set_less addr t1) v t.open_set_
          ∧ (C.elems t.open_set_).Sublist (C.elems t1.open_set_)
          ∧ (C.elems t1.open_set_).length ≤ (C.elems t.open_set_).length + 1)
      ∧ (¬ (usable fu start end_ b v = true
            ∧ ((deref t v).assigned = false
              ∨ ((deref t b).value + fd b v start end_) % UINT_MOD < (deref t v).value)) →
          t1 = t) := by
  have hi := inv_after_calls hs hc
  have hb : (deref s b).assigned = true :=
    hi.open_assigned b (by rw [ho]; exact List.mem_cons_self _ _)
  have hpre : ∀ w, w ∈ pre → w ∈ neighbors_of fn b := by
    intro w hw
    rw [hn]
    exact List.mem_append_left _ hw
  obtain ⟨t', ht', hit, htc, htb, _⟩ := relax_all_induct addr b (fun _ _ => True)
    (fun _ _ _ _ _ _ _ _ _ => trivial) (fun _ _ _ _ _ _ _ _ _ => trivial)
    pre [] (with_current s b) (inv_pop hi b rest ho) rfl hb hpre trivial
  rw [ht] at ht'
  injection ht' with ht'
  subst ht'
  have hcur : (deref t t.current_node_).assigned = true := by rw [htc]; exact htb
  have hre := relax_eq addr hit hcur v
  refine ⟨htc, ?_, ?_⟩
  · have hx := expand_cons addr ho hi.h_fn
    rw [hi.obj_of_assigned hb, hn, relax_all_append] at hx
    rw [hx]
    show (relax_all addr (with_current s b) pre).bind
      (fun t => relax_all addr t (v :: post)) = _
    rw [ht]
    simp only [Option.some_bind, relax_all]
    cases relax addr t v <;> rfl
  · rw [hre]
    refine ⟨_, rfl, ?_, ?_⟩
    · intro hcond
      have hr : relaxes fd fu start end_ t v = true := by
        rw [relaxes_iff, htc]
        unfold tentative_g
        rw [htc]
        exact hcond
      rw [if_pos hr]
      have hv : v ∈ neighbors_of fn t.current_node_ := by
        rw [htc, hn]
        exact List.mem_append_right _ (List.mem_cons_self _ _)
      have h2 := inv_relaxed addr hit hcur hv (relaxes_iff.1 hr).1
        (hit.ne_start_of_relaxes hr) (tentative_g_lt fd start end_ t v)
        (tentative_f fd fh start end_ t v)
      refine ⟨?_, ?_, mem_open_relaxed haddr hit h2, ?_, rfl,
        sublist_emplace _ _ _, length_emplace_le _ _ _⟩
      · simp [relaxed, tentative_f, tentative_g, htc]
      · intro k hk
        simp [relaxed, hk]
      · intro x hx
        exact mem_emplace_of_mem _ _ _ _ hx
    · intro hcond
      have hr : ¬ (relaxes fd fu start end_ t v = true) := by
        rw [relaxes_iff, htc]
        unfold tentative_g
        rw [htc]
        exact hcond
      rw [if_neg hr]

theorem dup_first_step_state :
    ∃ s, after_calls demo_addr [(1, false)]
        (setup_state rb_set 1 9 dup_distance zero_heuristic dup_neighbor none) = some s
      ∧ rb_elems s.open_set_ = [2, 3, 4]
      ∧ (deref s 2).value = 1 ∧ (deref s 4).value = 10 := by
  cases hc : after_calls demo_addr [(1, false)]
      (setup_state rb_set 1 9 dup_distance zero_heuristic dup_neighbor none) with
  | none =>
    have : (after_calls demo_addr [(1, false)]
      (setup_state rb_set 1 9 dup_distance zero_heuristic dup_neighbor none)).isSome = true := by
      decide
    rw [hc] at this
    cases this
  | some s =>
    have h1 : (after_calls demo_addr [(1, false)]
        (setup_state rb_set 1 9 dup_distance zero_heuristic dup_neighbor none)).map
        (fun s => (rb_elems s.open_set_, (deref s 2).value, (deref s 4).value))
        = some ([2, 3, 4], 1, 10) := by decide
    rw [hc] at h1
    simp only [Option.map_some', Option.some.injEq, Prod.mk.injEq] at h1
    exact ⟨s, rfl, h1.1, h1.2.1, h1.2.2⟩

theorem relaxation_rule_witness :
    ∃ s t1, after_calls demo_addr [(1, false)]
        (setup_state rb_set 1 9 dup_distance zero_heuristic dup_neighbor none) = some s
      ∧ relax demo_addr (with_current s 2) 4 = some t1
      ∧ t1.all_nodes_ 4 = some ⟨true, 2, 2, 2, 4⟩
      ∧ 4 ∈ rb_set.elems t1.open_set_
      ∧ [3, 4].Sublist (rb_set.elems t1.open_set_) := by
  obtain ⟨s, hc, ho, h2, h4⟩ := dup_first_step_state
  have hd2 : (deref (with_current s 2) 2).value = 1 := h2
  have hd4 : (deref (with_current s 2) 4).value = 10 := h4
  obtain ⟨_, _, t1, h5, h6, _⟩ := relaxation_rule demo_addr (gastar_new rb_set) _ s
    (with_current s 2) 1 9 dup_distance zero_heuristic dup_neighbor none
    [(1, false)] 2 4 [3, 4] [] [] demo_addr_injective
    (setup_ok demo_addr (gastar_new rb_set) 1 9 dup_distance zero_heuristic dup_neighbor none
      (by decide) (by decide)) hc ho (by decide) rfl
  have hcond : usable none 1 9 2 4 = true
      ∧ ((deref (with_current s 2) 4).assigned = false
        ∨ ((deref (with_current s 2) 2).value + dup_distance 2 4 1 9) % UINT_MOD
            < (deref (with_current s 2) 4).value) := by
    refine ⟨rfl, Or.inr ?_⟩
    rw [hd2, hd4]
    decide
  obtain ⟨h7, _, h8, _, _, h9, _⟩ := h6 hcond
  have e : rb_set.elems (with_current s 2).open_set_ = [3, 4] :=
    elems_erase_begin_of_cons (C := rb_set) ho
  rw [e] at h9
  refine ⟨s, t1, hc, h5, ?_, h8, h9⟩
  rw [h7, hd2]
  rfl


/-! ## Parent chains -/

section rank_lemmas

variable {addr : ptr → Nat} {fd : t_fn_distance} {fh : t_fn_heuristic} {fn : t_fn_neighbor}
  {fu : Option t_fn_usable} {start end_ : ptr}

theorem rank_inv_relaxed (addr : ptr → Nat) {s : gastar C} {r : ptr → Nat}
    (h : inv fd fh fn fu start end_ s)
    (hc : cost_inv (edge fn fu start end_) (edge_cost fd start end_) start s)
    (hnw : no_wrap (edge fn fu start end_) (edge_cost fd start end_) start)
    (hcur : (deref s s.current_node_).assigned = true) {v : ptr}
    (hv : v ∈ neighbors_of fn s.current_node_)
    (hr : relaxes fd fu start end_ s v = true) (f : Nat)
    (hrk : rank_inv r s) :
    rank_inv (fun k => if k = v then r s.current_node_ + 1 else r k)
      (relaxed addr s v (tentative_g fd start end_ s v) f) := by
  obtain ⟨hu, hcond⟩ := relaxes_iff.1 hr
  have he : edge fn fu start end_ s.current_node_ v := ⟨hv, hu⟩
  have htg := tentative_g_eq hc hnw hcur he
  obtain ⟨_, hcv, hmono⟩ := cost_inv_relaxed addr h hc hnw hcur hv hr f
  intro k hk
  by_cases hkv : k = v
  · subst hkv
    have e1 : (deref (relaxed addr s k (tentative_g fd start end_ s k) f) k).parent
        = s.current_node_ := by
      rw [deref_relaxed, if_pos rfl]
    have e2 : (deref (relaxed addr s k (tentative_g fd start end_ s k) f) k).value
        = tentative_g fd start end_ s k := by
      rw [deref_relaxed, if_pos rfl]
    rw [e1, e2, deref_relaxed, if_neg hcv, htg]
    simp only [if_neg hcv, if_true]
    omega
  · have e1 : deref (relaxed addr s v (tentative_g fd start end_ s v) f) k = deref s k := by
      rw [deref_relaxed, if_neg hkv]
    rw [e1] at hk ⊢
    have hold := hrk k hk
    simp only [if_neg hkv]
    by_cases hpv : (deref s k).parent = v
    · have hva : (deref s v).assigned = true := hpv ▸ (h.parent_edge k hk).2.1
      have hlt : tentative_g fd start end_ s v < (deref s v).value := by
        rcases hcond with h3 | h3
        · rw [hva] at h3; cases h3
        · exact h3
      rw [hpv] at hold ⊢
      rw [deref_relaxed, if_pos rfl]
      left
      show tentative_g fd start end_ s v < _
      omega
    · rw [deref_relaxed, if_neg hpv]
      simp only [if_neg hpv]
      exact hold

theorem rank_inv_expand {t t1 : gastar C}
    (hnw : no_wrap (edge fn fu start end_) (edge_cost fd start end_) start)
    (hi : inv fd fh fn fu start end_ t)
    (hq : cost_inv (edge fn fu start end_) (edge_cost fd start end_) start t
      ∧ ∃ r, rank_inv r t)
    (hx : expand addr t = some t1) :
    cost_inv (edge fn fu start end_) (edge_cost fd start end_) start t1
      ∧ ∃ r, rank_inv r t1 := by
  cases hos : C.elems t.open_set_ with
  | nil => simp [expand, hos] at hx
  | cons b rest =>
    obtain ⟨r0, hr0⟩ := hq.2
    obtain ⟨t2, hx', _, _, _, h5⟩ := expand_induct addr
      (fun _ u => cost_inv (edge fn fu start end_) (edge_cost fd start end_) start u
        ∧ ∃ r, rank_inv r u) hi b rest hos
      (fun _ _ _ _ _ _ _ _ hP => hP)
      (fun _ v u hu huc hub hv hrel hP => by
        subst huc
        obtain ⟨r, hr⟩ := hP.2
        exact ⟨(cost_inv_relaxed addr hu hP.1 hnw hub hv hrel _).1,
          _, rank_inv_relaxed addr hu hP.1 hnw hub hv hrel _ hr⟩)
      ⟨cost_inv_congr (s := t) (fun _ => rfl) hq.1, r0, fun k hk => hr0 k hk⟩
    rw [hx] at hx'
    injection hx' with hx'
    subst hx'
    exact h5

theorem current_inv_expand {t t1 : gastar C} (hi : inv fd fh fn fu start end_ t)
    (hx : expand addr t = some t1) : current_inv t1 := by
  cases hos : C.elems t.open_set_ with
  | nil => simp [expand, hos] at hx
  | cons b rest =>
    obtain ⟨t2, hx', _, h3, h4, _⟩ := expand_induct addr (fun _ _ => True) hi b rest hos
      (fun _ _ _ _ _ _ _ _ _ => trivial) (fun _ _ _ _ _ _ _ _ _ => trivial) trivial
    rw [hx] at hx'
    injection hx' with hx'
    subst hx'
    right
    rw [h3]
    exact h4

/-- Following parent links from an assigned node of an engine with a ranking: the walk
returns, ends at the start node and visits no node twice. -/
theorem parent_chain {s : gastar C} {r : ptr → Nat} (hi : inv fd fh fn fu start end_ s)
    (hrk : rank_inv r s) :
    ∀ (n m : Nat) (k : ptr), (deref s k).assigned = true → (deref s k).value = n → r k = m →
      ∃ fuel l, parent_walk s fuel k = some (k :: l)
        ∧ (k :: l).getLast? = some start
        ∧ (k :: l).Nodup
        ∧ ∀ x, x ∈ l → rank_below r s x k := by
  intro n
  induction n using Nat.strong_induction_on with
  | _ n ihn =>
    intro m
    induction m using Nat.strong_induction_on with
    | _ m ihm =>
      intro k hk hn hm
      have hkn : k ≠ nullptr := hi.ne_null_of_assigned hk
      have hko : (deref s k).obj = k := hi.obj_of_assigned hk
      by_cases hp : (deref s k).parent = nullptr
      · refine ⟨2, [], ?_, ?_, ?_, ?_⟩
        · simp [parent_walk, hkn, hp, hko]
        · simp [hi.root k hk hp]
        · simp
        · intro x hx
          cases hx
      · obtain ⟨_, hqa, _⟩ := hi.parent_edge k hp
        have hlt := hrk k hp
        obtain ⟨fuel, l, h1, h2, h3, h4⟩ :
            ∃ fuel l, parent_walk s fuel (deref s k).parent = some ((deref s k).parent :: l)
              ∧ ((deref s k).parent :: l).getLast? = some start
              ∧ ((deref s k).parent :: l).Nodup
              ∧ ∀ x, x ∈ l → rank_below r s x (deref s k).parent := by
          rcases hlt with hl | ⟨he, hl⟩
          · exact ihn _ (by omega) _ _ hqa rfl rfl
          · exact ihm _ (by omega) _ hqa (by omega) rfl
        have hbelow : ∀ x, x ∈ (deref s k).parent :: l → rank_below r s x k := by
          intro x hx
          rcases List.mem_cons.1 hx with e | e
          · rw [e]; exact hlt
          · have := h4 x e
            unfold rank_below at this ⊢
            omega
        refine ⟨fuel + 1, (deref s k).parent :: l, ?_, ?_, ?_, hbelow⟩
        · have : parent_walk s (fuel + 1) k
              = (parent_walk s fuel (deref s k).parent).map
                  (fun l => (deref s k).obj :: l) := by
            rw [parent_walk.eq_def]
            simp [hkn]
          rw [this, h1, hko]
          rfl
        · rw [List.getLast?_cons_cons]
          exact h2
        · refine List.nodup_cons.2 ⟨?_, h3⟩
          intro hmem
          have := hbelow k hmem
          unfold rank_below at this
          omega

end rank_lemmas

/-- C15 (amended): for every implementation `C` of the frontier container: in every
engine of a session the start node has no parent and
`g_score` `0`; and when no sum of the session wraps around, following parent links from
any assigned node returns after finitely many steps at the start node without visiting a
node twice, and `reconstruct_end` and `reconstruct_current` return for every large enough
fuel. -/
theorem parent_chains_reach_start (addr : ptr → Nat) (sp s0 s : gastar C) (start end_ : ptr)
    (fd : t_fn_distance) (fh : t_fn_heuristic) (fn : t_fn_neighbor) (fu : Option t_fn_usable)
    (calls : List (Nat × Bool))
    (hs : setup addr sp start end_ (some fd) (some fh) (some fn) fu = .ok s0)
    (hc : after_calls addr calls s0 = some s) :
    (deref s s.start_node_).parent = nullptr
    ∧ (deref s s.start_node_).value = 0
    ∧ (no_wrap (edge fn fu start end_) (edge_cost fd start end_) start →
        (∀ k, (deref s k).assigned = true →
          ∃ fuel path, parent_walk s fuel k = some path
            ∧ path.head? = some k ∧ path.getLast? = some start ∧ path.Nodup)
        ∧ ∃ fuel, ∀ m, fuel ≤ m →
            (reconstruct_end m s (some record_visit) []).isSome = true
            ∧ (reconstruct_current m s (some record_visit) []).isSome = true) := by
  have hi := inv_after_calls hs hc
  refine ⟨by rw [hi.h_start]; exact hi.start_parent,
    by rw [hi.h_start]; exact hi.start_value, fun hnw => ?_⟩
  have hq : cost_inv (edge fn fu start end_) (edge_cost fd start end_) start s
      ∧ ∃ r, rank_inv r s :=
    session_induct
      (fun t => cost_inv (edge fn fu start end_) (edge_cost fd start end_) start t
        ∧ ∃ r, rank_inv r t)
      (fun _ _ hi hq hx => rank_inv_expand hnw hi hq hx) hs hc
      ⟨cost_inv_setup_state _ _ start end_ fd fh fn fu, fun _ => 0, by
        intro k hk
        rw [deref_setup_state] at hk
        split_ifs at hk <;> simp [zero_node, nullptr] at hk⟩
  have hcu : current_inv s :=
    session_induct current_inv (fun _ _ hi _ hx => current_inv_expand hi hx) hs hc
      (Or.inl rfl)
  obtain ⟨r, hr⟩ := hq.2
  have key : ∀ k, (deref s k).assigned = true →
      ∃ fuel path, parent_walk s fuel k = some path
        ∧ path.head? = some k ∧ path.getLast? = some start ∧ path.Nodup := by
    intro k hk
    obtain ⟨fuel, l, h1, h2, h3, _⟩ := parent_chain hi hr _ _ k hk rfl rfl
    exact ⟨fuel, k :: l, h1, rfl, h2, h3⟩
  have walks : ∀ k, k = nullptr ∨ (deref s k).assigned = true →
      ∃ fuel, (parent_walk s fuel k).isSome = true := by
    intro k hk
    rcases hk with hk | hk
    · exact ⟨1, by simp [parent_walk, hk]⟩
    · obtain ⟨fuel, path, h1, _⟩ := key k hk
      exact ⟨fuel, by rw [h1]; rfl⟩
  refine ⟨key, ?_⟩
  have hend : (deref s s.end_node_).assigned = true ∨ is_solved s = false := by
    cases hsol : is_solved s with
    | false => exact Or.inr rfl
    | true =>
      obtain ⟨_, _, hp⟩ := (is_solved_iff s).1 hsol
      exact Or.inl (hi.parent_edge _ hp).1
  obtain ⟨f1, hf1⟩ : ∃ fuel, (reconstruct_end fuel s (some record_visit) []).isSome = true := by
    rcases hend with he | he
    · obtain ⟨fuel, hf⟩ := walks _ (Or.inr he)
      refine ⟨fuel, ?_⟩
      unfold reconstruct_end
      simp only []
      split
      · rfl
      · cases hw : parent_walk s fuel s.end_node_ with
        | none => rw [hw] at hf; cases hf
        | some l => rfl
    · exact ⟨0, by simp [reconstruct_end, he]⟩
  obtain ⟨f2, hf2⟩ : ∃ fuel,
      (reconstruct_current fuel s (some record_visit) []).isSome = true := by
    obtain ⟨fuel, hf⟩ := walks _ hcu
    refine ⟨fuel, ?_⟩
    unfold reconstruct_current
    simp only []
    split
    · rfl
    · cases hw : parent_walk s fuel s.current_node_ with
      | none => rw [hw] at hf; cases hf
      | some l => rfl
  have mono_end : ∀ m, (reconstruct_end (f1 + m) s (some record_visit) []).isSome = true := by
    intro m
    unfold reconstruct_end at hf1 ⊢
    simp only [] at hf1 ⊢
    split
    · rfl
    · rename_i hns
      rw [if_neg hns] at hf1
      cases hw : parent_walk s f1 s.end_node_ with
      | none => rw [hw] at hf1; cases hf1
      | some l => rw [parent_walk_fuel_mono s f1 _ l hw m]; rfl
  have mono_cur : ∀ m,
      (reconstruct_current (f2 + m) s (some record_visit) []).isSome = true := by
    intro m
    unfold reconstruct_current at hf2 ⊢
    simp only [] at hf2 ⊢
    split
    · rfl
    · rename_i hns
      rw [if_neg hns] at hf2
      cases hw : parent_walk s f2 s.current_node_ with
      | none => rw [hw] at hf2; cases hf2
      | some l => rw [parent_walk_fuel_mono s f2 _ l hw m]; rfl
  refine ⟨f1 + f2, fun m hm => ?_⟩
  obtain ⟨d, rfl⟩ := Nat.exists_eq_add_of_le hm
  refine ⟨?_, ?_⟩
  · rw [Nat.add_assoc]
    exact mono_end (f2 + d)
  · have e : f1 + f2 + d = f2 + (f1 + d) := by omega
    rw [e]
    exact mono_cur (f1 + d)

theorem parent_chains_reach_start_witness :
    ∃ s, unit_session = some s
      ∧ (deref s s.start_node_).parent = nullptr
      ∧ (deref s s.start_node_).value = 0
      ∧ no_wrap (edge one_edge_neighbor none 1 2) (edge_cost unit_distance 1 2) 1
      ∧ ∃ fuel path, parent_walk s fuel 2 = some path
          ∧ path.head? = some 2 ∧ path.getLast? = some 1 ∧ path.Nodup := by
  obtain ⟨s, hc, hu, ha, _⟩ := unit_session_state
  have h := parent_chains_reach_start demo_addr (gastar_new rb_set) _ s 1 2 unit_distance
    zero_heuristic one_edge_neighbor none [(5, true)]
    (setup_ok demo_addr (gastar_new rb_set) 1 2 unit_distance zero_heuristic one_edge_neighbor none
      (by decide) (by decide)) hc
  exact ⟨s, hu, h.1, h.2.1, no_wrap_one_edge, (h.2.2 no_wrap_one_edge).1 2 ha⟩

theorem parent_walk_of_self_parent {s : gastar C} {k : ptr} (hk : k ≠ nullptr)
    (hp : (deref s k).parent = k) : ∀ fuel, parent_walk s fuel k = none := by
  intro fuel
  induction fuel with
  | zero => rfl
  | succ fuel ih => simp [parent_walk, hk, hp, ih]

/-- C15 (as stated) fails: on the graph `1 → 2, 2 → 2` with distances `5` and
`4294967295`, the sum for the edge `2 → 2` wraps around to a lower `g_score`, so after
`setup` and `solve_next(true)` the assigned end node `2` is its own parent, the engine is
solved, and neither the parent walk from `2` nor `reconstruct_end` returns, whatever the
fuel. -/
theorem parent_chain_cycles :
    ∃ s, loop_session = some s
      ∧ (deref s 2).assigned = true ∧ (deref s 2).parent = 2
      ∧ is_solved s = true
      ∧ (∀ fuel, parent_walk s fuel 2 = none)
      ∧ ∀ fuel, reconstruct_end fuel s (some record_visit) [] = none := by
  cases hc : loop_session with
  | none =>
    have : loop_session.isSome = true := by decide
    rw [hc] at this
    cases this
  | some s =>
    have h1 : loop_session.map (fun s => ((deref s 2).assigned, (deref s 2).parent))
        = some (true, 2) := by decide
    have h2 : loop_session.map is_solved = some true := by decide
    have h3 : loop_session.map (fun s => s.end_node_) = some 2 := by decide
    rw [hc] at h1 h2 h3
    simp only [Option.map_some', Option.some.injEq, Prod.mk.injEq] at h1 h2 h3
    have hw := parent_walk_of_self_parent (s := s) (k := 2) (by decide) h1.2
    refine ⟨s, rfl, h1.1, h1.2, h2, hw, ?_⟩
    intro fuel
    simp [reconstruct_end, h2, h3, hw fuel]


/-! ## Scenario A: the 3x3 grid -/

theorem graph_within_grid : graph_within grid_neighbor grid_cells := by
  unfold graph_within
  decide

theorem grid_edges_bounded :
    ∀ u, u ∈ grid_cells → ∀ v, v ∈ neighbors_of grid_neighbor u →
      manhattan v 1 ≤ manhattan u 1 + 1 ∧ manhattan u 1 ≤ manhattan v 1 + 1 := by
  decide

theorem mem_grid_cells_of_neighbor {u v : ptr} (h : v ∈ neighbors_of grid_neighbor u) :
    u ∈ grid_cells := by
  by_cases hu : 1 ≤ u ∧ u ≤ 9
  · obtain ⟨h1, h2⟩ := hu
    unfold grid_cells
    interval_cases u <;> simp
  · unfold neighbors_of grid_neighbor at h
    rw [if_neg hu] at h
    simp [nullptr] at h

theorem grid_edge_facts {u v : ptr} (h : edge grid_neighbor none 1 9 u v) :
    u ∈ grid_cells ∧ v ∈ grid_cells
      ∧ manhattan v 1 ≤ manhattan u 1 + 1 ∧ manhattan u 1 ≤ manhattan v 1 + 1 := by
  have hu := mem_grid_cells_of_neighbor h.1
  exact ⟨hu, graph_within_grid u hu v h.1, grid_edges_bounded u hu v h.1⟩

theorem no_wrap_grid :
    no_wrap (edge grid_neighbor none 1 9) (edge_cost unit_distance 1 9) 1 :=
  no_wrap_of_bound grid_cells 1 (by decide)
    (fun _ _ _ he => ⟨(grid_edge_facts he).2.1, Nat.le_refl _⟩) (by decide)

theorem grid_walk_lower_bound {v : ptr} {c : Nat}
    (h : walk (edge grid_neighbor none 1 9) (edge_cost unit_distance 1 9) 1 v c) :
    manhattan v 1 ≤ c := by
  induction h with
  | nil => decide
  | @snoc u v c _ he ih =>
    have h1 := (grid_edge_facts he).2.2.1
    have h2 : edge_cost unit_distance 1 9 u v = 1 := rfl
    omega

theorem grid_walk_to_end :
    walk (edge grid_neighbor none 1 9) (edge_cost unit_distance 1 9) 1 9 4 := by
  have e : ∀ u v, v ∈ neighbors_of grid_neighbor u → edge grid_neighbor none 1 9 u v :=
    fun _ _ h => ⟨h, rfl⟩
  have w0 : walk (edge grid_neighbor none 1 9) (edge_cost unit_distance 1 9) 1 1 0 :=
    walk.nil
  have w1 := walk.snoc w0 (e 1 2 (by decide))
  have w2 := walk.snoc w1 (e 2 3 (by decide))
  have w3 := walk.snoc w2 (e 3 6 (by decide))
  exact walk.snoc w3 (e 6 9 (by decide))

section grid_lemmas

variable {addr : ptr → Nat} {fd : t_fn_distance} {fh : t_fn_heuristic} {fn : t_fn_neighbor}
  {fu : Option t_fn_usable} {start end_ : ptr}

/-- Consecutive nodes of a parent walk: the second is the parent of the first, joined to
it by an edge that the `g_score`s account for. -/
theorem parent_walk_steps {s : gastar C} (hi : inv fd fh fn fu start end_ s)
    (hc : cost_inv (edge fn fu start end_) (edge_cost fd start end_) start s) :
    ∀ (fuel : Nat) (k : ptr) (l : List ptr), (deref s k).assigned = true →
      parent_walk s fuel k = some l →
      l.head? = some k
      ∧ l.Chain' (fun a b => edge fn fu start end_ b a
          ∧ (deref s b).value + edge_cost fd start end_ b a ≤ (deref s a).value
          ∧ (deref s b).assigned = true) := by
  intro fuel
  induction fuel with
  | zero => intro k l _ h; simp [parent_walk] at h
  | succ fuel ih =>
    intro k l hk h
    have hkn : k ≠ nullptr := hi.ne_null_of_assigned hk
    have hko : (deref s k).obj = k := hi.obj_of_assigned hk
    simp only [parent_walk, hkn, if_false, Option.map_eq_some', hko] at h
    obtain ⟨l2, h1, h2⟩ := h
    subst h2
    refine ⟨rfl, ?_⟩
    by_cases hp : (deref s k).parent = nullptr
    · rw [hp] at h1
      cases fuel with
      | zero => simp [parent_walk] at h1
      | succ fuel =>
        simp [parent_walk] at h1
        subst h1
        simp
    · obtain ⟨_, hqa, hqe⟩ := hi.parent_edge k hp
      obtain ⟨h3, h4⟩ := ih _ l2 hqa h1
      cases l2 with
      | nil => simp at h3
      | cons q l3 =>
        have hq : q = (deref s k).parent := by simpa using h3
        subst hq
        exact List.Chain'.cons ⟨hqe, hc.parent_cost k hp, hqa⟩ h4

theorem grid_path_length {s : gastar C}
    (hg : ∀ x, (deref s x).assigned = true → manhattan x 1 ≤ (deref s x).value)
    (hsv : (deref s 1).value = 0) :
    ∀ (l : List ptr) (k : ptr), l.head? = some k → (deref s k).value = manhattan k 1 →
      l.Chain' (fun a b => edge grid_neighbor none 1 9 b a
          ∧ (deref s b).value + edge_cost unit_distance 1 9 b a ≤ (deref s a).value
          ∧ (deref s b).assigned = true) →
      l.getLast? = some 1 → l.length = (deref s k).value + 1 := by
  intro l
  induction l with
  | nil => intro k h; simp at h
  | cons a l ih =>
    intro k hh hk hch hl
    have hak : a = k := by simpa using hh
    subst hak
    cases l with
    | nil =>
      have : a = 1 := by simpa using hl
      subst this
      simp [hsv]
    | cons b l2 =>
      obtain ⟨⟨he, hle, hba⟩, hch2⟩ := List.chain'_cons.1 hch
      have h1 := (grid_edge_facts he).2.2.1
      have h2 := hg b hba
      have h3 : edge_cost unit_distance 1 9 b a = 1 := rfl
      have hb : (deref s b).value = manhattan b 1 := by omega
      have := ih b rfl hb hch2 (by rw [List.getLast?_cons_cons] at hl; exact hl)
      simp only [List.length_cons] at this ⊢
      omega

end grid_lemmas

/-- C12: Scenario A. On the fully open 3x3 grid with start the top-left cell, end the
bottom-right cell, 4-directional neighbors, distance `1` per step, Manhattan-distance
heuristic and no usable function, wherever the node records are allocated, `setup`
followed by `solve_next(true)` returns, and afterwards `is_solved()` is true, the end node
has `g_score` `4`, and `reconstruct_end` visits exactly five identities. -/
theorem grid_scenario_a (addr : ptr → Nat) (sp s0 : gastar C)
    (haddr : Function.Injective addr)
    (hs : setup addr sp 1 9 (some unit_distance) (some grid_heuristic) (some grid_neighbor)
      none = .ok s0) :
    (∃ fuel s1, solve_next addr fuel true s0 = some (s1, true))
    ∧ ∀ fuel s1 b, solve_next addr fuel true s0 = some (s1, b) →
        is_solved s1 = true
        ∧ (deref s1 s1.end_node_).value = 4
        ∧ ∃ fuel0 path,
            (∀ k, fuel0 ≤ k →
              reconstruct_end k s1 (some record_visit) [] = some (path, none))
            ∧ path.length = 5 ∧ path.head? = some 9 ∧ path.getLast? = some 1 := by
  constructor
  · have h0 : after_calls addr [] s0 = some s0 := rfl
    have hi := inv_after_calls hs h0
    have hw := assigned_within_after_calls hs h0 (V := grid_cells) (by decide)
      graph_within_grid
    obtain ⟨s1, h1, h2, _⟩ := solve_loop_terminates addr grid_cells graph_within_grid
      (search_measure grid_cells s0 + 1) s0 hi hw (Nat.lt_succ_self _)
    exact ⟨search_measure grid_cells s0 + 1, s1, by simp [solve_next, h1, h2]⟩
  · intro fuel s1 b hr
    have hc : after_calls addr [(fuel, true)] s0 = some s1 := by
      simp [after_calls, hr]
    simp only [solve_next, Option.map_eq_some'] at hr
    obtain ⟨a, ha, hr⟩ := hr
    injection hr with hr1 _
    subst hr1
    have ho := solve_loop_true_empty addr fuel s0 a ha
    have hi := inv_after_calls hs hc
    obtain ⟨hci, hsi⟩ := cost_inv_after_calls haddr no_wrap_grid hs hc
    have hg : ∀ x, (deref a x).assigned = true → manhattan x 1 ≤ (deref a x).value := by
      intro x hx
      obtain ⟨p, hp⟩ := hci.has_walk x hx
      exact grid_walk_lower_bound hp.to_simple.to_walk
    obtain ⟨h9a, h9le⟩ := walk_lower_bound hi hsi ho grid_walk_to_end
    have h9 : (deref a 9).value = 4 := by
      have := hg 9 h9a
      have e : manhattan 9 1 = 4 := by decide
      omega
    have hp9 : (deref a 9).parent ≠ nullptr := by
      intro hp
      have := hi.root 9 h9a hp
      cases this
    have hsol : is_solved a = true := by
      rw [is_solved_iff, hi.h_end]
      exact ⟨by decide, ho, hp9⟩
    refine ⟨hsol, by rw [hi.h_end]; exact h9, ?_⟩
    obtain ⟨l, h1, h2, _, _⟩ := parent_walk_spec hi hci (fun _ _ _ => Nat.one_pos)
      ((deref a 9).value + 1) 9 h9a (Nat.lt_succ_self _)
    obtain ⟨_, hch⟩ := parent_walk_steps hi hci _ 9 _ h9a h1
    have hlen := grid_path_length hg hi.start_value (9 :: l) 9 rfl
      (by rw [h9]; decide) hch h2
    refine ⟨(deref a 9).value + 1 + 1, 9 :: l, ?_, by rw [hlen, h9], rfl, h2⟩
    intro k hk
    obtain ⟨m, rfl⟩ := Nat.exists_eq_add_of_le hk
    have := parent_walk_fuel_mono a _ _ _ h1 m
    simp only [reconstruct_end, hsol, Bool.not_true, Bool.false_eq_true, if_false, hi.h_end,
      this, Option.map_some', foldl_record_visit, List.nil_append]

theorem grid_scenario_a_witness :
    ∃ fuel s1, solve_next demo_addr fuel true
        (setup_state rb_set 1 9 unit_distance grid_heuristic grid_neighbor none) = some (s1, true)
      ∧ is_solved s1 = true
      ∧ (deref s1 s1.end_node_).value = 4
      ∧ ∃ fuel0 path, reconstruct_end fuel0 s1 (some record_visit) [] = some (path, none)
          ∧ path.length = 5 := by
  have h := grid_scenario_a demo_addr (gastar_new rb_set)
    (setup_state rb_set 1 9 unit_distance grid_heuristic grid_neighbor none) demo_addr_injective
    (setup_ok demo_addr (gastar_new rb_set) 1 9 unit_distance grid_heuristic grid_neighbor none
      (by decide) (by decide))
  obtain ⟨fuel, s1, h1⟩ := h.1
  obtain ⟨h2, h3, fuel0, path, h4, h5, _⟩ := h.2 fuel s1 true h1
  exact ⟨fuel, s1, h1, h2, h3, fuel0, path, h4 fuel0 (Nat.le_refl _), h5⟩

/-- The session of Scenario A with records allocated by `demo_addr`, evaluated: the search
is solved, the end node has `g_score` `4`, and `reconstruct_end` visits `9, 6, 3, 2, 1`. -/
theorem grid_session_run :
    grid_session.map is_solved = some true
    ∧ grid_session.map (fun s => (deref s 9).value) = some 4
    ∧ grid_session.bind (fun s => reconstruct_end 10 s (some record_visit) [])
        = some ([9, 6, 3, 2, 1], none) := by
  refine ⟨by decide, by decide, by decide⟩


end gastar
